import Mathlib

/-!
Entropy chunk computation (`crates/c/c_src/capacity_single.c`).

A shallow embedding of the five C functions of `capacity_single.c`
(`compute_seed_hash`, `compute_start_entropy_chunk`, `compute_start_entropy_chunk2`,
`compute_entropy_chunk`, `compute_entropy_chunk2`) and theorems about them.

Modelling conventions.

* Bytes are natural numbers, buffers are lists of bytes of a fixed length.  A store into
  a buffer keeps its length; a load or store that does not fit in the buffer is
  undefined behaviour of the C program and ends the run with `Exec.ub`.
* The build constants of the missing header `capacity.h` (`DATA_CHUNK_SIZE`,
  `PACKING_HASH_SIZE`, `PACKING_HASH_ALG`) are fields of `Params`.
* One `EVP_DigestInit_ex` / `EVP_DigestUpdate`* / `EVP_DigestFinal_ex` sequence is one
  application of the digest function to the concatenation of the updates; the length
  reported by `EVP_DigestFinal_ex` is the length of the digest.  Every such application
  is recorded, in order, in a log of digest inputs.
* `malloc` and `EVP_MD_CTX_new` may fail; whether a call site succeeds is an input of
  the model (`Env`).
* `while` and `for` loops take a fuel argument; `Exec.nofuel` is the answer of a run
  that was given too little fuel.
-/

namespace CapacitySingle

/-- A byte (`unsigned char`). -/
abbrev Byte := Nat

/-- Largest value of the C type `int` (32 bits). -/
def INT_MAX : Nat := 2147483647

/-- Value of `EVP_MD_size(EVP_sha256())`. -/
def EVP_sha256_size : Nat := 32

/-- The error codes of `capacity.h` that the C file returns. -/
inductive entropy_chunk_errors where
  | NO_ERROR
  | MEMORY_ALLOCATION_ERROR
  | SEED_HASH_ERROR
  | HASH_COMPUTATION_ERROR
  deriving DecidableEq, Repr

open entropy_chunk_errors

/-- Kinds of undefined behaviour a run of the C code can reach. -/
inductive UB where
  | out_of_bounds
  | signed_overflow
  | division_by_zero
  | indeterminate_read
  deriving DecidableEq, Repr

/-- Outcome of running a fragment of the C code. -/
inductive Exec (α : Type) where
  | ret (a : α)
  | ub (u : UB)
  | nofuel
  deriving DecidableEq, Repr

/-- Sequencing of two fragments. -/
def Exec.bind {α β : Type} (x : Exec α) (f : α → Exec β) : Exec β :=
  match x with
  | .ret a => f a
  | .ub u => .ub u
  | .nofuel => .nofuel

instance : Monad Exec where
  pure := Exec.ret
  bind := Exec.bind

/-- Build constants of `capacity.h` and of the platform.  The two sizes are values of `int`
macros. -/
structure Params where
  /-- Size in bytes of an entropy chunk. -/
  DATA_CHUNK_SIZE : Nat
  /-- Size in bytes of one segment of a chunk. -/
  PACKING_HASH_SIZE : Nat
  /-- The digest computed by an `EVP_Digest*` sequence with `PACKING_HASH_ALG`. -/
  PACKING_HASH_ALG : List Byte → List Byte
  /-- Byte order of the machine. -/
  big_endian : Bool

/-- Modelled from the spec: the macro `HASH_ITERATIONS_PER_BLOCK` of the missing
`capacity.h`, which the spec defines as `DATA_CHUNK_SIZE / PACKING_HASH_SIZE`. -/
def Params.HASH_ITERATIONS_PER_BLOCK (c : Params) : Nat :=
  c.DATA_CHUNK_SIZE / c.PACKING_HASH_SIZE

/-- Which `malloc` and `EVP_MD_CTX_new` call sites succeed, and what freshly allocated
memory contains. -/
structure Env where
  /-- `malloc(input_len)` in `compute_seed_hash`. -/
  malloc_input : Bool
  /-- `EVP_MD_CTX_new()` in `compute_seed_hash`. -/
  ctx_seed : Bool
  /-- `EVP_MD_CTX_new()` in `compute_start_entropy_chunk2`. -/
  ctx_start : Bool
  /-- `malloc(DATA_CHUNK_SIZE)` in `compute_entropy_chunk`. -/
  malloc_chunk : Bool
  /-- `EVP_MD_CTX_new()` in `compute_entropy_chunk2`. -/
  ctx_mix : Bool
  /-- Indeterminate content of the block returned by `malloc(DATA_CHUNK_SIZE)`. -/
  heap : Nat → Byte
  /-- Indeterminate content of the local array `seed_hash`. -/
  stack : Nat → Byte

/-- A writable buffer: its bytes and the `(offset, length)` of every store made into it,
oldest first. -/
structure Buf where
  bytes : List Byte
  writes : List (Nat × Nat)
  deriving DecidableEq, Repr

/-- Read `len` bytes at offset `off` of a buffer. -/
def load (b : List Byte) (off len : Nat) : Exec (List Byte) :=
  if off + len ≤ b.length then .ret ((b.drop off).take len) else .ub .out_of_bounds

/-- Write `data` at offset `off` of a buffer. -/
def Buf.store (b : Buf) (off : Nat) (data : List Byte) : Exec Buf :=
  if off + data.length ≤ b.bytes.length then
    .ret ⟨b.bytes.take off ++ data ++ b.bytes.drop (off + data.length),
          b.writes ++ [(off, data.length)]⟩
  else .ub .out_of_bounds

/-- The pointer `previous_segment` / `segment` of the two loops: it points either to the
buffer the caller passed (whose content is `data`) or into the chunk being written. -/
inductive SegPtr where
  | arg (data : List Byte)
  | chunk (off : Nat)
  deriving DecidableEq, Repr

/-- Read `len` bytes through a segment pointer. -/
def deref (chunk : Buf) (p : SegPtr) (len : Nat) : Exec (List Byte) :=
  match p with
  | .arg data => load data 0 len
  | .chunk off => load chunk.bytes off len

/-- The `n` low-order bytes of `x`, least significant first. -/
def le_bytes : Nat → Nat → List Byte
  | 0, _ => []
  | n + 1, x => x % 256 :: le_bytes n (x / 256)

/-- The object representation of `(uint64_t) chunk_offset`. -/
def u64_bytes (c : Params) (chunk_offset : Nat) : List Byte :=
  if c.big_endian then (le_bytes 8 (chunk_offset % 2 ^ 64)).reverse
  else le_bytes 8 (chunk_offset % 2 ^ 64)

/-- Conversion of a `size_t` value to `int` (reduction modulo `2 ^ 32` into the range
of `int`). -/
def to_int (n : Nat) : Int :=
  if n % 2 ^ 32 ≤ INT_MAX then (n % 2 ^ 32 : Nat) else (n % 2 ^ 32 : Nat) - 2 ^ 32

/-- What a call leaves behind: the returned code, the buffer it writes, and the inputs
of the digests it computed, in order. -/
structure Result where
  err : entropy_chunk_errors
  chunk : Buf
  log : List (List Byte)
  deriving DecidableEq, Repr

/-- Embedding of `compute_seed_hash`.  `seed_hash` is the buffer the digest is written to.

`input_len` is an `int`.  When the sum of the sizes wraps to a smaller non-negative value,
the block obtained from `malloc` is smaller than what the three `memcpy` write.  When it
wraps to a negative value, `malloc` and the digest are handed that value converted to
`size_t`, and the digest reads more bytes than the `memcpy` have initialised. -/
def compute_seed_hash (c : Params) (env : Env) (mining_addr : List Byte)
    (chunk_offset : Nat) (partition_hash : List Byte) (seed_hash : Buf) : Exec Result :=
  let input_len : Int := to_int (mining_addr.length + 8 + partition_hash.length)
  if !env.malloc_input then .ret ⟨MEMORY_ALLOCATION_ERROR, seed_hash, []⟩
  else if 0 ≤ input_len ∧
      input_len ≠ ((mining_addr.length + 8 + partition_hash.length : Nat) : Int) then
    .ub .out_of_bounds
  else
    let input := mining_addr ++ partition_hash ++ u64_bytes c chunk_offset
    if !env.ctx_seed then .ret ⟨SEED_HASH_ERROR, seed_hash, []⟩
    else if input_len < 0 then .ub .indeterminate_read
    else do
      let seed_hash ← seed_hash.store 0 (c.PACKING_HASH_ALG input)
      .ret ⟨NO_ERROR, seed_hash, [input]⟩

/-- State of the `while` loop of `compute_start_entropy_chunk2`. -/
structure FillState where
  chunk : Buf
  chunk_len : Nat
  previous_segment : SegPtr
  previous_segment_len : Nat
  log : List (List Byte)
  deriving DecidableEq, Repr

/-- One iteration of the `while` loop of `compute_start_entropy_chunk2`: digest the
previous segment into the chunk at `chunk_len`, then advance. -/
def fill_body (c : Params) (st : FillState) : Exec FillState := do
  let msg ← deref st.chunk st.previous_segment st.previous_segment_len
  let segment := c.PACKING_HASH_ALG msg
  let chunk ← st.chunk.store st.chunk_len segment
  .ret
    { chunk := chunk
      chunk_len := st.chunk_len + segment.length
      previous_segment := .chunk st.chunk_len
      previous_segment_len := segment.length
      log := st.log ++ [msg] }

/-- The `while (chunk_len < DATA_CHUNK_SIZE)` loop of `compute_start_entropy_chunk2`. -/
def fill_loop (c : Params) : Nat → FillState → Exec FillState
  | 0, _ => .nofuel
  | fuel + 1, st =>
    if st.chunk_len < c.DATA_CHUNK_SIZE then do
      let st ← fill_body c st
      fill_loop c fuel st
    else .ret st

/-- Embedding of `compute_start_entropy_chunk2`.  `previous_segment` holds the
`previous_segment_len` bytes the pointer argument designates. -/
def compute_start_entropy_chunk2 (c : Params) (fuel : Nat) (env : Env)
    (previous_segment : List Byte) (chunk : Buf) : Exec Result :=
  if !env.ctx_start then .ret ⟨HASH_COMPUTATION_ERROR, chunk, []⟩
  else do
    let st ← fill_loop c fuel
      { chunk := chunk
        chunk_len := 0
        previous_segment := .arg previous_segment
        previous_segment_len := previous_segment.length
        log := [] }
    .ret ⟨NO_ERROR, st.chunk, st.log⟩

/-- Embedding of `compute_start_entropy_chunk`.  `seed_hash` is a local array of
`EVP_MD_size(EVP_sha256())` bytes; all of them are passed on as the first segment, so
they must all have been written by `compute_seed_hash`. -/
def compute_start_entropy_chunk (c : Params) (fuel : Nat) (env : Env)
    (mining_addr : List Byte) (chunk_offset : Nat) (partition_hash : List Byte)
    (chunk : Buf) : Exec Result := do
  let hash_size := EVP_sha256_size
  let seed_hash : Buf := ⟨(List.range hash_size).map env.stack, []⟩
  let s ← compute_seed_hash c env mining_addr chunk_offset partition_hash seed_hash
  if s.err ≠ NO_ERROR then .ret ⟨s.err, chunk, s.log⟩
  else if s.chunk.writes ≠ [(0, hash_size)] then .ub .indeterminate_read
  else do
    let r ← compute_start_entropy_chunk2 c fuel env s.chunk.bytes chunk
    .ret ⟨r.err, r.chunk, s.log ++ r.log⟩

/-- State of the `for` loop of `compute_entropy_chunk2`. -/
structure MixState where
  new_entropy_chunk : Buf
  hash_count : Nat
  segment : SegPtr
  segment_len : Nat
  log : List (List Byte)
  deriving DecidableEq, Repr

/-- One iteration of the `for` loop of `compute_entropy_chunk2`, `++hash_count` included.
`hash_count` is an `int` that starts at `HASH_ITERATIONS_PER_BLOCK`, so it is never
negative; `++hash_count` overflows at `INT_MAX`.  The second `EVP_DigestUpdate` reads the
input chunk `entropy_chunk`, the digest is written to the output chunk. -/
def mix_body (c : Params) (entropy_chunk : List Byte) (st : MixState) : Exec MixState :=
  if c.HASH_ITERATIONS_PER_BLOCK = 0 then .ub .division_by_zero
  else do
    let start_offset := (st.hash_count % c.HASH_ITERATIONS_PER_BLOCK) * c.PACKING_HASH_SIZE
    let seg ← deref st.new_entropy_chunk st.segment st.segment_len
    let old ← load entropy_chunk start_offset c.PACKING_HASH_SIZE
    let digest := c.PACKING_HASH_ALG (seg ++ old)
    let chunk ← st.new_entropy_chunk.store start_offset digest
    if st.hash_count + 1 > INT_MAX then .ub .signed_overflow
    else
      .ret
        { new_entropy_chunk := chunk
          hash_count := st.hash_count + 1
          segment := .chunk start_offset
          segment_len := digest.length
          log := st.log ++ [seg ++ old] }

/-- The loop `for (int hash_count = HASH_ITERATIONS_PER_BLOCK;
hash_count < packing_sha_1_5_s; ++hash_count)` of `compute_entropy_chunk2`. -/
def mix_loop (c : Params) (entropy_chunk : List Byte) (packing_sha_1_5_s : Nat) :
    Nat → MixState → Exec MixState
  | 0, _ => .nofuel
  | fuel + 1, st =>
    if st.hash_count < packing_sha_1_5_s then do
      let st ← mix_body c entropy_chunk st
      mix_loop c entropy_chunk packing_sha_1_5_s fuel st
    else .ret st

/-- Embedding of `compute_entropy_chunk2`.  `segment` holds the `PACKING_HASH_SIZE` bytes
the pointer argument designates; `entropy_chunk` is the read-only input chunk and
`new_entropy_chunk` the output buffer, which does not overlap it. -/
def compute_entropy_chunk2 (c : Params) (fuel : Nat) (env : Env) (segment : List Byte)
    (entropy_chunk : List Byte) (new_entropy_chunk : Buf) (packing_sha_1_5_s : Nat) :
    Exec Result := do
  let src ← load entropy_chunk 0 c.DATA_CHUNK_SIZE
  let new_entropy_chunk ← new_entropy_chunk.store 0 src
  if !env.ctx_mix then .ret ⟨HASH_COMPUTATION_ERROR, new_entropy_chunk, []⟩
  else do
    let st ← mix_loop c entropy_chunk packing_sha_1_5_s fuel
      { new_entropy_chunk := new_entropy_chunk
        hash_count := c.HASH_ITERATIONS_PER_BLOCK
        segment := .arg segment
        segment_len := c.PACKING_HASH_SIZE
        log := [] }
    .ret ⟨NO_ERROR, st.new_entropy_chunk, st.log⟩

/-- Embedding of `compute_entropy_chunk`.  `entropy_chunk` is the caller's output
buffer. -/
def compute_entropy_chunk (c : Params) (fuel : Nat) (env : Env) (mining_addr : List Byte)
    (chunk_offset : Nat) (partition_hash : List Byte) (entropy_chunk : Buf)
    (packing_sha_1_5_s : Nat) : Exec Result :=
  let partial_entropy_chunk_size : Int :=
    ((c.HASH_ITERATIONS_PER_BLOCK : Int) - 1) * c.PACKING_HASH_SIZE
  if !env.malloc_chunk then .ret ⟨MEMORY_ALLOCATION_ERROR, entropy_chunk, []⟩
  else do
    let start_entropy_chunk : Buf := ⟨(List.range c.DATA_CHUNK_SIZE).map env.heap, []⟩
    let s ← compute_start_entropy_chunk c fuel env mining_addr chunk_offset partition_hash
      start_entropy_chunk
    if s.err ≠ NO_ERROR then .ret ⟨s.err, entropy_chunk, s.log⟩
    else if partial_entropy_chunk_size < 0 then .ub .out_of_bounds
    else do
      let last_entropy_chunk_segment ←
        load s.chunk.bytes partial_entropy_chunk_size.toNat c.PACKING_HASH_SIZE
      let r ← compute_entropy_chunk2 c fuel env last_entropy_chunk_segment s.chunk.bytes
        entropy_chunk packing_sha_1_5_s
      .ret ⟨r.err, r.chunk, s.log ++ r.log⟩

/-- Segment `k` of a chunk. -/
def segment_at (c : Params) (chunk : List Byte) (k : Nat) : List Byte :=
  (chunk.drop (k * c.PACKING_HASH_SIZE)).take c.PACKING_HASH_SIZE

/-- The constants describe a build the spec allows: a positive digest size that divides
a positive chunk size, and a digest function whose outputs have that size. -/
structure Params.Valid (c : Params) : Prop where
  hash_pos : 0 < c.PACKING_HASH_SIZE
  chunk_pos : 0 < c.DATA_CHUNK_SIZE
  divides : c.PACKING_HASH_SIZE ∣ c.DATA_CHUNK_SIZE
  digest_len : ∀ m, (c.PACKING_HASH_ALG m).length = c.PACKING_HASH_SIZE

/-- The chain of digests `digest s, digest (digest s), ...` of length `n`. -/
def chain (c : Params) : Nat → List Byte → List (List Byte)
  | 0, _ => []
  | n + 1, s => c.PACKING_HASH_ALG s :: chain c n (c.PACKING_HASH_ALG s)

/-- The bytes the pointer `segment` designates when the loop of `compute_entropy_chunk2`
is about to run with counter `i` on the output chunk `bytes`: the caller's segment before
the first iteration, afterwards the slot written by the previous iteration. -/
def chained (c : Params) (segment bytes : List Byte) (i : Nat) : List Byte :=
  if i = c.HASH_ITERATIONS_PER_BLOCK then segment.take c.PACKING_HASH_SIZE
  else segment_at c bytes ((i - 1) % c.HASH_ITERATIONS_PER_BLOCK)

/-- Invariant of the loop of `compute_entropy_chunk2`, for caller's segment `segment`,
input chunk `e` and an output buffer that had the stores `w0` after the initial copy. -/
structure MixInv (c : Params) (segment e : List Byte) (w0 : List (Nat × Nat))
    (st : MixState) : Prop where
  count_ge : c.HASH_ITERATIONS_PER_BLOCK ≤ st.hash_count
  len : st.new_entropy_chunk.bytes.length = c.DATA_CHUNK_SIZE
  seg_len : st.segment_len = c.PACKING_HASH_SIZE
  ptr : st.segment = if st.hash_count = c.HASH_ITERATIONS_PER_BLOCK then SegPtr.arg segment
    else SegPtr.chunk (((st.hash_count - 1) % c.HASH_ITERATIONS_PER_BLOCK) *
      c.PACKING_HASH_SIZE)
  untouched : ∀ j, st.hash_count - c.HASH_ITERATIONS_PER_BLOCK ≤ j →
    j < c.HASH_ITERATIONS_PER_BLOCK →
    segment_at c st.new_entropy_chunk.bytes j = segment_at c e j
  log_len : st.log.length = st.hash_count - c.HASH_ITERATIONS_PER_BLOCK
  writes : ∃ ws, st.new_entropy_chunk.writes = w0 ++ ws ∧
    ws.length = st.hash_count - c.HASH_ITERATIONS_PER_BLOCK ∧
    ∀ w ∈ ws, w.2 = c.PACKING_HASH_SIZE ∧ c.PACKING_HASH_SIZE ∣ w.1 ∧
      w.1 + w.2 ≤ c.DATA_CHUNK_SIZE

/-- The byte string `compute_seed_hash` hands to the digest. -/
def seed_input (c : Params) (mining_addr : List Byte) (chunk_offset : Nat)
    (partition_hash : List Byte) : List Byte :=
  mining_addr ++ partition_hash ++ u64_bytes c chunk_offset

/-- The chunk made of the first `HASH_ITERATIONS_PER_BLOCK` links of the digest chain
that starts at `seed`. -/
def chain_chunk (c : Params) (seed : List Byte) : List Byte :=
  (chain c c.HASH_ITERATIONS_PER_BLOCK seed).flatten

/-- The stores of a front-to-back fill of a chunk, one per segment. -/
def fill_writes (c : Params) : List (Nat × Nat) :=
  (List.range c.HASH_ITERATIONS_PER_BLOCK).map
    (fun k => (k * c.PACKING_HASH_SIZE, c.PACKING_HASH_SIZE))

/-- The digest inputs of a front-to-back fill that starts at `seed`. -/
def fill_log (c : Params) (seed : List Byte) : List (List Byte) :=
  (seed :: chain c c.HASH_ITERATIONS_PER_BLOCK seed).take c.HASH_ITERATIONS_PER_BLOCK

/-- State of the loop of `compute_entropy_chunk2` when it is entered: the output buffer
holds a copy of the input chunk `e`. -/
def mix_init (c : Params) (segment e : List Byte) (out : Buf) : MixState :=
  { new_entropy_chunk := ⟨e, out.writes ++ [(0, c.DATA_CHUNK_SIZE)]⟩
    hash_count := c.HASH_ITERATIONS_PER_BLOCK
    segment := SegPtr.arg segment
    segment_len := c.PACKING_HASH_SIZE
    log := [] }

/-- A reduced deterministic digest with `size`-byte outputs, used in place of the real
digest algorithm on concrete inputs. -/
def test_digest (size : Nat) (m : List Byte) : List Byte :=
  List.replicate size (m.foldl (fun a b => (3 * a + b + 1) % 251) 7)

/-- Toy constants: chunk size `d`, digest size `s`, the reduced digest, little endian. -/
def toy (d s : Nat) : Params :=
  { DATA_CHUNK_SIZE := d
    PACKING_HASH_SIZE := s
    PACKING_HASH_ALG := test_digest s
    big_endian := false }

/-- An environment in which every allocation and every context creation succeeds and
fresh memory is zeroed. -/
def env_ok : Env :=
  { malloc_input := true
    ctx_seed := true
    ctx_start := true
    malloc_chunk := true
    ctx_mix := true
    heap := fun _ => 0
    stack := fun _ => 0 }

/-- Every allocation and every digest-context creation of a call succeeds. -/
def Env.succeeds (env : Env) : Prop :=
  env.malloc_chunk = true ∧ env.malloc_input = true ∧ env.ctx_seed = true ∧
    env.ctx_start = true ∧ env.ctx_mix = true

/-- The chunk of the initial fill for given identity inputs: the digest chain that starts
at the seed hash. -/
def initial_chunk (c : Params) (mining_addr : List Byte) (chunk_offset : Nat)
    (partition_hash : List Byte) : List Byte :=
  chain_chunk c (c.PACKING_HASH_ALG (seed_input c mining_addr chunk_offset partition_hash))

/-- The digest inputs of the seed derivation and the initial fill. -/
def initial_log (c : Params) (mining_addr : List Byte) (chunk_offset : Nat)
    (partition_hash : List Byte) : List (List Byte) :=
  seed_input c mining_addr chunk_offset partition_hash ::
    fill_log c (c.PACKING_HASH_ALG (seed_input c mining_addr chunk_offset partition_hash))

/-- The last segment of the initial chunk, which `compute_entropy_chunk` copies into
`last_entropy_chunk_segment`. -/
def last_segment (c : Params) (mining_addr : List Byte) (chunk_offset : Nat)
    (partition_hash : List Byte) : List Byte :=
  segment_at c (initial_chunk c mining_addr chunk_offset partition_hash)
    (c.HASH_ITERATIONS_PER_BLOCK - 1)

/-- The result of `compute_entropy_chunk` with the toy constants `64`, `32` for address
`"A"`, offset `0`, partition hash `"P"` and requested count `5`. -/
def toy_run_A : Result :=
  { err := NO_ERROR
    chunk := ⟨List.replicate 32 171 ++ List.replicate 32 30,
      [(0, 64), (0, 32), (32, 32), (0, 32)]⟩
    log := [[65, 80, 0, 0, 0, 0, 0, 0, 0, 0], List.replicate 32 190, List.replicate 32 163,
      List.replicate 32 200 ++ List.replicate 32 163,
      List.replicate 32 173 ++ List.replicate 32 200,
      List.replicate 32 30 ++ List.replicate 32 163] }

/-- The same for address `"@"`, which differs from `"A"` in one bit. -/
def toy_run_B : Result :=
  { err := NO_ERROR
    chunk := ⟨List.replicate 32 168 ++ List.replicate 32 114,
      [(0, 64), (0, 32), (32, 32), (0, 32)]⟩
    log := [[64, 80, 0, 0, 0, 0, 0, 0, 0, 0], List.replicate 32 85, List.replicate 32 28,
      List.replicate 32 134 ++ List.replicate 32 28,
      List.replicate 32 183 ++ List.replicate 32 134,
      List.replicate 32 114 ++ List.replicate 32 28] }

/-- The result of `compute_start_entropy_chunk` with the toy constants `64`, `32` for
address `"A"`, offset `0` and partition hash `"P"`. -/
def toy_run_start : Result :=
  { err := NO_ERROR
    chunk := ⟨List.replicate 32 163 ++ List.replicate 32 200, [(0, 32), (32, 32)]⟩
    log := [[65, 80, 0, 0, 0, 0, 0, 0, 0, 0], List.replicate 32 190, List.replicate 32 163] }

/-- The result of `compute_entropy_chunk` on the same inputs for the requested count `4`. -/
def toy_run_A4 : Result :=
  { err := NO_ERROR
    chunk := ⟨List.replicate 32 173 ++ List.replicate 32 30, [(0, 64), (0, 32), (32, 32)]⟩
    log := [[65, 80, 0, 0, 0, 0, 0, 0, 0, 0], List.replicate 32 190, List.replicate 32 163,
      List.replicate 32 200 ++ List.replicate 32 163,
      List.replicate 32 173 ++ List.replicate 32 200] }

/-- The error kind the spec gives to a call of `compute_entropy_chunk`: that of the first
resource that cannot be obtained, in the order in which the stages ask for them, and
`NO_ERROR` when there is none. -/
def expected_error (env : Env) : entropy_chunk_errors :=
  if env.malloc_chunk = false then MEMORY_ALLOCATION_ERROR
  else if env.malloc_input = false then MEMORY_ALLOCATION_ERROR
  else if env.ctx_seed = false then SEED_HASH_ERROR
  else if env.ctx_start = false then HASH_COMPUTATION_ERROR
  else if env.ctx_mix = false then HASH_COMPUTATION_ERROR
  else NO_ERROR

/-- The stores `ws` made into a chunk all stay inside the chunk, and every one of its
`HASH_ITERATIONS_PER_BLOCK` segments lies inside one of them. -/
def populates (c : Params) (ws : List (Nat × Nat)) : Prop :=
  (∀ w ∈ ws, w.1 + w.2 ≤ c.DATA_CHUNK_SIZE) ∧
  ∀ k, k < c.HASH_ITERATIONS_PER_BLOCK →
    ∃ w ∈ ws, w.1 ≤ k * c.PACKING_HASH_SIZE ∧ (k + 1) * c.PACKING_HASH_SIZE ≤ w.1 + w.2

/-- Relation between two runs of the mixing loop that are at the same iteration: the
chained segments differ and the output chunks differ on every segment. -/
structure MixDiffer (c : Params) (seg1 seg2 : List Byte) (st1 st2 : MixState) : Prop where
  count : st1.hash_count = st2.hash_count
  chain : chained c seg1 st1.new_entropy_chunk.bytes st1.hash_count ≠
    chained c seg2 st2.new_entropy_chunk.bytes st2.hash_count
  segments : ∀ k, k < c.HASH_ITERATIONS_PER_BLOCK →
    segment_at c st1.new_entropy_chunk.bytes k ≠ segment_at c st2.new_entropy_chunk.bytes k

/-- Every digest input of `log` after the first starts with the output of the digest
before it; up to the `HASH_ITERATIONS_PER_BLOCK`-th chained digest it is that output, from
then on the output is followed by the slot of the chunk `e` that the iteration reads. -/
def log_linked (c : Params) (e : List Byte) (log : List (List Byte)) : Prop :=
  ∀ j, j + 1 < log.length → ∃ x, log[j]? = some x ∧
    log[j + 1]? = some (c.PACKING_HASH_ALG x ++
      if j < c.HASH_ITERATIONS_PER_BLOCK then []
      else segment_at c e (j % c.HASH_ITERATIONS_PER_BLOCK))

/-- Every one of the `HASH_ITERATIONS_PER_BLOCK` segments of `bytes` is the output of a
digest whose input is recorded in `log`. -/
def segments_digested (c : Params) (log : List (List Byte)) (bytes : List Byte) : Prop :=
  ∀ k, k < c.HASH_ITERATIONS_PER_BLOCK →
    ∃ x ∈ log, segment_at c bytes k = c.PACKING_HASH_ALG x

@[simp]
theorem Exec.ret_bind {α β : Type} (a : α) (f : α → Exec β) :
    (Exec.ret a >>= f) = f a := rfl

@[simp]
theorem Exec.ub_bind {α β : Type} (u : UB) (f : α → Exec β) :
    ((Exec.ub u : Exec α) >>= f) = Exec.ub u := rfl

@[simp]
theorem Exec.nofuel_bind {α β : Type} (f : α → Exec β) :
    ((Exec.nofuel : Exec α) >>= f) = Exec.nofuel := rfl

@[simp]
theorem Exec.pure_eq {α : Type} (a : α) : (pure a : Exec α) = Exec.ret a := rfl

theorem Exec.bind_eq_ret {α β : Type} {x : Exec α} {f : α → Exec β} {b : β}
    (h : (x >>= f) = Exec.ret b) : ∃ a, x = Exec.ret a ∧ f a = Exec.ret b := by
  cases x with
  | ret a => exact ⟨a, rfl, h⟩
  | ub u => simp at h
  | nofuel => simp at h

theorem load_ok {b : List Byte} {off len : Nat} (h : off + len ≤ b.length) :
    load b off len = Exec.ret ((b.drop off).take len) := by
  simp [load, h]

theorem store_ok {b : Buf} {off : Nat} {data : List Byte}
    (h : off + data.length ≤ b.bytes.length) :
    b.store off data = Exec.ret ⟨b.bytes.take off ++ data ++ b.bytes.drop (off + data.length),
      b.writes ++ [(off, data.length)]⟩ := by
  simp [Buf.store, h]

theorem fill_loop_run (c : Params) (hd : ∀ m, (c.PACKING_HASH_ALG m).length = c.PACKING_HASH_SIZE)
    (hP : 0 < c.PACKING_HASH_SIZE) :
    ∀ (n : Nat) (pre post : List Byte) (w : List (Nat × Nat)) (p : SegPtr) (len : Nat)
      (log : List (List Byte)) (msg : List Byte) (fuel : Nat),
      post.length = n * c.PACKING_HASH_SIZE →
      c.DATA_CHUNK_SIZE = pre.length + n * c.PACKING_HASH_SIZE →
      deref ⟨pre ++ post, w⟩ p len = Exec.ret msg →
      n < fuel →
      ∃ st, fill_loop c fuel ⟨⟨pre ++ post, w⟩, pre.length, p, len, log⟩ = Exec.ret st ∧
        st.chunk.bytes = pre ++ (chain c n msg).flatten ∧
        st.chunk.writes =
          w ++ (List.range n).map (fun k => (pre.length + k * c.PACKING_HASH_SIZE,
            c.PACKING_HASH_SIZE)) ∧
        st.log = log ++ (msg :: chain c n msg).take n ∧
        st.chunk_len = c.DATA_CHUNK_SIZE := by
  intro n
  induction n with
  | zero =>
    intro pre post w p len log msg fuel hpost hD _ hfuel
    obtain ⟨fuel, rfl⟩ : ∃ f, fuel = f + 1 := ⟨fuel - 1, by omega⟩
    have hpost0 : post = [] := by
      apply List.eq_nil_of_length_eq_zero; simpa using hpost
    subst hpost0
    refine ⟨⟨⟨pre ++ [], w⟩, pre.length, p, len, log⟩, ?_, ?_, ?_, ?_, ?_⟩
    · simp only [fill_loop]
      rw [if_neg (by simp at hD; simp [hD])]
    · simp [chain]
    · simp
    · simp
    · simp at hD; simp [hD]
  | succ n ih =>
    intro pre post w p len log msg fuel hpost hD hmsg hfuel
    obtain ⟨fuel, rfl⟩ : ∃ f, fuel = f + 1 := ⟨fuel - 1, by omega⟩
    have hlt : pre.length < c.DATA_CHUNK_SIZE := by
      rw [hD, Nat.succ_mul]; omega
    have hPle : c.PACKING_HASH_SIZE ≤ post.length := by
      rw [hpost, Nat.succ_mul]; omega
    have hstore : (⟨pre ++ post, w⟩ : Buf).store pre.length (c.PACKING_HASH_ALG msg) =
        Exec.ret ⟨(pre ++ c.PACKING_HASH_ALG msg) ++ post.drop c.PACKING_HASH_SIZE,
          w ++ [(pre.length, c.PACKING_HASH_SIZE)]⟩ := by
      rw [store_ok (by simp [hd]; omega)]
      simp [hd, List.take_append_eq_append_take, List.drop_append_eq_append_drop]
    have hderef : deref ⟨(pre ++ c.PACKING_HASH_ALG msg) ++ post.drop c.PACKING_HASH_SIZE,
          w ++ [(pre.length, c.PACKING_HASH_SIZE)]⟩ (SegPtr.chunk pre.length)
          c.PACKING_HASH_SIZE = Exec.ret (c.PACKING_HASH_ALG msg) := by
      simp only [deref]
      rw [load_ok (by simp [hd])]
      simp [hd, List.take_append_eq_append_take, List.drop_append_eq_append_drop]
    obtain ⟨st, hrun, hb, hw, hl, hlen⟩ := ih (pre ++ c.PACKING_HASH_ALG msg)
      (post.drop c.PACKING_HASH_SIZE) (w ++ [(pre.length, c.PACKING_HASH_SIZE)])
      (SegPtr.chunk pre.length) c.PACKING_HASH_SIZE (log ++ [msg]) (c.PACKING_HASH_ALG msg) fuel
      (by simp [hpost, Nat.succ_mul])
      (by simp [hd]; rw [hD, Nat.succ_mul]; omega)
      hderef (by omega)
    refine ⟨st, ?_, ?_, ?_, ?_, hlen⟩
    · simp only [fill_loop]
      rw [if_pos hlt]
      simp only [fill_body, hmsg, hstore, Exec.ret_bind, hd]
      simpa [hd] using hrun
    · simp [hb, chain]
    · rw [hw, List.range_succ_eq_map]
      simp [hd, Function.comp_def, Nat.succ_mul]
      intro a _
      omega
    · rw [hl]
      simp [chain]

theorem getElem?_slice (b : List Byte) (off len i : Nat) :
    ((b.drop off).take len)[i]? = if i < len then b[off + i]? else none := by
  rw [List.getElem?_take]
  split_ifs with h
  · simp
  · rfl

theorem getElem?_patch (b d : List Byte) (off i : Nat) (h : off + d.length ≤ b.length) :
    (b.take off ++ d ++ b.drop (off + d.length))[i]? =
      if off ≤ i ∧ i < off + d.length then d[i - off]? else b[i]? := by
  have hto : (b.take off).length = off := by simp; omega
  by_cases h1 : i < off
  · rw [List.append_assoc, List.getElem?_append_left (by omega), if_neg (by omega)]
    simp [List.getElem?_take, h1]
  · rw [List.append_assoc, List.getElem?_append_right (by omega), hto]
    by_cases h2 : i < off + d.length
    · rw [List.getElem?_append_left (by omega), if_pos (by omega)]
    · rw [List.getElem?_append_right (by omega), if_neg (by omega)]
      simp
      congr 1
      omega

theorem length_patch (b d : List Byte) (off : Nat) (h : off + d.length ≤ b.length) :
    (b.take off ++ d ++ b.drop (off + d.length)).length = b.length := by
  simp
  omega

theorem segment_at_patch_same (c : Params) (b d : List Byte) (k : Nat)
    (hd : d.length = c.PACKING_HASH_SIZE)
    (h : k * c.PACKING_HASH_SIZE + c.PACKING_HASH_SIZE ≤ b.length) :
    segment_at c (b.take (k * c.PACKING_HASH_SIZE) ++ d ++
      b.drop (k * c.PACKING_HASH_SIZE + d.length)) k = d := by
  apply List.ext_getElem?
  intro i
  rw [segment_at, getElem?_slice, getElem?_patch _ _ _ _ (by omega)]
  by_cases hi : i < c.PACKING_HASH_SIZE
  · rw [if_pos hi, if_pos (by omega)]
    congr 1
    omega
  · rw [if_neg hi]
    symm
    apply List.getElem?_eq_none
    omega

theorem segment_at_patch_other (c : Params) (b d : List Byte) (k j : Nat)
    (hd : d.length = c.PACKING_HASH_SIZE)
    (h : k * c.PACKING_HASH_SIZE + c.PACKING_HASH_SIZE ≤ b.length) (hjk : j ≠ k) :
    segment_at c (b.take (k * c.PACKING_HASH_SIZE) ++ d ++
      b.drop (k * c.PACKING_HASH_SIZE + d.length)) j = segment_at c b j := by
  apply List.ext_getElem?
  intro i
  rw [segment_at, segment_at, getElem?_slice, getElem?_slice,
    getElem?_patch _ _ _ _ (by omega)]
  by_cases hi : i < c.PACKING_HASH_SIZE
  · rw [if_pos hi, if_pos hi, if_neg]
    rw [hd]
    rcases Nat.lt_or_gt_of_ne hjk with hlt | hgt
    · have : (j + 1) * c.PACKING_HASH_SIZE ≤ k * c.PACKING_HASH_SIZE :=
        Nat.mul_le_mul_right _ hlt
      rw [Nat.succ_mul] at this
      omega
    · have : (k + 1) * c.PACKING_HASH_SIZE ≤ j * c.PACKING_HASH_SIZE :=
        Nat.mul_le_mul_right _ hgt
      rw [Nat.succ_mul] at this
      omega
  · rw [if_neg hi, if_neg hi]

theorem mix_loop_mono (c : Params) (e : List Byte) (n : Nat) :
    ∀ (fuel : Nat) (st st1 : MixState), mix_loop c e n fuel st = Exec.ret st1 →
      ∀ fuel1, fuel ≤ fuel1 → mix_loop c e n fuel1 st = Exec.ret st1 := by
  intro fuel
  induction fuel with
  | zero => intro st st1 h; simp [mix_loop] at h
  | succ fuel ih =>
    intro st st1 h fuel1 hle
    obtain ⟨fuel1, rfl⟩ : ∃ f, fuel1 = f + 1 := ⟨fuel1 - 1, by omega⟩
    simp only [mix_loop] at h ⊢
    split_ifs at h ⊢ with hlt
    · obtain ⟨s, hs, hrest⟩ := Exec.bind_eq_ret h
      rw [hs]
      exact ih s st1 hrest fuel1 (by omega)
    · exact h

theorem mix_body_count (c : Params) (e : List Byte) (st st1 : MixState)
    (h : mix_body c e st = Exec.ret st1) : st1.hash_count = st.hash_count + 1 := by
  by_cases h0 : c.HASH_ITERATIONS_PER_BLOCK = 0
  · simp [mix_body, h0] at h
  · by_cases hov : st.hash_count + 1 > INT_MAX
    · simp only [mix_body, if_neg h0, if_pos hov] at h
      obtain ⟨a, _, h⟩ := Exec.bind_eq_ret h
      obtain ⟨b, _, h⟩ := Exec.bind_eq_ret h
      obtain ⟨d, _, h⟩ := Exec.bind_eq_ret h
      cases h
    · simp only [mix_body, if_neg h0, if_neg hov] at h
      obtain ⟨a, _, h⟩ := Exec.bind_eq_ret h
      obtain ⟨b, _, h⟩ := Exec.bind_eq_ret h
      obtain ⟨d, _, h⟩ := Exec.bind_eq_ret h
      injection h with h
      rw [← h]

/-- Running the loop one iteration further: the run to `n + 1` is the run to `n`
followed by one more execution of the body. -/
theorem mix_loop_succ (c : Params) (e : List Byte) (n : Nat) :
    ∀ (fuel : Nat) (st st1 : MixState), st.hash_count ≤ n →
      mix_loop c e n fuel st = Exec.ret st1 →
      mix_loop c e (n + 1) (fuel + 1) st = mix_body c e st1 ∧ st1.hash_count = n := by
  intro fuel
  induction fuel with
  | zero => intro st st1 _ h; simp [mix_loop] at h
  | succ fuel ih =>
    intro st st1 hle h
    simp only [mix_loop] at h
    split_ifs at h with hlt
    · obtain ⟨s, hs, hrest⟩ := Exec.bind_eq_ret h
      have hc := mix_body_count c e st s hs
      obtain ⟨h1, h2⟩ := ih s st1 (by omega) hrest
      refine ⟨?_, h2⟩
      rw [mix_loop, if_pos (by omega), hs]
      exact h1
    · injection h with h
      subst h
      have hn : st.hash_count = n := by omega
      refine ⟨?_, hn⟩
      rw [mix_loop, if_pos (by omega)]
      cases hb : mix_body c e st with
      | ret s =>
        have hc := mix_body_count c e st s hb
        simp only [Exec.ret_bind, mix_loop]
        rw [if_neg (by omega)]
      | ub u => rfl
      | nofuel => rfl

theorem Params.Valid.mul_eq {c : Params} (hv : c.Valid) :
    c.HASH_ITERATIONS_PER_BLOCK * c.PACKING_HASH_SIZE = c.DATA_CHUNK_SIZE :=
  Nat.div_mul_cancel hv.divides

theorem Params.Valid.iter_pos {c : Params} (hv : c.Valid) :
    0 < c.HASH_ITERATIONS_PER_BLOCK := by
  have h := hv.mul_eq
  have hD := hv.chunk_pos
  rcases Nat.eq_zero_or_pos c.HASH_ITERATIONS_PER_BLOCK with h0 | h0
  · rw [h0] at h; omega
  · exact h0

theorem Params.Valid.slot_fits {c : Params} (hv : c.Valid) (i : Nat) :
    (i % c.HASH_ITERATIONS_PER_BLOCK) * c.PACKING_HASH_SIZE + c.PACKING_HASH_SIZE ≤
      c.DATA_CHUNK_SIZE := by
  have hlt : i % c.HASH_ITERATIONS_PER_BLOCK < c.HASH_ITERATIONS_PER_BLOCK :=
    Nat.mod_lt _ hv.iter_pos
  have h := Nat.mul_le_mul_right c.PACKING_HASH_SIZE (Nat.succ_le_of_lt hlt)
  rw [hv.mul_eq, Nat.succ_mul] at h
  exact h

theorem deref_inv {c : Params} (hv : c.Valid) {segment e : List Byte}
    {w0 : List (Nat × Nat)} {st : MixState} (hseg : c.PACKING_HASH_SIZE ≤ segment.length)
    (hi : MixInv c segment e w0 st) :
    deref st.new_entropy_chunk st.segment st.segment_len =
      Exec.ret (chained c segment st.new_entropy_chunk.bytes st.hash_count) := by
  rw [hi.ptr, hi.seg_len]
  unfold chained
  split_ifs with h
  · simp only [deref]
    rw [load_ok (by omega)]
    simp
  · simp only [deref]
    rw [load_ok (by rw [hi.len]; exact hv.slot_fits _)]
    rfl

/-- What one iteration of the mixing loop does to a state that satisfies the invariant. -/
theorem mix_body_run {c : Params} (hv : c.Valid) {segment e : List Byte}
    {w0 : List (Nat × Nat)} {st : MixState} (hseg : c.PACKING_HASH_SIZE ≤ segment.length)
    (he : e.length = c.DATA_CHUNK_SIZE) (hi : MixInv c segment e w0 st)
    (hov : st.hash_count < INT_MAX) :
    ∃ st1, mix_body c e st = Exec.ret st1 ∧ MixInv c segment e w0 st1 ∧
      st1.hash_count = st.hash_count + 1 ∧
      st1.new_entropy_chunk.bytes =
        st.new_entropy_chunk.bytes.take
            ((st.hash_count % c.HASH_ITERATIONS_PER_BLOCK) * c.PACKING_HASH_SIZE) ++
          c.PACKING_HASH_ALG (chained c segment st.new_entropy_chunk.bytes st.hash_count ++
            segment_at c e (st.hash_count % c.HASH_ITERATIONS_PER_BLOCK)) ++
          st.new_entropy_chunk.bytes.drop
            ((st.hash_count % c.HASH_ITERATIONS_PER_BLOCK) * c.PACKING_HASH_SIZE +
              c.PACKING_HASH_SIZE) ∧
      st1.new_entropy_chunk.writes = st.new_entropy_chunk.writes ++
        [((st.hash_count % c.HASH_ITERATIONS_PER_BLOCK) * c.PACKING_HASH_SIZE,
          c.PACKING_HASH_SIZE)] ∧
      st1.log = st.log ++ [chained c segment st.new_entropy_chunk.bytes st.hash_count ++
        segment_at c e (st.hash_count % c.HASH_ITERATIONS_PER_BLOCK)] := by
  have hH := hv.iter_pos
  have hfit := hv.slot_fits st.hash_count
  have hlen := hi.len
  have hmod : st.hash_count % c.HASH_ITERATIONS_PER_BLOCK < c.HASH_ITERATIONS_PER_BLOCK :=
    Nat.mod_lt _ hH
  have hbody : mix_body c e st = Exec.ret
      { new_entropy_chunk :=
          ⟨st.new_entropy_chunk.bytes.take
              ((st.hash_count % c.HASH_ITERATIONS_PER_BLOCK) * c.PACKING_HASH_SIZE) ++
            c.PACKING_HASH_ALG (chained c segment st.new_entropy_chunk.bytes st.hash_count ++
              segment_at c e (st.hash_count % c.HASH_ITERATIONS_PER_BLOCK)) ++
            st.new_entropy_chunk.bytes.drop
              ((st.hash_count % c.HASH_ITERATIONS_PER_BLOCK) * c.PACKING_HASH_SIZE +
                c.PACKING_HASH_SIZE),
           st.new_entropy_chunk.writes ++
            [((st.hash_count % c.HASH_ITERATIONS_PER_BLOCK) * c.PACKING_HASH_SIZE,
              c.PACKING_HASH_SIZE)]⟩
        hash_count := st.hash_count + 1
        segment := SegPtr.chunk
          ((st.hash_count % c.HASH_ITERATIONS_PER_BLOCK) * c.PACKING_HASH_SIZE)
        segment_len := c.PACKING_HASH_SIZE
        log := st.log ++ [chained c segment st.new_entropy_chunk.bytes st.hash_count ++
          segment_at c e (st.hash_count % c.HASH_ITERATIONS_PER_BLOCK)] } := by
    unfold mix_body
    rw [if_neg (by omega)]
    simp only [deref_inv hv hseg hi, Exec.ret_bind]
    rw [load_ok (by omega)]
    simp only [Exec.ret_bind]
    rw [store_ok (by rw [hv.digest_len]; omega)]
    simp only [Exec.ret_bind, hv.digest_len]
    rw [if_neg (by omega)]
    rfl
  refine ⟨_, hbody, ?_, rfl, rfl, rfl, rfl⟩
  constructor
  · have := hi.count_ge
    simp only
    omega
  · simp only
    rw [← hv.digest_len (chained c segment st.new_entropy_chunk.bytes st.hash_count ++
      segment_at c e (st.hash_count % c.HASH_ITERATIONS_PER_BLOCK))]
    rw [length_patch _ _ _ (by rw [hv.digest_len]; omega)]
    exact hlen
  · rfl
  · have := hi.count_ge
    simp only
    rw [if_neg (by omega)]
    simp
  · intro j hj1 hj2
    have hge := hi.count_ge
    simp only at hj1 ⊢
    have hne : j ≠ st.hash_count % c.HASH_ITERATIONS_PER_BLOCK := by
      intro heq
      have h2 : st.hash_count < 2 * c.HASH_ITERATIONS_PER_BLOCK := by omega
      have h3 : st.hash_count % c.HASH_ITERATIONS_PER_BLOCK =
          st.hash_count - c.HASH_ITERATIONS_PER_BLOCK := by
        rw [Nat.mod_eq_sub_mod hge, Nat.mod_eq_of_lt (by omega)]
      omega
    have hpatch := segment_at_patch_other c st.new_entropy_chunk.bytes
      (c.PACKING_HASH_ALG (chained c segment st.new_entropy_chunk.bytes st.hash_count ++
        segment_at c e (st.hash_count % c.HASH_ITERATIONS_PER_BLOCK)))
      (st.hash_count % c.HASH_ITERATIONS_PER_BLOCK) j (hv.digest_len _) (by omega) hne
    rw [hv.digest_len] at hpatch
    rw [hpatch]
    exact hi.untouched j (by omega) hj2
  · have := hi.count_ge
    simp only [List.length_append, List.length_singleton, hi.log_len]
    omega
  · obtain ⟨ws, hws, hwl, hwb⟩ := hi.writes
    have := hi.count_ge
    refine ⟨ws ++ [((st.hash_count % c.HASH_ITERATIONS_PER_BLOCK) * c.PACKING_HASH_SIZE,
      c.PACKING_HASH_SIZE)], ?_, ?_, ?_⟩
    · simp only [hws, List.append_assoc]
    · simp only [List.length_append, List.length_singleton, hwl]
      omega
    · intro w hw
      rcases List.mem_append.mp hw with hw | hw
      · exact hwb w hw
      · rw [List.mem_singleton] at hw
        subst hw
        exact ⟨rfl, Dvd.intro_left _ rfl, hfit⟩

/-- With enough fuel and no overflow of the counter the mixing loop returns, in a state
that satisfies the invariant at counter value `n`. -/
theorem mix_loop_reach {c : Params} (hv : c.Valid) {segment e : List Byte}
    {w0 : List (Nat × Nat)} {st0 : MixState} (hseg : c.PACKING_HASH_SIZE ≤ segment.length)
    (he : e.length = c.DATA_CHUNK_SIZE) (hi : MixInv c segment e w0 st0)
    (h0 : st0.hash_count = c.HASH_ITERATIONS_PER_BLOCK) :
    ∀ m, c.HASH_ITERATIONS_PER_BLOCK + m ≤ INT_MAX →
      ∃ st, mix_loop c e (c.HASH_ITERATIONS_PER_BLOCK + m) (m + 1) st0 = Exec.ret st ∧
        MixInv c segment e w0 st ∧ st.hash_count = c.HASH_ITERATIONS_PER_BLOCK + m := by
  intro m
  induction m with
  | zero =>
    intro _
    refine ⟨st0, ?_, hi, by simpa using h0⟩
    rw [mix_loop, if_neg (by omega)]
  | succ m ih =>
    intro hle
    obtain ⟨st, hrun, hinv, hcount⟩ := ih (by omega)
    obtain ⟨hs, _⟩ := mix_loop_succ c e _ _ st0 st (by omega) hrun
    obtain ⟨st1, hb, hinv1, hc1, _⟩ := mix_body_run hv hseg he hinv (by omega)
    refine ⟨st1, ?_, hinv1, by omega⟩
    rw [← Nat.add_assoc, hs, hb]

theorem to_int_eq_iff (n : Nat) : to_int n = (n : Int) ↔ n ≤ INT_MAX := by
  unfold to_int INT_MAX
  constructor
  · intro h
    split_ifs at h with h1
    · have h2 : n % 2 ^ 32 = n := by exact_mod_cast h
      omega
    · have h2 : (n % 2 ^ 32 : Nat) < 2 ^ 32 := Nat.mod_lt _ (by norm_num)
      omega
  · intro h
    have h2 : n % 2 ^ 32 = n := Nat.mod_eq_of_lt (by omega)
    rw [h2, if_pos h]

theorem u64_bytes_length (c : Params) (x : Nat) : (u64_bytes c x).length = 8 := by
  unfold u64_bytes
  split_ifs <;> simp [le_bytes]

/-- Success of `compute_seed_hash` characterised: the call returns `NO_ERROR` exactly
when both resources are obtained, the input size fits an `int` and the digest fits the
destination, and then it has hashed `mining_addr ++ partition_hash ++ offset bytes` once
and stored the digest at the start of `seed_hash`. -/
theorem compute_seed_hash_ok_iff (c : Params) (env : Env) (a : List Byte) (off : Nat)
    (p : List Byte) (sh : Buf) (r : Result) :
    (compute_seed_hash c env a off p sh = Exec.ret r ∧ r.err = NO_ERROR) ↔
      (env.malloc_input = true ∧ env.ctx_seed = true ∧ a.length + 8 + p.length ≤ INT_MAX ∧
        (c.PACKING_HASH_ALG (seed_input c a off p)).length ≤ sh.bytes.length ∧
        r = ⟨NO_ERROR,
          ⟨c.PACKING_HASH_ALG (seed_input c a off p) ++
              sh.bytes.drop (c.PACKING_HASH_ALG (seed_input c a off p)).length,
            sh.writes ++ [(0, (c.PACKING_HASH_ALG (seed_input c a off p)).length)]⟩,
          [seed_input c a off p]⟩) := by
  have hti := to_int_eq_iff (a.length + 8 + p.length)
  have hs : a ++ p ++ u64_bytes c off = seed_input c a off p := rfl
  unfold compute_seed_hash
  simp only [hs]
  cases hm : env.malloc_input
  · simp only [Bool.not_false, if_true, Bool.false_eq_true, false_and, iff_false, not_and]
    rintro h
    injection h with h
    rw [← h]
    simp
  · by_cases hl : a.length + 8 + p.length ≤ INT_MAX
    · have hti' := hti.mpr hl
      rw [if_neg (by simp), if_neg (by rw [hti']; simp)]
      cases hc : env.ctx_seed
      · simp only [Bool.not_false, if_true, Bool.false_eq_true, false_and, and_false,
          iff_false, not_and]
        rintro h
        injection h with h
        rw [← h]
        simp
      · rw [if_neg (by simp), if_neg (by rw [hti']; omega)]
        by_cases hf : (c.PACKING_HASH_ALG (seed_input c a off p)).length ≤ sh.bytes.length
        · simp only [Buf.store, Nat.zero_add, if_pos hf, Exec.ret_bind, List.take_zero,
            List.nil_append, true_and, hl, hf]
          constructor
          · rintro ⟨h, _⟩
            injection h with h
            exact h.symm
          · rintro rfl
            exact ⟨rfl, rfl⟩
        · simp only [Buf.store, Nat.zero_add, if_neg hf, Exec.ub_bind, hf, false_and,
            and_false, iff_false, not_and]
          intro h
          cases h
    · have hti' := (not_congr hti).mpr hl
      simp only [hl, false_and, and_false, iff_false, not_and]
      rw [if_neg (by simp)]
      intro h
      by_cases hneg : to_int (a.length + 8 + p.length) < 0
      · rw [if_neg (by omega)] at h
        cases hc : env.ctx_seed
        · rw [hc] at h
          simp only [Bool.not_false, if_true] at h
          injection h with h
          rw [← h]
          simp
        · rw [hc, if_neg (by simp), if_pos hneg] at h
          cases h
      · rw [if_pos ⟨by omega, hti'⟩] at h
        cases h

theorem fill_loop_mono (c : Params) :
    ∀ (fuel : Nat) (st st1 : FillState), fill_loop c fuel st = Exec.ret st1 →
      ∀ fuel1, fuel ≤ fuel1 → fill_loop c fuel1 st = Exec.ret st1 := by
  intro fuel
  induction fuel with
  | zero => intro st st1 h; simp [fill_loop] at h
  | succ fuel ih =>
    intro st st1 h fuel1 hle
    obtain ⟨fuel1, rfl⟩ : ∃ f, fuel1 = f + 1 := ⟨fuel1 - 1, by omega⟩
    simp only [fill_loop] at h ⊢
    split_ifs at h ⊢ with hlt
    · obtain ⟨s, hs, hrest⟩ := Exec.bind_eq_ret h
      rw [hs]
      exact ih s st1 hrest fuel1 (by omega)
    · exact h

/-- Closed form of `compute_start_entropy_chunk2` when the digest context is obtained. -/
theorem start2_run {c : Params} (hv : c.Valid) (fuel : Nat) (env : Env) (seed : List Byte)
    (chunk : Buf) (hctx : env.ctx_start = true)
    (hlen : chunk.bytes.length = c.DATA_CHUNK_SIZE)
    (hfuel : c.HASH_ITERATIONS_PER_BLOCK < fuel) :
    compute_start_entropy_chunk2 c fuel env seed chunk =
      Exec.ret ⟨NO_ERROR, ⟨chain_chunk c seed, chunk.writes ++ fill_writes c⟩,
        fill_log c seed⟩ := by
  obtain ⟨st, hrun, hb, hw, hl, _⟩ := fill_loop_run c hv.digest_len hv.hash_pos
    c.HASH_ITERATIONS_PER_BLOCK [] chunk.bytes chunk.writes (SegPtr.arg seed) seed.length []
    seed fuel (by rw [hlen, hv.mul_eq]) (by simp [hv.mul_eq])
    (by simp [deref, load]) hfuel
  unfold compute_start_entropy_chunk2
  rw [hctx]
  simp only [Bool.not_true, Bool.false_eq_true, if_false]
  simp only [List.nil_append, List.length_nil, Nat.zero_add] at hrun hb hw hl
  rw [hrun]
  simp only [Exec.ret_bind]
  have hc : st.chunk = ⟨chain_chunk c seed, chunk.writes ++ fill_writes c⟩ := by
    cases hst : st.chunk with
    | mk b w =>
      rw [hst] at hb hw
      simp only at hb hw
      rw [hb, hw]
      rfl
  rw [hc, hl]
  rfl

/-- Any successful return of `compute_start_entropy_chunk2` is the closed form. -/
theorem start2_ret {c : Params} (hv : c.Valid) (fuel : Nat) (env : Env) (seed : List Byte)
    (chunk : Buf) (r : Result) (hlen : chunk.bytes.length = c.DATA_CHUNK_SIZE)
    (h : compute_start_entropy_chunk2 c fuel env seed chunk = Exec.ret r)
    (hr : r.err = NO_ERROR) :
    env.ctx_start = true ∧
      r = ⟨NO_ERROR, ⟨chain_chunk c seed, chunk.writes ++ fill_writes c⟩, fill_log c seed⟩ := by
  cases hctx : env.ctx_start
  · unfold compute_start_entropy_chunk2 at h
    rw [hctx] at h
    simp only [Bool.not_false, if_true] at h
    injection h with h
    rw [← h] at hr
    cases hr
  · refine ⟨rfl, ?_⟩
    have hbig := start2_run hv (max fuel (c.HASH_ITERATIONS_PER_BLOCK + 1)) env seed chunk
      hctx hlen (by omega)
    unfold compute_start_entropy_chunk2 at h hbig
    rw [hctx] at h hbig
    simp only [Bool.not_true, Bool.false_eq_true, if_false] at h hbig
    obtain ⟨st, hst, hres⟩ := Exec.bind_eq_ret h
    rw [fill_loop_mono c fuel _ st hst _ (le_max_left _ _)] at hbig
    simp only [Exec.ret_bind] at hbig
    rw [hbig] at hres
    injection hres with hres
    exact hres.symm

theorem segment_at_chain (c : Params)
    (hd : ∀ m, (c.PACKING_HASH_ALG m).length = c.PACKING_HASH_SIZE) :
    ∀ (n : Nat) (s : List Byte) (k : Nat), k < n →
      segment_at c (chain c n s).flatten k = c.PACKING_HASH_ALG^[k + 1] s := by
  intro n
  induction n with
  | zero => intro s k hk; omega
  | succ n ih =>
    intro s k hk
    cases k with
    | zero =>
      simp [segment_at, chain, hd, List.take_append_eq_append_take]
    | succ k =>
      have h := ih (c.PACKING_HASH_ALG s) k (by omega)
      rw [Function.iterate_succ_apply, ← h]
      unfold segment_at
      simp only [chain, List.flatten_cons]
      congr 1
      rw [Nat.succ_mul, Nat.add_comm (k * c.PACKING_HASH_SIZE), ← hd s, List.drop_append]

theorem segment_at_chain_chunk {c : Params} (hv : c.Valid) (s : List Byte) (k : Nat)
    (hk : k < c.HASH_ITERATIONS_PER_BLOCK) :
    segment_at c (chain_chunk c s) k = c.PACKING_HASH_ALG^[k + 1] s :=
  segment_at_chain c hv.digest_len _ s k hk

theorem chain_chunk_length {c : Params} (hv : c.Valid) (s : List Byte) :
    (chain_chunk c s).length = c.DATA_CHUNK_SIZE := by
  have h : ∀ (n : Nat) (s : List Byte),
      (chain c n s).flatten.length = n * c.PACKING_HASH_SIZE := by
    intro n
    induction n with
    | zero => intro s; simp [chain]
    | succ n ih =>
      intro s
      simp [chain, ih, hv.digest_len, Nat.succ_mul, Nat.add_comm]
  rw [chain_chunk, h, hv.mul_eq]

theorem seed_buffer_store {c : Params} (hv : c.Valid)
    (h32 : c.PACKING_HASH_SIZE = EVP_sha256_size) (env : Env) (m : List Byte) :
    (⟨c.PACKING_HASH_ALG m ++
        ((List.range EVP_sha256_size).map env.stack).drop (c.PACKING_HASH_ALG m).length,
      ([] : List (Nat × Nat)) ++ [(0, (c.PACKING_HASH_ALG m).length)]⟩ : Buf) =
      ⟨c.PACKING_HASH_ALG m, [(0, EVP_sha256_size)]⟩ := by
  rw [hv.digest_len, h32]
  simp

/-- Closed form of `compute_start_entropy_chunk` when every resource is obtained. -/
theorem start_run {c : Params} (hv : c.Valid) (h32 : c.PACKING_HASH_SIZE = EVP_sha256_size)
    (fuel : Nat) (env : Env) (a : List Byte) (off : Nat) (p : List Byte) (chunk : Buf)
    (hm : env.malloc_input = true) (hcs : env.ctx_seed = true)
    (hct : env.ctx_start = true) (hl : a.length + 8 + p.length ≤ INT_MAX)
    (hlen : chunk.bytes.length = c.DATA_CHUNK_SIZE)
    (hfuel : c.HASH_ITERATIONS_PER_BLOCK < fuel) :
    compute_start_entropy_chunk c fuel env a off p chunk =
      Exec.ret ⟨NO_ERROR,
        ⟨chain_chunk c (c.PACKING_HASH_ALG (seed_input c a off p)),
          chunk.writes ++ fill_writes c⟩,
        seed_input c a off p :: fill_log c (c.PACKING_HASH_ALG (seed_input c a off p))⟩ := by
  have hseed := (compute_seed_hash_ok_iff c env a off p
    ⟨(List.range EVP_sha256_size).map env.stack, []⟩ _).mpr
    ⟨hm, hcs, hl, by simp [hv.digest_len, h32], rfl⟩
  unfold compute_start_entropy_chunk
  simp only [hseed.1, Exec.ret_bind, seed_buffer_store hv h32]
  rw [if_neg (by simp), if_neg (by simp)]
  rw [start2_run hv fuel env _ chunk hct hlen hfuel]
  rfl

/-- Any successful return of `compute_start_entropy_chunk` is the closed form, and every
resource was obtained. -/
theorem start_ret {c : Params} (hv : c.Valid) (h32 : c.PACKING_HASH_SIZE = EVP_sha256_size)
    (fuel : Nat) (env : Env) (a : List Byte) (off : Nat) (p : List Byte) (chunk : Buf)
    (r : Result) (hlen : chunk.bytes.length = c.DATA_CHUNK_SIZE)
    (h : compute_start_entropy_chunk c fuel env a off p chunk = Exec.ret r)
    (hr : r.err = NO_ERROR) :
    (env.malloc_input = true ∧ env.ctx_seed = true ∧ env.ctx_start = true ∧
      a.length + 8 + p.length ≤ INT_MAX) ∧
    r = ⟨NO_ERROR,
        ⟨chain_chunk c (c.PACKING_HASH_ALG (seed_input c a off p)),
          chunk.writes ++ fill_writes c⟩,
        seed_input c a off p :: fill_log c (c.PACKING_HASH_ALG (seed_input c a off p))⟩ := by
  unfold compute_start_entropy_chunk at h
  obtain ⟨s, hs, h⟩ := Exec.bind_eq_ret h
  by_cases hse : s.err = NO_ERROR
  · obtain ⟨hm, hcs, hl, _, hsr⟩ := (compute_seed_hash_ok_iff c env a off p _ s).mp ⟨hs, hse⟩
    rw [seed_buffer_store hv h32] at hsr
    subst hsr
    simp only [ne_eq, not_true_eq_false, if_false] at h
    obtain ⟨r2, hr2, h⟩ := Exec.bind_eq_ret h
    injection h with h
    subst h
    obtain ⟨hct, hres⟩ := start2_ret hv fuel env _ chunk r2 hlen hr2 hr
    subst hres
    exact ⟨⟨hm, hcs, hct, hl⟩, rfl⟩
  · rw [if_pos hse] at h
    injection h with h
    subst h
    exact absurd hr hse

theorem mix_body_no_overflow (c : Params) (e : List Byte) (st st1 : MixState)
    (h : mix_body c e st = Exec.ret st1) : st.hash_count < INT_MAX := by
  by_cases h0 : c.HASH_ITERATIONS_PER_BLOCK = 0
  · simp [mix_body, h0] at h
  · by_cases hov : st.hash_count + 1 > INT_MAX
    · simp only [mix_body, if_neg h0, if_pos hov] at h
      obtain ⟨a, _, h⟩ := Exec.bind_eq_ret h
      obtain ⟨b, _, h⟩ := Exec.bind_eq_ret h
      obtain ⟨d, _, h⟩ := Exec.bind_eq_ret h
      cases h
    · omega

/-- The invariant holds whenever the mixing loop returns. -/
theorem mix_loop_inv {c : Params} (hv : c.Valid) {segment e : List Byte}
    {w0 : List (Nat × Nat)} (hseg : c.PACKING_HASH_SIZE ≤ segment.length)
    (he : e.length = c.DATA_CHUNK_SIZE) (n : Nat) :
    ∀ (fuel : Nat) (st st1 : MixState), MixInv c segment e w0 st →
      mix_loop c e n fuel st = Exec.ret st1 → MixInv c segment e w0 st1 := by
  intro fuel
  induction fuel with
  | zero => intro st st1 _ h; simp [mix_loop] at h
  | succ fuel ih =>
    intro st st1 hi h
    simp only [mix_loop] at h
    split_ifs at h with hlt
    · obtain ⟨s, hs, hrest⟩ := Exec.bind_eq_ret h
      obtain ⟨s', hs', hi', _⟩ := mix_body_run hv hseg he hi
        (mix_body_no_overflow c e st s hs)
      rw [hs] at hs'
      injection hs' with hs'
      subst hs'
      exact ih s st1 hi' hrest
    · injection h with h
      subst h
      exact hi

theorem mix_init_inv {c : Params} (segment e : List Byte) (out : Buf)
    (he : e.length = c.DATA_CHUNK_SIZE) :
    MixInv c segment e (out.writes ++ [(0, c.DATA_CHUNK_SIZE)]) (mix_init c segment e out) := by
  constructor
  · exact Nat.le_refl _
  · exact he
  · rfl
  · simp [mix_init]
  · intro j _ _; rfl
  · simp [mix_init]
  · exact ⟨[], by simp [mix_init], by simp [mix_init], by simp⟩

/-- The copy at the head of `compute_entropy_chunk2`, for buffers of the chunk size. -/
theorem chunk2_unfold (c : Params) (fuel : Nat) (env : Env) (segment e : List Byte)
    (out : Buf) (n : Nat) (he : e.length = c.DATA_CHUNK_SIZE)
    (hout : out.bytes.length = c.DATA_CHUNK_SIZE) :
    compute_entropy_chunk2 c fuel env segment e out n =
      if env.ctx_mix = false then
        Exec.ret ⟨HASH_COMPUTATION_ERROR, ⟨e, out.writes ++ [(0, c.DATA_CHUNK_SIZE)]⟩, []⟩
      else
        mix_loop c e n fuel (mix_init c segment e out) >>= fun st =>
          Exec.ret ⟨NO_ERROR, st.new_entropy_chunk, st.log⟩ := by
  have hsrc : load e 0 c.DATA_CHUNK_SIZE = Exec.ret e := by
    rw [load_ok (by omega)]
    simp [← he]
  have hst : out.store 0 e = Exec.ret ⟨e, out.writes ++ [(0, c.DATA_CHUNK_SIZE)]⟩ := by
    rw [store_ok (by omega)]
    simp [he, ← hout]
  unfold compute_entropy_chunk2
  simp only [hsrc, hst, Exec.ret_bind]
  cases env.ctx_mix <;> rfl

/-- With enough fuel and a requested count that fits an `int`, the mixing loop returns
from its initial state, with the counter at the requested count (or where it started). -/
theorem mix_run {c : Params} (hv : c.Valid) (segment e : List Byte) (out : Buf)
    (hseg : c.PACKING_HASH_SIZE ≤ segment.length) (he : e.length = c.DATA_CHUNK_SIZE)
    (n fuel : Nat) (hn : n ≤ INT_MAX ∨ n ≤ c.HASH_ITERATIONS_PER_BLOCK)
    (hfuel : n - c.HASH_ITERATIONS_PER_BLOCK < fuel) :
    ∃ st, mix_loop c e n fuel (mix_init c segment e out) = Exec.ret st ∧
      MixInv c segment e (out.writes ++ [(0, c.DATA_CHUNK_SIZE)]) st ∧
      st.hash_count = max n c.HASH_ITERATIONS_PER_BLOCK := by
  have hinit := mix_init_inv (c := c) segment e out he
  by_cases hle : n ≤ c.HASH_ITERATIONS_PER_BLOCK
  · refine ⟨mix_init c segment e out, ?_, hinit, ?_⟩
    · obtain ⟨fuel, rfl⟩ : ∃ f, fuel = f + 1 := ⟨fuel - 1, by omega⟩
      rw [mix_loop, if_neg (by simp [mix_init]; omega)]
    · simp [mix_init]; omega
  · have hn' : n ≤ INT_MAX := by omega
    obtain ⟨st, hst, hi, hc⟩ := mix_loop_reach hv hseg he hinit rfl
      (n - c.HASH_ITERATIONS_PER_BLOCK) (by omega)
    have hnn : c.HASH_ITERATIONS_PER_BLOCK + (n - c.HASH_ITERATIONS_PER_BLOCK) = n := by omega
    rw [hnn] at hst hc
    exact ⟨st, mix_loop_mono c e n _ _ st hst fuel (by omega), hi, by omega⟩

theorem mix_loop_unique (c : Params) (e : List Byte) (n : Nat) (fuel fuel1 : Nat)
    (st a b : MixState) (ha : mix_loop c e n fuel st = Exec.ret a)
    (hb : mix_loop c e n fuel1 st = Exec.ret b) : a = b := by
  have h1 := mix_loop_mono c e n fuel st a ha (max fuel fuel1) (le_max_left _ _)
  have h2 := mix_loop_mono c e n fuel1 st b hb (max fuel fuel1) (le_max_right _ _)
  rw [h1] at h2
  injection h2

/-- The runs of the mixing loop to `i` and to `i + 1`: the second is the first followed by
one execution of the body, which patches slot `i % HASH_ITERATIONS_PER_BLOCK`. -/
theorem mix_step {c : Params} (hv : c.Valid) (segment e : List Byte) (out : Buf)
    (hseg : c.PACKING_HASH_SIZE ≤ segment.length) (he : e.length = c.DATA_CHUNK_SIZE)
    (i fuel : Nat) (hi : c.HASH_ITERATIONS_PER_BLOCK ≤ i) (hov : i < INT_MAX)
    (hfuel : i + 1 - c.HASH_ITERATIONS_PER_BLOCK < fuel) :
    ∃ st st1, mix_loop c e i fuel (mix_init c segment e out) = Exec.ret st ∧
      mix_loop c e (i + 1) fuel (mix_init c segment e out) = Exec.ret st1 ∧
      MixInv c segment e (out.writes ++ [(0, c.DATA_CHUNK_SIZE)]) st ∧
      MixInv c segment e (out.writes ++ [(0, c.DATA_CHUNK_SIZE)]) st1 ∧
      st.hash_count = i ∧ st1.hash_count = i + 1 ∧
      st1.new_entropy_chunk.bytes =
        st.new_entropy_chunk.bytes.take
            ((i % c.HASH_ITERATIONS_PER_BLOCK) * c.PACKING_HASH_SIZE) ++
          c.PACKING_HASH_ALG (chained c segment st.new_entropy_chunk.bytes i ++
            segment_at c e (i % c.HASH_ITERATIONS_PER_BLOCK)) ++
          st.new_entropy_chunk.bytes.drop
            ((i % c.HASH_ITERATIONS_PER_BLOCK) * c.PACKING_HASH_SIZE +
              c.PACKING_HASH_SIZE) ∧
      st1.new_entropy_chunk.writes = st.new_entropy_chunk.writes ++
        [((i % c.HASH_ITERATIONS_PER_BLOCK) * c.PACKING_HASH_SIZE, c.PACKING_HASH_SIZE)] ∧
      st1.log = st.log ++ [chained c segment st.new_entropy_chunk.bytes i ++
        segment_at c e (i % c.HASH_ITERATIONS_PER_BLOCK)] := by
  obtain ⟨fuel, rfl⟩ : ∃ f, fuel = f + 1 := ⟨fuel - 1, by omega⟩
  obtain ⟨st, hst, hinv, hc⟩ := mix_run hv segment e out hseg he i fuel (Or.inl (by omega))
    (by omega)
  have hci : st.hash_count = i := by omega
  obtain ⟨hs, _⟩ := mix_loop_succ c e i fuel _ st (by simp [mix_init]; omega) hst
  obtain ⟨st1, hb, hinv1, hc1, hbytes, hwrites, hlog⟩ := mix_body_run hv hseg he hinv
    (by omega)
  rw [hci] at hbytes hwrites hlog hc1
  exact ⟨st, st1, mix_loop_mono c e i fuel _ st hst _ (by omega), by rw [hs, hb], hinv, hinv1,
    hci, hc1, hbytes, hwrites, hlog⟩

/-- The digest log of a run of the mixing loop extends the log of any shorter run. -/
theorem mix_log_prefix {c : Params} (hv : c.Valid) (segment e : List Byte) (out : Buf)
    (hseg : c.PACKING_HASH_SIZE ≤ segment.length) (he : e.length = c.DATA_CHUNK_SIZE)
    (i : Nat) (hi : c.HASH_ITERATIONS_PER_BLOCK ≤ i) :
    ∀ (m fuel fuel1 : Nat) (st st1 : MixState), i + m ≤ INT_MAX →
      mix_loop c e i fuel (mix_init c segment e out) = Exec.ret st →
      mix_loop c e (i + m) fuel1 (mix_init c segment e out) = Exec.ret st1 →
      ∃ t, st1.log = st.log ++ t := by
  intro m
  induction m with
  | zero =>
    intro fuel fuel1 st st1 _ h h1
    have := mix_loop_unique c e i fuel fuel1 _ st st1 h h1
    subst this
    exact ⟨[], by simp⟩
  | succ m ih =>
    intro fuel fuel1 st st1 hle h h1
    obtain ⟨sa, sb, ha, hb, _, _, _, _, _, _, hlog⟩ := mix_step hv segment e out hseg he
      (i + m) (i + m + 2) (by omega) (by omega) (by omega)
    obtain ⟨t, ht⟩ := ih fuel _ st sa (by omega) h ha
    have := mix_loop_unique c e (i + m + 1) _ fuel1 _ sb st1 hb h1
    subst this
    exact ⟨t ++ [chained c segment sa.new_entropy_chunk.bytes (i + m) ++
      segment_at c e ((i + m) % c.HASH_ITERATIONS_PER_BLOCK)], by rw [hlog, ht, List.append_assoc]⟩

theorem chunk2_of_mix (c : Params) (fuel : Nat) (env : Env) (segment e : List Byte)
    (out : Buf) (n : Nat) (st : MixState) (he : e.length = c.DATA_CHUNK_SIZE)
    (hout : out.bytes.length = c.DATA_CHUNK_SIZE) (hctx : env.ctx_mix = true)
    (h : mix_loop c e n fuel (mix_init c segment e out) = Exec.ret st) :
    compute_entropy_chunk2 c fuel env segment e out n =
      Exec.ret ⟨NO_ERROR, st.new_entropy_chunk, st.log⟩ := by
  rw [chunk2_unfold c fuel env segment e out n he hout, hctx, h]
  rfl

theorem last_segment_offset {c : Params} (hv : c.Valid) :
    ¬ (((c.HASH_ITERATIONS_PER_BLOCK : Int) - 1) * (c.PACKING_HASH_SIZE : Int) < 0) ∧
    (((c.HASH_ITERATIONS_PER_BLOCK : Int) - 1) * (c.PACKING_HASH_SIZE : Int)).toNat =
      (c.HASH_ITERATIONS_PER_BLOCK - 1) * c.PACKING_HASH_SIZE := by
  have hH := hv.iter_pos
  have h1 : ((c.HASH_ITERATIONS_PER_BLOCK : Int) - 1) =
      ((c.HASH_ITERATIONS_PER_BLOCK - 1 : Nat) : Int) := by omega
  rw [h1, ← Int.natCast_mul]
  exact ⟨by omega, Int.toNat_natCast _⟩

theorem load_last_segment {c : Params} (hv : c.Valid) (b : List Byte)
    (hb : b.length = c.DATA_CHUNK_SIZE) :
    load b ((c.HASH_ITERATIONS_PER_BLOCK - 1) * c.PACKING_HASH_SIZE) c.PACKING_HASH_SIZE =
      Exec.ret (segment_at c b (c.HASH_ITERATIONS_PER_BLOCK - 1)) := by
  have hH := hv.iter_pos
  have h := hv.slot_fits (c.HASH_ITERATIONS_PER_BLOCK - 1)
  rw [Nat.mod_eq_of_lt (by omega)] at h
  rw [load_ok (by omega)]
  rfl

theorem segment_at_length {c : Params} (hv : c.Valid) (b : List Byte)
    (hb : b.length = c.DATA_CHUNK_SIZE) (k : Nat) (hk : k < c.HASH_ITERATIONS_PER_BLOCK) :
    (segment_at c b k).length = c.PACKING_HASH_SIZE := by
  have h := hv.slot_fits k
  rw [Nat.mod_eq_of_lt hk] at h
  simp [segment_at]
  omega

/-- When the initial fill succeeds, `compute_entropy_chunk` is `compute_entropy_chunk2`
applied to the last segment of the initial chunk, the initial chunk and the caller's
buffer. -/
theorem entropy_unfold {c : Params} (hv : c.Valid)
    (h32 : c.PACKING_HASH_SIZE = EVP_sha256_size) (fuel : Nat) (env : Env) (a : List Byte)
    (off : Nat) (p : List Byte) (out : Buf) (n : Nat)
    (hmc : env.malloc_chunk = true) (hm : env.malloc_input = true)
    (hcs : env.ctx_seed = true) (hct : env.ctx_start = true)
    (hl : a.length + 8 + p.length ≤ INT_MAX)
    (hfuel : c.HASH_ITERATIONS_PER_BLOCK < fuel) :
    compute_entropy_chunk c fuel env a off p out n =
      compute_entropy_chunk2 c fuel env
          (segment_at c (chain_chunk c (c.PACKING_HASH_ALG (seed_input c a off p)))
            (c.HASH_ITERATIONS_PER_BLOCK - 1))
          (chain_chunk c (c.PACKING_HASH_ALG (seed_input c a off p))) out n >>= fun r =>
        Exec.ret ⟨r.err, r.chunk,
          (seed_input c a off p :: fill_log c (c.PACKING_HASH_ALG (seed_input c a off p))) ++
            r.log⟩ := by
  have hs := start_run hv h32 fuel env a off p
    ⟨(List.range c.DATA_CHUNK_SIZE).map env.heap, []⟩ hm hcs hct hl (by simp) hfuel
  obtain ⟨hneg, hnat⟩ := last_segment_offset hv
  unfold compute_entropy_chunk
  rw [hmc]
  simp only [Bool.not_true, Bool.false_eq_true, if_false, hs, Exec.ret_bind, ne_eq,
    not_true_eq_false]
  rw [if_neg hneg, hnat, load_last_segment hv _ (chain_chunk_length hv _)]
  rfl

theorem mix_loop_zero (c : Params) (segment e : List Byte) (out : Buf) (n fuel : Nat)
    (hn : n ≤ c.HASH_ITERATIONS_PER_BLOCK) (hfuel : 0 < fuel) :
    mix_loop c e n fuel (mix_init c segment e out) = Exec.ret (mix_init c segment e out) := by
  obtain ⟨fuel, rfl⟩ : ∃ f, fuel = f + 1 := ⟨fuel - 1, by omega⟩
  rw [mix_loop, if_neg (by simp [mix_init]; omega)]

theorem initial_chunk_length {c : Params} (hv : c.Valid) (a : List Byte) (off : Nat)
    (p : List Byte) : (initial_chunk c a off p).length = c.DATA_CHUNK_SIZE :=
  chain_chunk_length hv _

theorem last_segment_length {c : Params} (hv : c.Valid) (a : List Byte) (off : Nat)
    (p : List Byte) : (last_segment c a off p).length = c.PACKING_HASH_SIZE :=
  segment_at_length hv _ (initial_chunk_length hv a off p) _
    (Nat.sub_lt hv.iter_pos Nat.one_pos)

/-- Closed form of `compute_start_entropy_chunk` in terms of `initial_chunk`. -/
theorem start_run_initial {c : Params} (hv : c.Valid)
    (h32 : c.PACKING_HASH_SIZE = EVP_sha256_size) (fuel : Nat) (env : Env) (a : List Byte)
    (off : Nat) (p : List Byte) (chunk : Buf) (hm : env.malloc_input = true)
    (hcs : env.ctx_seed = true) (hct : env.ctx_start = true)
    (hl : a.length + 8 + p.length ≤ INT_MAX) (hlen : chunk.bytes.length = c.DATA_CHUNK_SIZE)
    (hfuel : c.HASH_ITERATIONS_PER_BLOCK < fuel) :
    compute_start_entropy_chunk c fuel env a off p chunk =
      Exec.ret ⟨NO_ERROR, ⟨initial_chunk c a off p, chunk.writes ++ fill_writes c⟩,
        initial_log c a off p⟩ :=
  start_run hv h32 fuel env a off p chunk hm hcs hct hl hlen hfuel

/-- The result of `compute_entropy_chunk` from the final state of the mixing loop. -/
theorem entropy_of_mix {c : Params} (hv : c.Valid)
    (h32 : c.PACKING_HASH_SIZE = EVP_sha256_size) (fuel : Nat) (env : Env) (a : List Byte)
    (off : Nat) (p : List Byte) (out : Buf) (n : Nat) (st : MixState)
    (henv : env.succeeds) (hl : a.length + 8 + p.length ≤ INT_MAX)
    (hout : out.bytes.length = c.DATA_CHUNK_SIZE)
    (hfuel : c.HASH_ITERATIONS_PER_BLOCK < fuel)
    (h : mix_loop c (initial_chunk c a off p) n fuel
      (mix_init c (last_segment c a off p) (initial_chunk c a off p) out) = Exec.ret st) :
    compute_entropy_chunk c fuel env a off p out n =
      Exec.ret ⟨NO_ERROR, st.new_entropy_chunk, initial_log c a off p ++ st.log⟩ := by
  obtain ⟨hmc, hm, hcs, hct, hcm⟩ := henv
  rw [entropy_unfold hv h32 fuel env a off p out n hmc hm hcs hct hl hfuel]
  have h2 := chunk2_of_mix c fuel env (last_segment c a off p) (initial_chunk c a off p) out n
    st (initial_chunk_length hv a off p) hout hcm h
  unfold last_segment initial_chunk at h2
  rw [h2]
  rfl

/-- `compute_seed_hash` by cases on the resources, for sizes that fit an `int` and a
destination that can hold the digest. -/
theorem seed_normal_form (c : Params) (env : Env) (a : List Byte) (off : Nat)
    (p : List Byte) (sh : Buf) (hl : a.length + 8 + p.length ≤ INT_MAX)
    (hfit : (c.PACKING_HASH_ALG (seed_input c a off p)).length ≤ sh.bytes.length) :
    compute_seed_hash c env a off p sh =
      if env.malloc_input = false then Exec.ret ⟨MEMORY_ALLOCATION_ERROR, sh, []⟩
      else if env.ctx_seed = false then Exec.ret ⟨SEED_HASH_ERROR, sh, []⟩
      else Exec.ret ⟨NO_ERROR,
        ⟨c.PACKING_HASH_ALG (seed_input c a off p) ++
            sh.bytes.drop (c.PACKING_HASH_ALG (seed_input c a off p)).length,
          sh.writes ++ [(0, (c.PACKING_HASH_ALG (seed_input c a off p)).length)]⟩,
        [seed_input c a off p]⟩ := by
  have hti := (to_int_eq_iff (a.length + 8 + p.length)).mpr hl
  have hs : a ++ p ++ u64_bytes c off = seed_input c a off p := rfl
  have hst := @store_ok sh 0 (c.PACKING_HASH_ALG (seed_input c a off p)) (by omega)
  have hnn : ¬ ((a.length + 8 + p.length : Nat) : Int) < 0 := by omega
  unfold compute_seed_hash
  simp only [hs, hti, ne_eq, not_true_eq_false, and_false, if_false, hst, Exec.ret_bind, hnn]
  cases env.malloc_input <;> cases env.ctx_seed <;> simp

/-- `compute_start_entropy_chunk` by cases on the resources. -/
theorem start_normal_form {c : Params} (hv : c.Valid)
    (h32 : c.PACKING_HASH_SIZE = EVP_sha256_size) (fuel : Nat) (env : Env) (a : List Byte)
    (off : Nat) (p : List Byte) (chunk : Buf) (hl : a.length + 8 + p.length ≤ INT_MAX)
    (hlen : chunk.bytes.length = c.DATA_CHUNK_SIZE)
    (hfuel : c.HASH_ITERATIONS_PER_BLOCK < fuel) :
    compute_start_entropy_chunk c fuel env a off p chunk =
      if env.malloc_input = false then Exec.ret ⟨MEMORY_ALLOCATION_ERROR, chunk, []⟩
      else if env.ctx_seed = false then Exec.ret ⟨SEED_HASH_ERROR, chunk, []⟩
      else if env.ctx_start = false then
        Exec.ret ⟨HASH_COMPUTATION_ERROR, chunk, [seed_input c a off p]⟩
      else Exec.ret ⟨NO_ERROR, ⟨initial_chunk c a off p, chunk.writes ++ fill_writes c⟩,
        initial_log c a off p⟩ := by
  have hseed := seed_normal_form c env a off p
    ⟨(List.range EVP_sha256_size).map env.stack, []⟩ hl (by simp [hv.digest_len, h32])
  cases hm : env.malloc_input
  · rw [hm] at hseed
    simp [compute_start_entropy_chunk, hseed]
  · cases hcs : env.ctx_seed
    · rw [hm, hcs] at hseed
      simp [compute_start_entropy_chunk, hseed]
    · cases hct : env.ctx_start
      · rw [hm, hcs] at hseed
        simp only [Bool.true_eq_false, if_false] at hseed
        rw [seed_buffer_store hv h32] at hseed
        simp [compute_start_entropy_chunk, hseed, compute_start_entropy_chunk2, hct]
      · rw [start_run_initial hv h32 fuel env a off p chunk hm hcs hct hl hlen hfuel]
        simp

/-- `compute_entropy_chunk` by cases on the resources. -/
theorem entropy_normal_form {c : Params} (hv : c.Valid)
    (h32 : c.PACKING_HASH_SIZE = EVP_sha256_size) (fuel : Nat) (env : Env) (a : List Byte)
    (off : Nat) (p : List Byte) (out : Buf) (n : Nat)
    (hl : a.length + 8 + p.length ≤ INT_MAX)
    (hout : out.bytes.length = c.DATA_CHUNK_SIZE)
    (hfuel : c.HASH_ITERATIONS_PER_BLOCK < fuel) :
    compute_entropy_chunk c fuel env a off p out n =
      if env.malloc_chunk = false then Exec.ret ⟨MEMORY_ALLOCATION_ERROR, out, []⟩
      else if env.malloc_input = false then Exec.ret ⟨MEMORY_ALLOCATION_ERROR, out, []⟩
      else if env.ctx_seed = false then Exec.ret ⟨SEED_HASH_ERROR, out, []⟩
      else if env.ctx_start = false then
        Exec.ret ⟨HASH_COMPUTATION_ERROR, out, [seed_input c a off p]⟩
      else if env.ctx_mix = false then
        Exec.ret ⟨HASH_COMPUTATION_ERROR,
          ⟨initial_chunk c a off p, out.writes ++ [(0, c.DATA_CHUNK_SIZE)]⟩,
          initial_log c a off p⟩
      else
        mix_loop c (initial_chunk c a off p) n fuel
            (mix_init c (last_segment c a off p) (initial_chunk c a off p) out) >>= fun st =>
          Exec.ret ⟨NO_ERROR, st.new_entropy_chunk, initial_log c a off p ++ st.log⟩ := by
  cases hmc : env.malloc_chunk
  · simp [compute_entropy_chunk, hmc]
  · have hs := start_normal_form hv h32 fuel env a off p
      ⟨(List.range c.DATA_CHUNK_SIZE).map env.heap, []⟩ hl (by simp) hfuel
    cases hm : env.malloc_input
    · rw [hm] at hs
      simp [compute_entropy_chunk, hmc, hs]
    · cases hcs : env.ctx_seed
      · rw [hm, hcs] at hs
        simp [compute_entropy_chunk, hmc, hs]
      · cases hct : env.ctx_start
        · rw [hm, hcs, hct] at hs
          simp [compute_entropy_chunk, hmc, hs]
        · rw [entropy_unfold hv h32 fuel env a off p out n hmc hm hcs hct hl hfuel]
          have h2 := chunk2_unfold c fuel env (last_segment c a off p)
            (initial_chunk c a off p) out n (initial_chunk_length hv a off p) hout
          unfold last_segment initial_chunk at h2
          rw [h2]
          cases hcm : env.ctx_mix
          · simp [initial_chunk, initial_log]
          · simp only [Bool.true_eq_false, if_false]
            unfold last_segment initial_chunk
            generalize mix_loop c (chain_chunk c (c.PACKING_HASH_ALG (seed_input c a off p)))
              n fuel _ = x
            cases x <;> rfl

/-- Any successful return of `compute_entropy_chunk` comes from a returning run of the
mixing loop on the initial chunk, with every resource obtained. -/
theorem entropy_ret {c : Params} (hv : c.Valid)
    (h32 : c.PACKING_HASH_SIZE = EVP_sha256_size) (fuel : Nat) (env : Env) (a : List Byte)
    (off : Nat) (p : List Byte) (out : Buf) (n : Nat) (r : Result)
    (hout : out.bytes.length = c.DATA_CHUNK_SIZE)
    (h : compute_entropy_chunk c fuel env a off p out n = Exec.ret r)
    (hr : r.err = NO_ERROR) :
    env.succeeds ∧ a.length + 8 + p.length ≤ INT_MAX ∧
    ∃ st, mix_loop c (initial_chunk c a off p) n fuel
        (mix_init c (last_segment c a off p) (initial_chunk c a off p) out) = Exec.ret st ∧
      MixInv c (last_segment c a off p) (initial_chunk c a off p)
        (out.writes ++ [(0, c.DATA_CHUNK_SIZE)]) st ∧
      r = ⟨NO_ERROR, st.new_entropy_chunk, initial_log c a off p ++ st.log⟩ := by
  obtain ⟨hneg, hnat⟩ := last_segment_offset hv
  unfold compute_entropy_chunk at h
  cases hmc : env.malloc_chunk
  · rw [hmc] at h
    simp only [Bool.not_false, if_true] at h
    injection h with h
    subst h
    cases hr
  · rw [hmc] at h
    simp only [Bool.not_true, Bool.false_eq_true, if_false] at h
    obtain ⟨s, hs, h⟩ := Exec.bind_eq_ret h
    by_cases hse : s.err = NO_ERROR
    · obtain ⟨⟨hm, hcs, hct, hl⟩, hsr⟩ := start_ret hv h32 fuel env a off p _ s (by simp) hs hse
      subst hsr
      simp only [ne_eq, not_true_eq_false, if_false] at h
      rw [if_neg hneg, hnat, load_last_segment hv _ (chain_chunk_length hv _)] at h
      simp only [Exec.ret_bind] at h
      obtain ⟨r2, hr2, h⟩ := Exec.bind_eq_ret h
      injection h with h
      subst h
      have hu := chunk2_unfold c fuel env (last_segment c a off p) (initial_chunk c a off p)
        out n (initial_chunk_length hv a off p) hout
      unfold last_segment initial_chunk at hu
      rw [hu] at hr2
      cases hcm : env.ctx_mix
      · rw [hcm] at hr2
        simp only [if_true] at hr2
        injection hr2 with hr2
        subst hr2
        cases hr
      · rw [hcm] at hr2
        simp only [Bool.true_eq_false, if_false] at hr2
        obtain ⟨st, hst, hr2⟩ := Exec.bind_eq_ret hr2
        injection hr2 with hr2
        subst hr2
        refine ⟨⟨hmc, hm, hcs, hct, hcm⟩, hl, st, hst, ?_, rfl⟩
        exact mix_loop_inv hv (Nat.le_of_eq (last_segment_length hv a off p).symm)
          (initial_chunk_length hv a off p) n fuel _ st
          (mix_init_inv _ _ out (initial_chunk_length hv a off p)) hst
    · rw [if_pos hse] at h
      injection h with h
      subst h
      exact absurd hr hse

theorem fill_writes_populates {c : Params} (hv : c.Valid) : populates c (fill_writes c) := by
  constructor
  · intro w hw
    simp only [fill_writes, List.mem_map, List.mem_range] at hw
    obtain ⟨k, hk, rfl⟩ := hw
    have := hv.slot_fits k
    rw [Nat.mod_eq_of_lt hk] at this
    exact this
  · intro k hk
    refine ⟨(k * c.PACKING_HASH_SIZE, c.PACKING_HASH_SIZE), ?_, Nat.le_refl _, ?_⟩
    · simp only [fill_writes, List.mem_map, List.mem_range]
      exact ⟨k, hk, rfl⟩
    · rw [Nat.succ_mul]

theorem mix_writes_populate {c : Params} (hv : c.Valid) {segment e : List Byte}
    {w0 : List (Nat × Nat)} {st : MixState}
    (hi : MixInv c segment e (w0 ++ [(0, c.DATA_CHUNK_SIZE)]) st) :
    ∃ ws, st.new_entropy_chunk.writes = w0 ++ ws ∧ populates c ws := by
  obtain ⟨ws, hws, _, hb⟩ := hi.writes
  refine ⟨(0, c.DATA_CHUNK_SIZE) :: ws, by rw [hws]; simp, ?_, ?_⟩
  · intro w hw
    rcases List.mem_cons.mp hw with rfl | hw
    · simp
    · exact (hb w hw).2.2
  · intro k hk
    refine ⟨(0, c.DATA_CHUNK_SIZE), List.mem_cons_self _ _, Nat.zero_le _, ?_⟩
    have := Nat.mul_le_mul_right c.PACKING_HASH_SIZE (Nat.succ_le_of_lt hk)
    rw [hv.mul_eq] at this
    simpa using this

/-- A successful return of `compute_start_entropy_chunk` shows that the digest fills the
local array `seed_hash` exactly. -/
theorem start_ok_size {c : Params} (hv : c.Valid) (fuel : Nat) (env : Env) (a : List Byte)
    (off : Nat) (p : List Byte) (chunk : Buf) (r : Result)
    (h : compute_start_entropy_chunk c fuel env a off p chunk = Exec.ret r)
    (hr : r.err = NO_ERROR) : c.PACKING_HASH_SIZE = EVP_sha256_size := by
  unfold compute_start_entropy_chunk at h
  obtain ⟨s, hs, h⟩ := Exec.bind_eq_ret h
  by_cases hse : s.err = NO_ERROR
  · obtain ⟨_, _, _, _, hsr⟩ := (compute_seed_hash_ok_iff c env a off p _ s).mp ⟨hs, hse⟩
    subst hsr
    simp only [ne_eq, not_true_eq_false, if_false] at h
    by_cases hw : ([] : List (Nat × Nat)) ++
        [(0, (c.PACKING_HASH_ALG (seed_input c a off p)).length)] = [(0, EVP_sha256_size)]
    · rw [← hv.digest_len (seed_input c a off p)]
      simpa using hw
    · rw [if_pos hw] at h
      cases h
  · rw [if_pos hse] at h
    injection h with h
    subst h
    exact absurd hr hse

/-- The same for `compute_entropy_chunk`. -/
theorem entropy_ok_size {c : Params} (hv : c.Valid) (fuel : Nat) (env : Env) (a : List Byte)
    (off : Nat) (p : List Byte) (out : Buf) (n : Nat) (r : Result)
    (h : compute_entropy_chunk c fuel env a off p out n = Exec.ret r)
    (hr : r.err = NO_ERROR) : c.PACKING_HASH_SIZE = EVP_sha256_size := by
  unfold compute_entropy_chunk at h
  cases hmc : env.malloc_chunk
  · rw [hmc] at h
    simp only [Bool.not_false, if_true] at h
    injection h with h
    subst h
    cases hr
  · rw [hmc] at h
    simp only [Bool.not_true, Bool.false_eq_true, if_false] at h
    obtain ⟨s, hs, h⟩ := Exec.bind_eq_ret h
    by_cases hse : s.err = NO_ERROR
    · exact start_ok_size hv fuel env a off p _ s hs hse
    · rw [if_pos hse] at h
      injection h with h
      subst h
      exact absurd hr hse

theorem le_bytes_inj : ∀ (n x y : Nat), x < 256 ^ n → y < 256 ^ n →
    le_bytes n x = le_bytes n y → x = y := by
  intro n
  induction n with
  | zero =>
    intro x y hx hy _
    simp at hx hy
    omega
  | succ n ih =>
    intro x y hx hy h
    simp only [le_bytes, List.cons.injEq] at h
    have hx' : x / 256 < 256 ^ n := by
      apply Nat.div_lt_of_lt_mul
      rw [← Nat.pow_succ']
      exact hx
    have hy' : y / 256 < 256 ^ n := by
      apply Nat.div_lt_of_lt_mul
      rw [← Nat.pow_succ']
      exact hy
    have hq := ih _ _ hx' hy' h.2
    have hm : x % 256 = y % 256 := h.1
    have h1 := Nat.div_add_mod x 256
    have h2 := Nat.div_add_mod y 256
    omega

theorem u64_bytes_inj (c : Params) (x y : Nat) (hx : x < 2 ^ 64) (hy : y < 2 ^ 64)
    (h : u64_bytes c x = u64_bytes c y) : x = y := by
  have hx' : x % 2 ^ 64 = x := Nat.mod_eq_of_lt hx
  have hy' : y % 2 ^ 64 = y := Nat.mod_eq_of_lt hy
  have hp : (2 : Nat) ^ 64 = 256 ^ 8 := by norm_num
  unfold u64_bytes at h
  rw [hx', hy'] at h
  split_ifs at h
  · exact le_bytes_inj 8 x y (by omega) (by omega) (List.reverse_injective h)
  · exact le_bytes_inj 8 x y (by omega) (by omega) h

theorem seed_input_inj (c : Params) (a1 a2 : List Byte) (o1 o2 : Nat) (p1 p2 : List Byte)
    (ha : a1.length = a2.length) (hp : p1.length = p2.length)
    (h : seed_input c a1 o1 p1 = seed_input c a2 o2 p2) :
    a1 = a2 ∧ p1 = p2 ∧ u64_bytes c o1 = u64_bytes c o2 := by
  unfold seed_input at h
  obtain ⟨h1, h2⟩ := List.append_inj h (by simp [ha, hp])
  obtain ⟨h3, h4⟩ := List.append_inj h1 ha
  exact ⟨h3, h4, h2⟩

theorem iterate_mem_fill_log (c : Params) :
    ∀ (n : Nat) (s : List Byte) (k : Nat), k < n →
      c.PACKING_HASH_ALG^[k] s ∈ (s :: chain c n s).take n := by
  intro n
  induction n with
  | zero => intro s k hk; omega
  | succ n ih =>
    intro s k hk
    rw [List.take_succ_cons]
    cases k with
    | zero => exact List.mem_cons_self _ _
    | succ k =>
      rw [Function.iterate_succ_apply]
      exact List.mem_cons_of_mem _ (ih (c.PACKING_HASH_ALG s) k (by omega))

theorem mix_body_log (c : Params) (e : List Byte) (st st1 : MixState)
    (h : mix_body c e st = Exec.ret st1) : ∃ x, st1.log = st.log ++ [x] := by
  by_cases h0 : c.HASH_ITERATIONS_PER_BLOCK = 0
  · simp [mix_body, h0] at h
  · by_cases hov : st.hash_count + 1 > INT_MAX
    · simp only [mix_body, if_neg h0, if_pos hov] at h
      obtain ⟨a, _, h⟩ := Exec.bind_eq_ret h
      obtain ⟨b, _, h⟩ := Exec.bind_eq_ret h
      obtain ⟨d, _, h⟩ := Exec.bind_eq_ret h
      cases h
    · simp only [mix_body, if_neg h0, if_neg hov] at h
      obtain ⟨a, _, h⟩ := Exec.bind_eq_ret h
      obtain ⟨b, _, h⟩ := Exec.bind_eq_ret h
      obtain ⟨d, _, h⟩ := Exec.bind_eq_ret h
      injection h with h
      rw [← h]
      exact ⟨_, rfl⟩

theorem mix_loop_log_mono (c : Params) (e : List Byte) (n : Nat) :
    ∀ (fuel : Nat) (st st1 : MixState), mix_loop c e n fuel st = Exec.ret st1 →
      ∀ x ∈ st.log, x ∈ st1.log := by
  intro fuel
  induction fuel with
  | zero => intro st st1 h; simp [mix_loop] at h
  | succ fuel ih =>
    intro st st1 h x hx
    simp only [mix_loop] at h
    split_ifs at h with hlt
    · obtain ⟨s, hs, hrest⟩ := Exec.bind_eq_ret h
      obtain ⟨y, hy⟩ := mix_body_log c e st s hs
      exact ih s st1 hrest x (by rw [hy]; exact List.mem_append_left _ hx)
    · injection h with h
      subst h
      exact hx

theorem chained_length {c : Params} (hv : c.Valid) (segment bytes : List Byte) (i : Nat)
    (hseg : segment.length = c.PACKING_HASH_SIZE) (hb : bytes.length = c.DATA_CHUNK_SIZE) :
    (chained c segment bytes i).length = c.PACKING_HASH_SIZE := by
  unfold chained
  split_ifs
  · simp [hseg]
  · exact segment_at_length hv bytes hb _ (Nat.mod_lt _ hv.iter_pos)

theorem append_ne_of_left_ne {a1 a2 b1 b2 : List Byte} (hl : a1.length = a2.length)
    (h : a1 ≠ a2) : a1 ++ b1 ≠ a2 ++ b2 := fun heq => h (List.append_inj heq hl).1

/-- Two runs of the mixing loop that start at the same iteration with different chained
segments and chunks that differ on every segment keep these differences, as long as the
digest separates the different inputs it is given in the two runs. -/
theorem mix_loop_differ {c : Params} (hv : c.Valid) {seg1 seg2 e1 e2 : List Byte}
    {w1 w2 : List (Nat × Nat)} (hs1 : seg1.length = c.PACKING_HASH_SIZE)
    (hs2 : seg2.length = c.PACKING_HASH_SIZE) (he1 : e1.length = c.DATA_CHUNK_SIZE)
    (he2 : e2.length = c.DATA_CHUNK_SIZE) (n : Nat) :
    ∀ (fuel : Nat) (st1 st2 f1 f2 : MixState),
      MixInv c seg1 e1 w1 st1 → MixInv c seg2 e2 w2 st2 → MixDiffer c seg1 seg2 st1 st2 →
      mix_loop c e1 n fuel st1 = Exec.ret f1 → mix_loop c e2 n fuel st2 = Exec.ret f2 →
      (∀ x ∈ f1.log, ∀ y ∈ f2.log, x ≠ y → c.PACKING_HASH_ALG x ≠ c.PACKING_HASH_ALG y) →
      MixDiffer c seg1 seg2 f1 f2 := by
  intro fuel
  induction fuel with
  | zero => intro st1 st2 f1 f2 _ _ _ h; simp [mix_loop] at h
  | succ fuel ih =>
    intro st1 st2 f1 f2 hi1 hi2 hd h1 h2 hnc
    simp only [mix_loop] at h1 h2
    have hcount := hd.count
    by_cases hlt : st1.hash_count < n
    · rw [if_pos hlt] at h1
      rw [if_pos (by omega)] at h2
      obtain ⟨s1, hb1, hr1⟩ := Exec.bind_eq_ret h1
      obtain ⟨s2, hb2, hr2⟩ := Exec.bind_eq_ret h2
      obtain ⟨t1, ht1, hi1', hc1, hbytes1, _, hlog1⟩ := mix_body_run hv (Nat.le_of_eq hs1.symm)
        he1 hi1 (mix_body_no_overflow c e1 st1 s1 hb1)
      obtain ⟨t2, ht2, hi2', hc2, hbytes2, _, hlog2⟩ := mix_body_run hv (Nat.le_of_eq hs2.symm)
        he2 hi2 (mix_body_no_overflow c e2 st2 s2 hb2)
      rw [hb1] at ht1
      rw [hb2] at ht2
      injection ht1 with ht1
      injection ht2 with ht2
      subst ht1 ht2
      have hx1 : chained c seg1 st1.new_entropy_chunk.bytes st1.hash_count ++
          segment_at c e1 (st1.hash_count % c.HASH_ITERATIONS_PER_BLOCK) ∈ f1.log :=
        mix_loop_log_mono c e1 n fuel s1 f1 hr1 _ (by rw [hlog1]; simp)
      have hx2 : chained c seg2 st2.new_entropy_chunk.bytes st2.hash_count ++
          segment_at c e2 (st2.hash_count % c.HASH_ITERATIONS_PER_BLOCK) ∈ f2.log :=
        mix_loop_log_mono c e2 n fuel s2 f2 hr2 _ (by rw [hlog2]; simp)
      have hne := hnc _ hx1 _ hx2 (append_ne_of_left_ne
        (by rw [chained_length hv _ _ _ hs1 hi1.len, chained_length hv _ _ _ hs2 hi2.len])
        hd.chain)
      have hfit1 := hv.slot_fits st1.hash_count
      have hfit2 := hv.slot_fits st2.hash_count
      have hsame1 := segment_at_patch_same c st1.new_entropy_chunk.bytes
        (c.PACKING_HASH_ALG (chained c seg1 st1.new_entropy_chunk.bytes st1.hash_count ++
          segment_at c e1 (st1.hash_count % c.HASH_ITERATIONS_PER_BLOCK)))
        (st1.hash_count % c.HASH_ITERATIONS_PER_BLOCK) (hv.digest_len _)
        (by rw [hi1.len]; exact hfit1)
      have hsame2 := segment_at_patch_same c st2.new_entropy_chunk.bytes
        (c.PACKING_HASH_ALG (chained c seg2 st2.new_entropy_chunk.bytes st2.hash_count ++
          segment_at c e2 (st2.hash_count % c.HASH_ITERATIONS_PER_BLOCK)))
        (st2.hash_count % c.HASH_ITERATIONS_PER_BLOCK) (hv.digest_len _)
        (by rw [hi2.len]; exact hfit2)
      rw [hv.digest_len] at hsame1 hsame2
      rw [← hbytes1] at hsame1
      rw [← hbytes2] at hsame2
      have hge1 := hi1.count_ge
      have hge2 := hi2.count_ge
      have hd' : MixDiffer c seg1 seg2 s1 s2 := by
        constructor
        · omega
        · unfold chained
          rw [if_neg (by omega), if_neg (by omega), hc1, hc2, Nat.add_sub_cancel,
            Nat.add_sub_cancel, hsame1, hsame2]
          exact hne
        · intro k hk
          by_cases hk' : k = st1.hash_count % c.HASH_ITERATIONS_PER_BLOCK
          · subst hk'
            have q2 : segment_at c s2.new_entropy_chunk.bytes
                (st1.hash_count % c.HASH_ITERATIONS_PER_BLOCK) =
                c.PACKING_HASH_ALG
                  (chained c seg2 st2.new_entropy_chunk.bytes st2.hash_count ++
                    segment_at c e2 (st2.hash_count % c.HASH_ITERATIONS_PER_BLOCK)) := by
              rw [hcount]; exact hsame2
            rw [hsame1, q2]
            exact hne
          · have hk2 : k ≠ st2.hash_count % c.HASH_ITERATIONS_PER_BLOCK := by
              rw [← hcount]; exact hk'
            have ho1 := segment_at_patch_other c st1.new_entropy_chunk.bytes
              (c.PACKING_HASH_ALG (chained c seg1 st1.new_entropy_chunk.bytes st1.hash_count ++
                segment_at c e1 (st1.hash_count % c.HASH_ITERATIONS_PER_BLOCK)))
              (st1.hash_count % c.HASH_ITERATIONS_PER_BLOCK) k (hv.digest_len _)
              (by rw [hi1.len]; exact hfit1) hk'
            have ho2 := segment_at_patch_other c st2.new_entropy_chunk.bytes
              (c.PACKING_HASH_ALG (chained c seg2 st2.new_entropy_chunk.bytes st2.hash_count ++
                segment_at c e2 (st2.hash_count % c.HASH_ITERATIONS_PER_BLOCK)))
              (st2.hash_count % c.HASH_ITERATIONS_PER_BLOCK) k (hv.digest_len _)
              (by rw [hi2.len]; exact hfit2) hk2
            rw [hv.digest_len] at ho1 ho2
            rw [hbytes1, hbytes2, ho1, ho2]
            exact hd.segments k hk
      exact ih s1 s2 f1 f2 hi1' hi2' hd' hr1 hr2 hnc
    · rw [if_neg hlt] at h1
      rw [if_neg (by omega)] at h2
      injection h1 with h1
      injection h2 with h2
      subst h1 h2
      exact hd

theorem seed_hash_concat (c : Params) (env : Env) (a a' : List Byte) (off : Nat)
    (p p' : List Byte) (sh : Buf) (h : a ++ p = a' ++ p') :
    compute_seed_hash c env a off p sh = compute_seed_hash c env a' off p' sh := by
  have hlen : a.length + 8 + p.length = a'.length + 8 + p'.length := by
    have := congrArg List.length h
    simp only [List.length_append] at this
    omega
  unfold compute_seed_hash
  rw [hlen, h]

/-- Two states of the mixing loop that differ at most in the recorded stores. -/
theorem mix_loop_agree {c : Params} (hv : c.Valid) {segment e : List Byte}
    {w1 w2 : List (Nat × Nat)} (hseg : c.PACKING_HASH_SIZE ≤ segment.length)
    (he : e.length = c.DATA_CHUNK_SIZE) (n : Nat) :
    ∀ (fuel : Nat) (st1 st2 f1 f2 : MixState),
      MixInv c segment e w1 st1 → MixInv c segment e w2 st2 →
      st1.hash_count = st2.hash_count →
      st1.new_entropy_chunk.bytes = st2.new_entropy_chunk.bytes → st1.log = st2.log →
      mix_loop c e n fuel st1 = Exec.ret f1 → mix_loop c e n fuel st2 = Exec.ret f2 →
      f1.new_entropy_chunk.bytes = f2.new_entropy_chunk.bytes ∧ f1.log = f2.log := by
  intro fuel
  induction fuel with
  | zero => intro st1 st2 f1 f2 _ _ _ _ _ h; simp [mix_loop] at h
  | succ fuel ih =>
    intro st1 st2 f1 f2 hi1 hi2 hc hb hl h1 h2
    simp only [mix_loop] at h1 h2
    by_cases hlt : st1.hash_count < n
    · rw [if_pos hlt] at h1
      rw [if_pos (by omega)] at h2
      obtain ⟨s1, hb1, hr1⟩ := Exec.bind_eq_ret h1
      obtain ⟨s2, hb2, hr2⟩ := Exec.bind_eq_ret h2
      obtain ⟨t1, ht1, hi1', hc1, hbytes1, _, hlog1⟩ := mix_body_run hv hseg he hi1
        (mix_body_no_overflow c e st1 s1 hb1)
      obtain ⟨t2, ht2, hi2', hc2, hbytes2, _, hlog2⟩ := mix_body_run hv hseg he hi2
        (mix_body_no_overflow c e st2 s2 hb2)
      rw [hb1] at ht1
      rw [hb2] at ht2
      injection ht1 with ht1
      injection ht2 with ht2
      subst ht1 ht2
      refine ih s1 s2 f1 f2 hi1' hi2' (by omega) ?_ ?_ hr1 hr2
      · rw [hbytes1, hbytes2, hb, hc]
      · rw [hlog1, hlog2, hb, hc, hl]
    · rw [if_neg hlt] at h1
      rw [if_neg (by omega)] at h2
      injection h1 with h1
      injection h2 with h2
      subst h1 h2
      exact ⟨hb, hl⟩

theorem chain_flatten_length (c : Params)
    (hd : ∀ m, (c.PACKING_HASH_ALG m).length = c.PACKING_HASH_SIZE) :
    ∀ (n : Nat) (s : List Byte), (chain c n s).flatten.length = n * c.PACKING_HASH_SIZE := by
  intro n
  induction n with
  | zero => intro s; simp [chain]
  | succ n ih =>
    intro s
    simp [chain, ih, hd, Nat.succ_mul, Nat.add_comm]

theorem fill_log_length (c : Params) (n : Nat) (s : List Byte) :
    ((s :: chain c n s).take n).length = n := by
  have h : ∀ (n : Nat) (s : List Byte), (chain c n s).length = n := by
    intro n
    induction n with
    | zero => intro s; rfl
    | succ n ih => intro s; simp [chain, ih]
  simp [h]

/-- The fill loop does not return before it has run one iteration per segment: with no
more fuel than there are segments left it runs out of fuel. -/
theorem fill_loop_short (c : Params)
    (hd : ∀ m, (c.PACKING_HASH_ALG m).length = c.PACKING_HASH_SIZE)
    (hP : 0 < c.PACKING_HASH_SIZE) :
    ∀ (n : Nat) (pre post : List Byte) (w : List (Nat × Nat)) (p : SegPtr) (len : Nat)
      (log : List (List Byte)) (msg : List Byte) (fuel : Nat),
      post.length = n * c.PACKING_HASH_SIZE →
      c.DATA_CHUNK_SIZE = pre.length + n * c.PACKING_HASH_SIZE →
      deref ⟨pre ++ post, w⟩ p len = Exec.ret msg →
      fuel ≤ n →
      fill_loop c fuel ⟨⟨pre ++ post, w⟩, pre.length, p, len, log⟩ = Exec.nofuel := by
  intro n
  induction n with
  | zero =>
    intro pre post w p len log msg fuel _ _ _ hfuel
    have : fuel = 0 := by omega
    subst this
    rfl
  | succ n ih =>
    intro pre post w p len log msg fuel hpost hD hmsg hfuel
    cases fuel with
    | zero => rfl
    | succ fuel =>
      have hlt : pre.length < c.DATA_CHUNK_SIZE := by
        rw [hD, Nat.succ_mul]; omega
      have hPle : c.PACKING_HASH_SIZE ≤ post.length := by
        rw [hpost, Nat.succ_mul]; omega
      have hstore : (⟨pre ++ post, w⟩ : Buf).store pre.length (c.PACKING_HASH_ALG msg) =
          Exec.ret ⟨(pre ++ c.PACKING_HASH_ALG msg) ++ post.drop c.PACKING_HASH_SIZE,
            w ++ [(pre.length, c.PACKING_HASH_SIZE)]⟩ := by
        rw [store_ok (by simp [hd]; omega)]
        simp [hd, List.take_append_eq_append_take, List.drop_append_eq_append_drop]
      have hderef : deref ⟨(pre ++ c.PACKING_HASH_ALG msg) ++ post.drop c.PACKING_HASH_SIZE,
            w ++ [(pre.length, c.PACKING_HASH_SIZE)]⟩ (SegPtr.chunk pre.length)
            c.PACKING_HASH_SIZE = Exec.ret (c.PACKING_HASH_ALG msg) := by
        simp only [deref]
        rw [load_ok (by simp [hd])]
        simp [hd, List.take_append_eq_append_take, List.drop_append_eq_append_drop]
      have hrun := ih (pre ++ c.PACKING_HASH_ALG msg)
        (post.drop c.PACKING_HASH_SIZE) (w ++ [(pre.length, c.PACKING_HASH_SIZE)])
        (SegPtr.chunk pre.length) c.PACKING_HASH_SIZE (log ++ [msg]) (c.PACKING_HASH_ALG msg)
        fuel (by simp [hpost, Nat.succ_mul])
        (by simp [hd]; rw [hD, Nat.succ_mul]; omega)
        hderef (by omega)
      simp only [fill_loop]
      rw [if_pos hlt]
      simp only [fill_body, hmsg, hstore, Exec.ret_bind, hd]
      simpa [hd] using hrun

/-- What a returning run of the mixing loop tells about the requested count and the
fuel: the counter ends at the count, a count that was not yet reached fits an `int`, and
the fuel exceeded the number of iterations. -/
theorem mix_ret_bounds (c : Params) (e : List Byte) (n : Nat) :
    ∀ (fuel : Nat) (st st1 : MixState), mix_loop c e n fuel st = Exec.ret st1 →
      st.hash_count ≤ n →
      st1.hash_count = n ∧ (st.hash_count < n → n ≤ INT_MAX) ∧ n - st.hash_count < fuel := by
  intro fuel
  induction fuel with
  | zero => intro st st1 h; simp [mix_loop] at h
  | succ fuel ih =>
    intro st st1 h hle
    simp only [mix_loop] at h
    split_ifs at h with hlt
    · obtain ⟨s, hs, hrest⟩ := Exec.bind_eq_ret h
      have hc := mix_body_count c e st s hs
      have hov := mix_body_no_overflow c e st s hs
      obtain ⟨h1, h2, h3⟩ := ih s st1 hrest (by omega)
      refine ⟨h1, ?_, by omega⟩
      intro _
      by_cases hs' : s.hash_count < n
      · exact h2 hs'
      · omega
    · injection h with h
      subst h
      exact ⟨by omega, fun h => absurd h hlt, by omega⟩

theorem chained_eq_prev_slot {c : Params} (hv : c.Valid) (a : List Byte) (off : Nat)
    (p : List Byte) {w0 : List (Nat × Nat)} {st : MixState}
    (hi : MixInv c (last_segment c a off p) (initial_chunk c a off p) w0 st) :
    chained c (last_segment c a off p) st.new_entropy_chunk.bytes st.hash_count =
      segment_at c st.new_entropy_chunk.bytes
        ((st.hash_count - 1) % c.HASH_ITERATIONS_PER_BLOCK) := by
  have hH := hv.iter_pos
  unfold chained
  split_ifs with h
  · rw [← last_segment_length hv a off p, List.take_length, h,
      Nat.mod_eq_of_lt (Nat.sub_lt hH Nat.one_pos),
      hi.untouched _ (by omega) (Nat.sub_lt hH Nat.one_pos)]
    rfl
  · rfl

/-- More fuel does not change an outcome other than running out of fuel. -/
theorem mix_loop_mono_ne (c : Params) (e : List Byte) (n : Nat) :
    ∀ (fuel : Nat) (st : MixState), mix_loop c e n fuel st ≠ Exec.nofuel →
      ∀ fuel1, fuel ≤ fuel1 → mix_loop c e n fuel1 st = mix_loop c e n fuel st := by
  intro fuel
  induction fuel with
  | zero => intro st h; simp [mix_loop] at h
  | succ fuel ih =>
    intro st h fuel1 hle
    obtain ⟨fuel1, rfl⟩ : ∃ f, fuel1 = f + 1 := ⟨fuel1 - 1, by omega⟩
    simp only [mix_loop] at h ⊢
    split_ifs at h ⊢ with hlt
    · cases hb : mix_body c e st with
      | ret s =>
        rw [hb] at h
        simp only [Exec.ret_bind] at h ⊢
        exact ih s h fuel1 (by omega)
      | ub u => rfl
      | nofuel => rfl
    · rfl

/-- At `hash_count = INT_MAX` the body of the mixing loop ends in the overflow of
`++hash_count`. -/
theorem mix_body_overflow {c : Params} (hv : c.Valid) {segment e : List Byte}
    {w0 : List (Nat × Nat)} {st : MixState} (hseg : c.PACKING_HASH_SIZE ≤ segment.length)
    (he : e.length = c.DATA_CHUNK_SIZE) (hi : MixInv c segment e w0 st)
    (hov : st.hash_count = INT_MAX) :
    mix_body c e st = Exec.ub UB.signed_overflow := by
  have hH := hv.iter_pos
  have hfit := hv.slot_fits st.hash_count
  have hlen := hi.len
  unfold mix_body
  rw [if_neg (by omega)]
  simp only [deref_inv hv hseg hi, Exec.ret_bind]
  rw [load_ok (by omega)]
  simp only [Exec.ret_bind]
  rw [store_ok (by rw [hv.digest_len]; omega)]
  simp only [Exec.ret_bind]
  rw [if_pos (by omega)]

/-- A run to `n` follows a returning run to `m ≤ n` and goes on from its final state. -/
theorem mix_loop_extend (c : Params) (e : List Byte) (m n : Nat) (hmn : m ≤ n) :
    ∀ (fuel : Nat) (st st1 : MixState) (k : Nat), st.hash_count ≤ m →
      mix_loop c e m fuel st = Exec.ret st1 →
      mix_loop c e n (k + 1) st1 ≠ Exec.nofuel →
      mix_loop c e n (fuel + k) st = mix_loop c e n (k + 1) st1 := by
  intro fuel
  induction fuel with
  | zero => intro st st1 k _ h; simp [mix_loop] at h
  | succ fuel ih =>
    intro st st1 k hle h hne
    simp only [mix_loop] at h
    split_ifs at h with hlt
    · obtain ⟨s, hs, hrest⟩ := Exec.bind_eq_ret h
      have hc := mix_body_count c e st s hs
      have := ih s st1 k (by omega) hrest hne
      rw [Nat.add_right_comm, mix_loop, if_pos (by omega), hs]
      exact this
    · injection h with h
      subst h
      exact mix_loop_mono_ne c e n (k + 1) st hne _ (by omega)

/-- A requested count above `INT_MAX` drives the counter of the mixing loop into the
overflow of `++hash_count`. -/
theorem mix_overflow {c : Params} (hv : c.Valid) (segment e : List Byte) (out : Buf)
    (hseg : c.PACKING_HASH_SIZE ≤ segment.length) (he : e.length = c.DATA_CHUNK_SIZE)
    (n fuel : Nat) (hH : c.HASH_ITERATIONS_PER_BLOCK ≤ INT_MAX) (hn : INT_MAX < n)
    (hfuel : INT_MAX - c.HASH_ITERATIONS_PER_BLOCK < fuel) :
    mix_loop c e n fuel (mix_init c segment e out) = Exec.ub UB.signed_overflow := by
  obtain ⟨st, hst, hinv, hc⟩ := mix_run hv segment e out hseg he INT_MAX
    (INT_MAX - c.HASH_ITERATIONS_PER_BLOCK + 1) (Or.inl (Nat.le_refl _)) (by omega)
  have hc' : st.hash_count = INT_MAX := by omega
  have hlast : mix_loop c e n (0 + 1) st = Exec.ub UB.signed_overflow := by
    rw [mix_loop, if_pos (by omega), mix_body_overflow hv hseg he hinv hc']
    rfl
  have hext := mix_loop_extend c e INT_MAX n (by omega) _ _ st 0
    (by simp [mix_init]; omega) hst (by rw [hlast]; simp)
  rw [hlast] at hext
  have hne : mix_loop c e n (INT_MAX - c.HASH_ITERATIONS_PER_BLOCK + 1 + 0)
      (mix_init c segment e out) ≠ Exec.nofuel := by rw [hext]; simp
  rw [mix_loop_mono_ne c e n _ _ hne fuel (by omega), hext]

theorem fill_log_get (c : Params) :
    ∀ (n : Nat) (s : List Byte) (k : Nat), k < n →
      ((s :: chain c n s).take n)[k]? = some (c.PACKING_HASH_ALG^[k] s) := by
  intro n
  induction n with
  | zero => intro s k hk; omega
  | succ n ih =>
    intro s k hk
    rw [List.take_succ_cons]
    cases k with
    | zero => simp
    | succ k =>
      rw [List.getElem?_cons_succ, Function.iterate_succ_apply]
      exact ih (c.PACKING_HASH_ALG s) k (by omega)

theorem initial_log_length (c : Params) (a : List Byte) (off : Nat) (p : List Byte) :
    (initial_log c a off p).length = 1 + c.HASH_ITERATIONS_PER_BLOCK := by
  simp only [initial_log, fill_log, List.length_cons, fill_log_length]
  omega

theorem initial_log_get_succ (c : Params) (a : List Byte) (off : Nat) (p : List Byte)
    (j : Nat) (hj : j < c.HASH_ITERATIONS_PER_BLOCK) :
    (initial_log c a off p)[j + 1]? =
      some (c.PACKING_HASH_ALG^[j] (c.PACKING_HASH_ALG (seed_input c a off p))) := by
  simp only [initial_log, fill_log, List.getElem?_cons_succ]
  exact fill_log_get c _ _ j hj

/-- The digest inputs of the seed derivation and the initial fill form a chain. -/
theorem initial_log_linked (c : Params) (a : List Byte) (off : Nat) (p : List Byte) :
    log_linked c (initial_chunk c a off p) (initial_log c a off p) := by
  intro j hj
  rw [initial_log_length] at hj
  have hjH : j < c.HASH_ITERATIONS_PER_BLOCK := by omega
  have hnext := initial_log_get_succ c a off p j hjH
  cases j with
  | zero =>
    refine ⟨seed_input c a off p, by simp [initial_log], ?_⟩
    rw [hnext, if_pos hjH, List.append_nil]
    rfl
  | succ j =>
    refine ⟨_, initial_log_get_succ c a off p j (by omega), ?_⟩
    rw [hnext, if_pos hjH, List.append_nil, ← Function.iterate_succ_apply' c.PACKING_HASH_ALG]

theorem log_linked_snoc (c : Params) (e : List Byte) (log : List (List Byte))
    (x : List Byte) (hl : log_linked c e log)
    (hx : log[log.length - 1]? = some x) (hlen : c.HASH_ITERATIONS_PER_BLOCK < log.length) :
    log_linked c e (log ++ [c.PACKING_HASH_ALG x ++
      segment_at c e ((log.length - 1) % c.HASH_ITERATIONS_PER_BLOCK)]) := by
  intro j hj
  simp only [List.length_append, List.length_singleton] at hj
  by_cases hjl : j + 1 < log.length
  · obtain ⟨y, hy1, hy2⟩ := hl j hjl
    refine ⟨y, ?_, ?_⟩
    · rw [List.getElem?_append_left (by omega)]; exact hy1
    · rw [List.getElem?_append_left hjl]; exact hy2
  · have hje : j = log.length - 1 := by omega
    refine ⟨x, ?_, ?_⟩
    · rw [List.getElem?_append_left (by omega), hje]; exact hx
    · rw [List.getElem?_append_right (by omega), if_neg (by omega), hje]
      have : log.length - 1 + 1 - log.length = 0 := by omega
      rw [this]
      rfl

/-- The whole digest log of a run of the mixing loop on the initial chunk is a chain,
and the segment the loop would read next is the digest of its last entry. -/
theorem mix_log_linked {c : Params} (hv : c.Valid) (a : List Byte) (off : Nat)
    (p : List Byte) (out : Buf) :
    ∀ m, (m = 0 ∨ c.HASH_ITERATIONS_PER_BLOCK + m ≤ INT_MAX) →
      ∃ st, mix_loop c (initial_chunk c a off p) (c.HASH_ITERATIONS_PER_BLOCK + m) (m + 1)
          (mix_init c (last_segment c a off p) (initial_chunk c a off p) out) = Exec.ret st ∧
        st.log.length = m ∧
        log_linked c (initial_chunk c a off p) (initial_log c a off p ++ st.log) ∧
        ∃ x, (initial_log c a off p ++ st.log)[c.HASH_ITERATIONS_PER_BLOCK + m]? = some x ∧
          chained c (last_segment c a off p) st.new_entropy_chunk.bytes
            (c.HASH_ITERATIONS_PER_BLOCK + m) = c.PACKING_HASH_ALG x := by
  have hH := hv.iter_pos
  have hE := initial_chunk_length hv a off p
  have hL := last_segment_length hv a off p
  intro m
  induction m with
  | zero =>
    intro _
    refine ⟨mix_init c (last_segment c a off p) (initial_chunk c a off p) out,
      mix_loop_zero c _ _ out _ 1 (Nat.le_refl _) Nat.one_pos, rfl, ?_, ?_⟩
    · simp only [mix_init, List.append_nil]
      exact initial_log_linked c a off p
    · refine ⟨c.PACKING_HASH_ALG^[c.HASH_ITERATIONS_PER_BLOCK - 1]
        (c.PACKING_HASH_ALG (seed_input c a off p)), ?_, ?_⟩
      · simp only [mix_init, List.append_nil, Nat.add_zero]
        have := initial_log_get_succ c a off p (c.HASH_ITERATIONS_PER_BLOCK - 1) (by omega)
        rw [Nat.sub_add_cancel hH] at this
        exact this
      · unfold chained
        simp only [Nat.add_zero, if_true]
        rw [← hL, List.take_length, ← Function.iterate_succ_apply' c.PACKING_HASH_ALG]
        unfold last_segment initial_chunk
        rw [segment_at_chain_chunk hv _ _ (by omega)]
  | succ m ih =>
    intro hm
    have hm' : c.HASH_ITERATIONS_PER_BLOCK + (m + 1) ≤ INT_MAX := by omega
    obtain ⟨st, hst, hlen, hlink, x, hx, hch⟩ := ih (Or.inr (by omega))
    obtain ⟨sa, sb, hsa, hsb, hia, _, _, _, hbytes, _, hlog⟩ := mix_step hv
      (last_segment c a off p) (initial_chunk c a off p) out (Nat.le_of_eq hL.symm) hE
      (c.HASH_ITERATIONS_PER_BLOCK + m) (m + 2) (by omega) (by omega) (by omega)
    have hsa' := mix_loop_unique c _ _ _ _ _ sa st hsa hst
    subst hsa'
    rw [hch] at hlog hbytes
    have hLlen : (initial_log c a off p ++ sa.log).length =
        c.HASH_ITERATIONS_PER_BLOCK + m + 1 := by
      rw [List.length_append, initial_log_length, hlen]; omega
    have hidx : (initial_log c a off p ++ sa.log).length - 1 =
        c.HASH_ITERATIONS_PER_BLOCK + m := by omega
    refine ⟨sb, hsb, by rw [hlog, List.length_append, hlen]; rfl, ?_, ?_⟩
    · have := log_linked_snoc c (initial_chunk c a off p) (initial_log c a off p ++ sa.log) x
        hlink (by rw [hidx]; exact hx) (by omega)
      rw [hidx, List.append_assoc] at this
      rw [hlog]
      exact this
    · refine ⟨c.PACKING_HASH_ALG x ++ segment_at c (initial_chunk c a off p)
        ((c.HASH_ITERATIONS_PER_BLOCK + m) % c.HASH_ITERATIONS_PER_BLOCK), ?_, ?_⟩
      · rw [hlog, ← List.append_assoc, List.getElem?_append_right (by omega), hLlen]
        have : c.HASH_ITERATIONS_PER_BLOCK + (m + 1) -
            (c.HASH_ITERATIONS_PER_BLOCK + m + 1) = 0 := by omega
        rw [this]
        rfl
      · unfold chained
        rw [if_neg (by omega)]
        have hidx2 : c.HASH_ITERATIONS_PER_BLOCK + (m + 1) - 1 =
            c.HASH_ITERATIONS_PER_BLOCK + m := by omega
        rw [hidx2, hbytes]
        have h := segment_at_patch_same c sa.new_entropy_chunk.bytes
          (c.PACKING_HASH_ALG (c.PACKING_HASH_ALG x ++
            segment_at c (initial_chunk c a off p)
              ((c.HASH_ITERATIONS_PER_BLOCK + m) % c.HASH_ITERATIONS_PER_BLOCK)))
          ((c.HASH_ITERATIONS_PER_BLOCK + m) % c.HASH_ITERATIONS_PER_BLOCK)
          (hv.digest_len _) (by rw [hia.len]; exact hv.slot_fits _)
        rw [hv.digest_len] at h
        exact h

/-- In a run of `compute_entropy_chunk2` that returns `NO_ERROR` the requested count fits
an `int` (when the loop ran at all), and after the initial copy the loop made one store
per iteration, each of `PACKING_HASH_SIZE` bytes at a multiple of `PACKING_HASH_SIZE`
inside the chunk. -/
theorem chunk2_stores_in_bounds {c : Params} (hv : c.Valid) (fuel : Nat) (env : Env)
    (segment e : List Byte) (out : Buf) (n : Nat) (r : Result)
    (hseg : c.PACKING_HASH_SIZE ≤ segment.length) (he : e.length = c.DATA_CHUNK_SIZE)
    (hout : out.bytes.length = c.DATA_CHUNK_SIZE)
    (h : compute_entropy_chunk2 c fuel env segment e out n = Exec.ret r)
    (hr : r.err = NO_ERROR) :
    (c.HASH_ITERATIONS_PER_BLOCK < n → n ≤ INT_MAX) ∧
    ∃ ws, r.chunk.writes = out.writes ++ (0, c.DATA_CHUNK_SIZE) :: ws ∧
      ws.length = n - c.HASH_ITERATIONS_PER_BLOCK ∧
      ∀ w ∈ ws, w.2 = c.PACKING_HASH_SIZE ∧ c.PACKING_HASH_SIZE ∣ w.1 ∧
        w.1 + w.2 ≤ c.DATA_CHUNK_SIZE := by
  rw [chunk2_unfold c fuel env segment e out n he hout] at h
  cases hcm : env.ctx_mix
  · rw [hcm] at h
    simp only [if_true] at h
    injection h with h
    subst h
    cases hr
  · rw [hcm] at h
    simp only [Bool.true_eq_false, if_false] at h
    obtain ⟨st, hst, h⟩ := Exec.bind_eq_ret h
    injection h with h
    subst h
    have hinv := mix_loop_inv hv hseg he n fuel _ st (mix_init_inv segment e out he) hst
    by_cases hle : c.HASH_ITERATIONS_PER_BLOCK ≤ n
    · obtain ⟨hc, hmax, _⟩ := mix_ret_bounds c e n fuel _ st hst (by simp [mix_init]; exact hle)
      simp only [mix_init] at hmax
      obtain ⟨ws, hws, hwl, hwb⟩ := hinv.writes
      exact ⟨hmax, ws, by rw [hws]; simp, by rw [hwl, hc], hwb⟩
    · obtain ⟨fuel, rfl⟩ : ∃ f, fuel = f + 1 := ⟨fuel - 1, by
        cases fuel with
        | zero => simp [mix_loop] at hst
        | succ f => simp⟩
      rw [mix_loop, if_neg (by simp [mix_init]; omega)] at hst
      injection hst with hst
      subst hst
      exact ⟨fun h => absurd (Nat.le_of_lt h) hle, [], by simp [mix_init], by simp; omega,
        by simp⟩

/-- Every segment of the initial chunk is the digest of an input of the seed derivation and
initial fill. -/
theorem initial_chunk_digested {c : Params} (hv : c.Valid) (a : List Byte) (off : Nat)
    (p : List Byte) :
    segments_digested c (initial_log c a off p) (initial_chunk c a off p) := by
  intro k hk
  refine ⟨c.PACKING_HASH_ALG^[k] (c.PACKING_HASH_ALG (seed_input c a off p)), ?_, ?_⟩
  · exact List.mem_cons_of_mem _ (iterate_mem_fill_log c _ _ k hk)
  · rw [initial_chunk, segment_at_chain_chunk hv _ k hk, Function.iterate_succ_apply']

/-- One iteration of the mixing loop keeps every segment a digest of a logged input. -/
theorem mix_body_digested {c : Params} (hv : c.Valid) {segment e : List Byte}
    {w0 : List (Nat × Nat)} {st : MixState} (hseg : c.PACKING_HASH_SIZE ≤ segment.length)
    (he : e.length = c.DATA_CHUNK_SIZE) (hi : MixInv c segment e w0 st)
    (l0 : List (List Byte))
    (hd : segments_digested c (l0 ++ st.log) st.new_entropy_chunk.bytes) (st1 : MixState)
    (h : mix_body c e st = Exec.ret st1) :
    segments_digested c (l0 ++ st1.log) st1.new_entropy_chunk.bytes := by
  obtain ⟨s, hs, _, _, hbytes, _, hlog⟩ := mix_body_run hv hseg he hi
    (mix_body_no_overflow c e st st1 h)
  rw [h] at hs
  injection hs with hs
  subst hs
  have hfit : (st.hash_count % c.HASH_ITERATIONS_PER_BLOCK) * c.PACKING_HASH_SIZE +
      c.PACKING_HASH_SIZE ≤ st.new_entropy_chunk.bytes.length := by
    rw [hi.len]
    exact hv.slot_fits _
  intro k hk
  rw [hbytes, hlog]
  by_cases hks : k = st.hash_count % c.HASH_ITERATIONS_PER_BLOCK
  · subst hks
    refine ⟨_, List.mem_append_right _ (List.mem_append_right _ (List.mem_singleton_self _)),
      ?_⟩
    have := segment_at_patch_same c st.new_entropy_chunk.bytes _ _ (hv.digest_len
      (chained c segment st.new_entropy_chunk.bytes st.hash_count ++
        segment_at c e (st.hash_count % c.HASH_ITERATIONS_PER_BLOCK))) hfit
    rw [hv.digest_len] at this
    exact this
  · obtain ⟨x, hx, hsx⟩ := hd k hk
    refine ⟨x, ?_, ?_⟩
    · rcases List.mem_append.mp hx with hx | hx
      · exact List.mem_append_left _ hx
      · exact List.mem_append_right _ (List.mem_append_left _ hx)
    · have := segment_at_patch_other c st.new_entropy_chunk.bytes _ _ k (hv.digest_len
        (chained c segment st.new_entropy_chunk.bytes st.hash_count ++
          segment_at c e (st.hash_count % c.HASH_ITERATIONS_PER_BLOCK))) hfit hks
      rw [hv.digest_len] at this
      rw [this, hsx]

/-- A returning run of the mixing loop keeps every segment a digest of a logged input. -/
theorem mix_loop_digested {c : Params} (hv : c.Valid) {segment e : List Byte}
    {w0 : List (Nat × Nat)} (hseg : c.PACKING_HASH_SIZE ≤ segment.length)
    (he : e.length = c.DATA_CHUNK_SIZE) (n : Nat) (l0 : List (List Byte)) :
    ∀ (fuel : Nat) (st st1 : MixState), MixInv c segment e w0 st →
      segments_digested c (l0 ++ st.log) st.new_entropy_chunk.bytes →
      mix_loop c e n fuel st = Exec.ret st1 →
      segments_digested c (l0 ++ st1.log) st1.new_entropy_chunk.bytes := by
  intro fuel
  induction fuel with
  | zero => intro st st1 _ _ h; simp [mix_loop] at h
  | succ fuel ih =>
    intro st st1 hi hd h
    simp only [mix_loop] at h
    split_ifs at h with hlt
    · obtain ⟨s, hs, hrest⟩ := Exec.bind_eq_ret h
      obtain ⟨s', hs', hi', _⟩ := mix_body_run hv hseg he hi
        (mix_body_no_overflow c e st s hs)
      rw [hs] at hs'
      injection hs' with hs'
      subst hs'
      exact ih s st1 hi' (mix_body_digested hv hseg he hi l0 hd s hs) hrest
    · injection h with h
      subst h
      exact hd

/-- In the chunk of a successful call of `compute_entropy_chunk`, every segment is the
digest of an input this call handed to the digest. -/
theorem entropy_segments_digested {c : Params} (hv : c.Valid) (fuel : Nat) (env : Env)
    (a : List Byte) (off : Nat) (p : List Byte) (out : Buf) (n : Nat) (r : Result)
    (hout : out.bytes.length = c.DATA_CHUNK_SIZE)
    (h : compute_entropy_chunk c fuel env a off p out n = Exec.ret r)
    (hr : r.err = NO_ERROR) : segments_digested c r.log r.chunk.bytes := by
  have h32 := entropy_ok_size hv fuel env a off p out n r h hr
  obtain ⟨_, _, st, hst, _, hres⟩ := entropy_ret hv h32 fuel env a off p out n r hout h hr
  subst hres
  exact mix_loop_digested hv (Nat.le_of_eq (last_segment_length hv a off p).symm)
    (initial_chunk_length hv a off p) n (initial_log c a off p) fuel _ st
    (mix_init_inv _ _ out (initial_chunk_length hv a off p))
    (by simpa [mix_init] using initial_chunk_digested hv a off p) hst

/-- The same for `compute_start_entropy_chunk`. -/
theorem start_segments_digested {c : Params} (hv : c.Valid) (fuel : Nat) (env : Env)
    (a : List Byte) (off : Nat) (p : List Byte) (chunk : Buf) (r : Result)
    (hlen : chunk.bytes.length = c.DATA_CHUNK_SIZE)
    (h : compute_start_entropy_chunk c fuel env a off p chunk = Exec.ret r)
    (hr : r.err = NO_ERROR) : segments_digested c r.log r.chunk.bytes := by
  have h32 := start_ok_size hv fuel env a off p chunk r h hr
  obtain ⟨_, hres⟩ := start_ret hv h32 fuel env a off p chunk r hlen h hr
  subst hres
  exact initial_chunk_digested hv a off p

/-- The toy constants are valid whenever the sizes are positive and divide. -/
theorem toy_valid (d s : Nat) (hs : 0 < s) (hd : 0 < d) (hdvd : s ∣ d) : (toy d s).Valid :=
  ⟨hs, hd, hdvd, fun m => by simp [toy, test_digest]⟩

/-- C2: for every seed (of any length) and every digest function whose outputs have
`PACKING_HASH_SIZE` bytes, `compute_start_entropy_chunk2` returns a chunk whose segment 0
is the digest of the seed and whose segment `k`, for `1 ≤ k < HASH_ITERATIONS_PER_BLOCK`,
is the digest of segment `k - 1`. -/
theorem start_chunk2_chaining (c : Params) (hv : c.Valid) (fuel : Nat) (env : Env)
    (seed : List Byte) (chunk : Buf) (hctx : env.ctx_start = true)
    (hlen : chunk.bytes.length = c.DATA_CHUNK_SIZE)
    (hfuel : c.HASH_ITERATIONS_PER_BLOCK < fuel) :
    ∃ r, compute_start_entropy_chunk2 c fuel env seed chunk = Exec.ret r ∧
      r.err = NO_ERROR ∧
      r.chunk.bytes.length = c.DATA_CHUNK_SIZE ∧
      segment_at c r.chunk.bytes 0 = c.PACKING_HASH_ALG seed ∧
      ∀ k, 1 ≤ k → k < c.HASH_ITERATIONS_PER_BLOCK →
        segment_at c r.chunk.bytes k = c.PACKING_HASH_ALG (segment_at c r.chunk.bytes (k - 1)) := by
  refine ⟨_, start2_run hv fuel env seed chunk hctx hlen hfuel, rfl, chain_chunk_length hv seed,
    ?_, ?_⟩
  · exact segment_at_chain_chunk hv seed 0 hv.iter_pos
  · intro k hk1 hk2
    simp only
    rw [segment_at_chain_chunk hv seed k hk2, segment_at_chain_chunk hv seed (k - 1) (by omega),
      ← Function.iterate_succ_apply' c.PACKING_HASH_ALG]
    congr 1
    omega

/-- Instance of C2: six-byte chunk, two-byte digest, empty seed. -/
theorem start_chunk2_chaining_witness :
    ∃ r, compute_start_entropy_chunk2 (toy 6 2) 4 env_ok [] ⟨[9, 9, 9, 9, 9, 9], []⟩ =
        Exec.ret r ∧
      r.err = NO_ERROR ∧
      r.chunk.bytes.length = (toy 6 2).DATA_CHUNK_SIZE ∧
      segment_at (toy 6 2) r.chunk.bytes 0 = (toy 6 2).PACKING_HASH_ALG [] ∧
      ∀ k, 1 ≤ k → k < (toy 6 2).HASH_ITERATIONS_PER_BLOCK →
        segment_at (toy 6 2) r.chunk.bytes k =
          (toy 6 2).PACKING_HASH_ALG (segment_at (toy 6 2) r.chunk.bytes (k - 1)) :=
  start_chunk2_chaining (toy 6 2) (toy_valid 6 2 (by decide) (by decide) (by decide)) 4 env_ok
    [] ⟨[9, 9, 9, 9, 9, 9], []⟩ rfl rfl (by decide)

/-- C3: whenever `compute_seed_hash` returns `NO_ERROR`, it has computed exactly one
digest, of the byte string `mining_addr ++ partition_hash ++ (8 bytes of the offset)`,
whose length is `|mining_addr| + |partition_hash| + 8`, and has stored that digest at the
start of `seed_hash`. -/
theorem compute_seed_hash_digest (c : Params) (env : Env) (mining_addr : List Byte)
    (chunk_offset : Nat) (partition_hash : List Byte) (seed_hash : Buf) (r : Result)
    (h : compute_seed_hash c env mining_addr chunk_offset partition_hash seed_hash =
      Exec.ret r)
    (hr : r.err = NO_ERROR) :
    r.log = [mining_addr ++ partition_hash ++ u64_bytes c chunk_offset] ∧
    r.chunk.bytes =
      c.PACKING_HASH_ALG (mining_addr ++ partition_hash ++ u64_bytes c chunk_offset) ++
        seed_hash.bytes.drop
          (c.PACKING_HASH_ALG
            (mining_addr ++ partition_hash ++ u64_bytes c chunk_offset)).length ∧
    (u64_bytes c chunk_offset).length = 8 ∧
    (mining_addr ++ partition_hash ++ u64_bytes c chunk_offset).length =
      mining_addr.length + partition_hash.length + 8 := by
  obtain ⟨_, _, _, _, hres⟩ :=
    (compute_seed_hash_ok_iff c env mining_addr chunk_offset partition_hash seed_hash r).mp ⟨h, hr⟩
  subst hres
  refine ⟨rfl, rfl, u64_bytes_length c chunk_offset, ?_⟩
  simp only [List.length_append, u64_bytes_length]

/-- Instance of C3: address `"A"`, offset `258`, empty partition hash. -/
theorem compute_seed_hash_digest_witness :
    compute_seed_hash (toy 4 2) env_ok [65] 258 [] ⟨[0, 0], []⟩ =
        Exec.ret ⟨NO_ERROR, ⟨[133, 133], [(0, 2)]⟩, [[65, 2, 1, 0, 0, 0, 0, 0, 0]]⟩ ∧
      [[65, 2, 1, 0, 0, 0, 0, 0, 0]] = [[65] ++ [] ++ u64_bytes (toy 4 2) 258] ∧
      [133, 133] = (toy 4 2).PACKING_HASH_ALG ([65] ++ [] ++ u64_bytes (toy 4 2) 258) ++
        [0, 0].drop ((toy 4 2).PACKING_HASH_ALG ([65] ++ [] ++ u64_bytes (toy 4 2) 258)).length ∧
      (u64_bytes (toy 4 2) 258).length = 8 ∧
      ([65] ++ [] ++ u64_bytes (toy 4 2) 258).length = [65].length + ([] : List Byte).length + 8 :=
  ⟨by decide, compute_seed_hash_digest (toy 4 2) env_ok [65] 258 [] ⟨[0, 0], []⟩
    ⟨NO_ERROR, ⟨[133, 133], [(0, 2)]⟩, [[65, 2, 1, 0, 0, 0, 0, 0, 0]]⟩ (by decide) rfl⟩

/-- C1 as stated fails: with two segments per chunk, iteration `4` of the mixing loop
(a second visit of slot `0`) writes the digest of the chained segment and the content of
the input chunk at slot `0`, not of the content the output chunk holds there before the
overwrite. -/
theorem mix_prior_cycle_counterexample :
    compute_entropy_chunk2 (toy 2 1) 4 env_ok [5] [4, 5] ⟨[0, 0], []⟩ 4 =
        Exec.ret ⟨NO_ERROR, ⟨[86, 79], [(0, 2), (0, 1), (1, 1)]⟩, [[5, 4], [86, 5]]⟩ ∧
      compute_entropy_chunk2 (toy 2 1) 4 env_ok [5] [4, 5] ⟨[0, 0], []⟩ 5 =
        Exec.ret ⟨NO_ERROR, ⟨[57, 79], [(0, 2), (0, 1), (1, 1), (0, 1)]⟩,
          [[5, 4], [86, 5], [79, 4]]⟩ ∧
      segment_at (toy 2 1) [57, 79] (4 % 2) ≠
        (toy 2 1).PACKING_HASH_ALG
          (chained (toy 2 1) [5] [86, 79] 4 ++ segment_at (toy 2 1) [86, 79] (4 % 2)) ∧
      segment_at (toy 2 1) [57, 79] (4 % 2) =
        (toy 2 1).PACKING_HASH_ALG
          (chained (toy 2 1) [5] [86, 79] 4 ++ segment_at (toy 2 1) [4, 5] (4 % 2)) := by
  decide

/-- C1, amended: in a run of `compute_entropy_chunk2` with requested count `n`, the
iteration with index `i` (`HASH_ITERATIONS_PER_BLOCK ≤ i < n`) digests the current chained
segment followed by the content of the input chunk at slot
`i % HASH_ITERATIONS_PER_BLOCK`, and writes that digest to the same slot of the output
chunk; while `i < 2 * HASH_ITERATIONS_PER_BLOCK` the input chunk's slot is also what the
output chunk holds there before the overwrite.  `ri`, `ri1` are the runs stopped before and
after iteration `i`. -/
theorem mix_iteration_digest (c : Params) (hv : c.Valid) (fuel : Nat) (env : Env)
    (segment e : List Byte) (out : Buf) (n i : Nat) (hctx : env.ctx_mix = true)
    (hseg : segment.length = c.PACKING_HASH_SIZE) (he : e.length = c.DATA_CHUNK_SIZE)
    (hout : out.bytes.length = c.DATA_CHUNK_SIZE)
    (hi : c.HASH_ITERATIONS_PER_BLOCK ≤ i) (hin : i < n) (hn : n ≤ INT_MAX)
    (hfuel : n - c.HASH_ITERATIONS_PER_BLOCK < fuel) :
    ∃ ri ri1 rn,
      compute_entropy_chunk2 c fuel env segment e out i = Exec.ret ri ∧
      compute_entropy_chunk2 c fuel env segment e out (i + 1) = Exec.ret ri1 ∧
      compute_entropy_chunk2 c fuel env segment e out n = Exec.ret rn ∧
      rn.log[i - c.HASH_ITERATIONS_PER_BLOCK]? =
        some (chained c segment ri.chunk.bytes i ++
          segment_at c e (i % c.HASH_ITERATIONS_PER_BLOCK)) ∧
      segment_at c ri1.chunk.bytes (i % c.HASH_ITERATIONS_PER_BLOCK) =
        c.PACKING_HASH_ALG (chained c segment ri.chunk.bytes i ++
          segment_at c e (i % c.HASH_ITERATIONS_PER_BLOCK)) ∧
      (i < 2 * c.HASH_ITERATIONS_PER_BLOCK →
        segment_at c e (i % c.HASH_ITERATIONS_PER_BLOCK) =
          segment_at c ri.chunk.bytes (i % c.HASH_ITERATIONS_PER_BLOCK)) := by
  have hseg' : c.PACKING_HASH_SIZE ≤ segment.length := by omega
  obtain ⟨st, st1, hst, hst1, hinv, _, hci, _, hbytes, _, hlog⟩ :=
    mix_step hv segment e out hseg' he i fuel hi (by omega) (by omega)
  obtain ⟨stn, hstn, _, _⟩ := mix_run hv segment e out hseg' he n fuel (Or.inl hn) hfuel
  have hn1 : i + 1 + (n - (i + 1)) = n := by omega
  obtain ⟨t, ht⟩ := mix_log_prefix hv segment e out hseg' he (i + 1) (by omega)
    (n - (i + 1)) fuel fuel st1 stn (by omega) hst1 (by rw [hn1]; exact hstn)
  refine ⟨_, _, _, chunk2_of_mix c fuel env segment e out i st he hout hctx hst,
    chunk2_of_mix c fuel env segment e out (i + 1) st1 he hout hctx hst1,
    chunk2_of_mix c fuel env segment e out n stn he hout hctx hstn, ?_, ?_, ?_⟩
  · have hl := hinv.log_len
    rw [hci] at hl
    simp only
    rw [ht, hlog, List.append_assoc, List.getElem?_append_right (by omega), hl]
    simp
  · simp only
    rw [hbytes]
    have h := segment_at_patch_same c st.new_entropy_chunk.bytes
      (c.PACKING_HASH_ALG (chained c segment st.new_entropy_chunk.bytes i ++
        segment_at c e (i % c.HASH_ITERATIONS_PER_BLOCK)))
      (i % c.HASH_ITERATIONS_PER_BLOCK) (hv.digest_len _)
      (by rw [hinv.len]; exact hv.slot_fits i)
    rw [hv.digest_len] at h
    exact h
  · intro h2
    have hH := hv.iter_pos
    have hmod : i % c.HASH_ITERATIONS_PER_BLOCK = i - c.HASH_ITERATIONS_PER_BLOCK := by
      rw [Nat.mod_eq_sub_mod hi, Nat.mod_eq_of_lt (by omega)]
    exact (hinv.untouched _ (by rw [hci, hmod]) (Nat.mod_lt _ hH)).symm

/-- Instance of the amended C1: two segments per chunk, iteration `4` of a run to `6`. -/
theorem mix_iteration_digest_witness :
    ∃ ri ri1 rn,
      compute_entropy_chunk2 (toy 2 1) 5 env_ok [5] [4, 5] ⟨[0, 0], []⟩ 4 = Exec.ret ri ∧
      compute_entropy_chunk2 (toy 2 1) 5 env_ok [5] [4, 5] ⟨[0, 0], []⟩ (4 + 1) =
        Exec.ret ri1 ∧
      compute_entropy_chunk2 (toy 2 1) 5 env_ok [5] [4, 5] ⟨[0, 0], []⟩ 6 = Exec.ret rn ∧
      rn.log[4 - (toy 2 1).HASH_ITERATIONS_PER_BLOCK]? =
        some (chained (toy 2 1) [5] ri.chunk.bytes 4 ++
          segment_at (toy 2 1) [4, 5] (4 % (toy 2 1).HASH_ITERATIONS_PER_BLOCK)) ∧
      segment_at (toy 2 1) ri1.chunk.bytes (4 % (toy 2 1).HASH_ITERATIONS_PER_BLOCK) =
        (toy 2 1).PACKING_HASH_ALG (chained (toy 2 1) [5] ri.chunk.bytes 4 ++
          segment_at (toy 2 1) [4, 5] (4 % (toy 2 1).HASH_ITERATIONS_PER_BLOCK)) ∧
      (4 < 2 * (toy 2 1).HASH_ITERATIONS_PER_BLOCK →
        segment_at (toy 2 1) [4, 5] (4 % (toy 2 1).HASH_ITERATIONS_PER_BLOCK) =
          segment_at (toy 2 1) ri.chunk.bytes (4 % (toy 2 1).HASH_ITERATIONS_PER_BLOCK)) :=
  mix_iteration_digest (toy 2 1) (toy_valid 2 1 (by decide) (by decide) (by decide)) 5 env_ok
    [5] [4, 5] ⟨[0, 0], []⟩ 6 4 rfl rfl rfl rfl (by decide) (by decide) (by decide)
    (by decide)

/-- C4: for every address, offset, partition hash and every requested count
`n ≤ HASH_ITERATIONS_PER_BLOCK` (`0` and the boundary included), when no allocation or
context creation fails `compute_entropy_chunk` returns `NO_ERROR` with the same chunk
bytes as `compute_start_entropy_chunk` on the same inputs, and has computed exactly the
digests of the initial fill (the mixing loop computes none). -/
theorem entropy_chunk_no_mixing (c : Params) (hv : c.Valid)
    (h32 : c.PACKING_HASH_SIZE = EVP_sha256_size) (fuel : Nat) (env : Env)
    (mining_addr : List Byte) (chunk_offset : Nat) (partition_hash : List Byte)
    (chunk entropy_chunk : Buf) (n : Nat) (henv : env.succeeds)
    (hl : mining_addr.length + 8 + partition_hash.length ≤ INT_MAX)
    (hchunk : chunk.bytes.length = c.DATA_CHUNK_SIZE)
    (hout : entropy_chunk.bytes.length = c.DATA_CHUNK_SIZE)
    (hn : n ≤ c.HASH_ITERATIONS_PER_BLOCK) (hfuel : c.HASH_ITERATIONS_PER_BLOCK < fuel) :
    ∃ s r,
      compute_start_entropy_chunk c fuel env mining_addr chunk_offset partition_hash chunk =
        Exec.ret s ∧
      compute_entropy_chunk c fuel env mining_addr chunk_offset partition_hash entropy_chunk
        n = Exec.ret r ∧
      s.err = NO_ERROR ∧ r.err = NO_ERROR ∧ r.chunk.bytes = s.chunk.bytes ∧ r.log = s.log := by
  have hs := start_run_initial hv h32 fuel env mining_addr chunk_offset partition_hash chunk
    henv.2.1 henv.2.2.1 henv.2.2.2.1 hl hchunk hfuel
  have hr := entropy_of_mix hv h32 fuel env mining_addr chunk_offset partition_hash
    entropy_chunk n _ henv hl hout hfuel
    (mix_loop_zero c _ _ entropy_chunk n fuel hn (by omega))
  exact ⟨_, _, hs, hr, rfl, rfl, rfl, by simp [mix_init]⟩

/-- Instance of C4: the toy constants `64`, `32` and requested count `2`. -/
theorem entropy_chunk_no_mixing_witness :
    ∃ s r,
      compute_start_entropy_chunk (toy 64 32) 3 env_ok [65] 0 [80]
        ⟨List.replicate 64 0, []⟩ = Exec.ret s ∧
      compute_entropy_chunk (toy 64 32) 3 env_ok [65] 0 [80] ⟨List.replicate 64 1, []⟩ 2 =
        Exec.ret r ∧
      s.err = NO_ERROR ∧ r.err = NO_ERROR ∧ r.chunk.bytes = s.chunk.bytes ∧ r.log = s.log :=
  entropy_chunk_no_mixing (toy 64 32) (toy_valid 64 32 (by decide) (by decide) (by decide)) rfl
    3 env_ok [65] 0 [80] ⟨List.replicate 64 0, []⟩ ⟨List.replicate 64 1, []⟩ 2
    ⟨rfl, rfl, rfl, rfl, rfl⟩ (by decide) (by decide) (by decide) (by decide) (by decide)

/-- C5: for every address, offset and partition hash, the chunk returned by
`compute_entropy_chunk` for the requested count `HASH_ITERATIONS_PER_BLOCK + 1` agrees
with the chunk of `compute_start_entropy_chunk` on every segment but segment `0`, and its
segment `0` is the digest of the last segment of that chunk followed by its segment `0`. -/
theorem entropy_chunk_first_wrap (c : Params) (hv : c.Valid)
    (h32 : c.PACKING_HASH_SIZE = EVP_sha256_size) (fuel : Nat) (env : Env)
    (mining_addr : List Byte) (chunk_offset : Nat) (partition_hash : List Byte)
    (chunk entropy_chunk : Buf) (henv : env.succeeds)
    (hl : mining_addr.length + 8 + partition_hash.length ≤ INT_MAX)
    (hchunk : chunk.bytes.length = c.DATA_CHUNK_SIZE)
    (hout : entropy_chunk.bytes.length = c.DATA_CHUNK_SIZE)
    (hH : c.HASH_ITERATIONS_PER_BLOCK < INT_MAX)
    (hfuel : c.HASH_ITERATIONS_PER_BLOCK < fuel) :
    ∃ s r,
      compute_start_entropy_chunk c fuel env mining_addr chunk_offset partition_hash chunk =
        Exec.ret s ∧
      compute_entropy_chunk c fuel env mining_addr chunk_offset partition_hash entropy_chunk
        (c.HASH_ITERATIONS_PER_BLOCK + 1) = Exec.ret r ∧
      s.err = NO_ERROR ∧ r.err = NO_ERROR ∧
      (∀ k, k ≠ 0 → segment_at c r.chunk.bytes k = segment_at c s.chunk.bytes k) ∧
      segment_at c r.chunk.bytes 0 =
        c.PACKING_HASH_ALG
          (segment_at c s.chunk.bytes (c.HASH_ITERATIONS_PER_BLOCK - 1) ++
            segment_at c s.chunk.bytes 0) := by
  have hpos := hv.iter_pos
  have hE := initial_chunk_length hv mining_addr chunk_offset partition_hash
  have hlast := last_segment_length hv mining_addr chunk_offset partition_hash
  have hfit : 0 * c.PACKING_HASH_SIZE + c.PACKING_HASH_SIZE ≤
      (initial_chunk c mining_addr chunk_offset partition_hash).length := by
    have := hv.slot_fits 0
    rw [Nat.zero_mod] at this
    omega
  obtain ⟨st, st1, hst, hst1, _, _, _, _, hbytes, _, _⟩ := mix_step hv
    (last_segment c mining_addr chunk_offset partition_hash)
    (initial_chunk c mining_addr chunk_offset partition_hash) entropy_chunk
    (Nat.le_of_eq hlast.symm) hE c.HASH_ITERATIONS_PER_BLOCK fuel (Nat.le_refl _) hH
    (by omega)
  have hst0 := mix_loop_unique c _ _ _ _ _ st _ hst
    (mix_loop_zero c _ _ entropy_chunk c.HASH_ITERATIONS_PER_BLOCK fuel (Nat.le_refl _)
      (by omega))
  subst hst0
  have hchained : chained c (last_segment c mining_addr chunk_offset partition_hash)
      (initial_chunk c mining_addr chunk_offset partition_hash)
      c.HASH_ITERATIONS_PER_BLOCK =
      last_segment c mining_addr chunk_offset partition_hash := by
    unfold chained
    rw [if_pos rfl, ← hlast, List.take_length]
  simp only [mix_init, Nat.mod_self, hchained] at hbytes
  have hs := start_run_initial hv h32 fuel env mining_addr chunk_offset partition_hash chunk
    henv.2.1 henv.2.2.1 henv.2.2.2.1 hl hchunk hfuel
  have hr := entropy_of_mix hv h32 fuel env mining_addr chunk_offset partition_hash
    entropy_chunk _ st1 henv hl hout hfuel hst1
  refine ⟨_, _, hs, hr, rfl, rfl, ?_, ?_⟩
  · intro k hk
    simp only
    rw [hbytes]
    have h := segment_at_patch_other c
      (initial_chunk c mining_addr chunk_offset partition_hash)
      (c.PACKING_HASH_ALG (last_segment c mining_addr chunk_offset partition_hash ++
        segment_at c (initial_chunk c mining_addr chunk_offset partition_hash) 0))
      0 k (hv.digest_len _) hfit hk
    rw [hv.digest_len] at h
    exact h
  · simp only
    rw [hbytes]
    have h := segment_at_patch_same c
      (initial_chunk c mining_addr chunk_offset partition_hash)
      (c.PACKING_HASH_ALG (last_segment c mining_addr chunk_offset partition_hash ++
        segment_at c (initial_chunk c mining_addr chunk_offset partition_hash) 0))
      0 (hv.digest_len _) hfit
    rw [hv.digest_len] at h
    exact h

/-- Instance of C5: the toy constants `64`, `32` and requested count `3`. -/
theorem entropy_chunk_first_wrap_witness :
    ∃ s r,
      compute_start_entropy_chunk (toy 64 32) 3 env_ok [65] 0 [80]
        ⟨List.replicate 64 0, []⟩ = Exec.ret s ∧
      compute_entropy_chunk (toy 64 32) 3 env_ok [65] 0 [80] ⟨List.replicate 64 1, []⟩
        ((toy 64 32).HASH_ITERATIONS_PER_BLOCK + 1) = Exec.ret r ∧
      s.err = NO_ERROR ∧ r.err = NO_ERROR ∧
      (∀ k, k ≠ 0 → segment_at (toy 64 32) r.chunk.bytes k =
        segment_at (toy 64 32) s.chunk.bytes k) ∧
      segment_at (toy 64 32) r.chunk.bytes 0 =
        (toy 64 32).PACKING_HASH_ALG
          (segment_at (toy 64 32) s.chunk.bytes ((toy 64 32).HASH_ITERATIONS_PER_BLOCK - 1) ++
            segment_at (toy 64 32) s.chunk.bytes 0) :=
  entropy_chunk_first_wrap (toy 64 32) (toy_valid 64 32 (by decide) (by decide) (by decide))
    rfl 3 env_ok [65] 0 [80] ⟨List.replicate 64 0, []⟩ ⟨List.replicate 64 1, []⟩
    ⟨rfl, rfl, rfl, rfl, rfl⟩ (by decide) (by decide) (by decide) (by decide) (by decide)

set_option maxRecDepth 100000 in
/-- C6 as stated fails for the mixing stage: when its digest context cannot be created,
`compute_entropy_chunk2` (and with it `compute_entropy_chunk`) returns
`HASH_COMPUTATION_ERROR` after the output buffer has been overwritten with the input
chunk. -/
theorem mix_ctx_failure_counterexample :
    compute_entropy_chunk2 (toy 2 1) 4 { env_ok with ctx_mix := false } [5] [4, 5]
        ⟨[0, 0], []⟩ 5 =
      Exec.ret ⟨HASH_COMPUTATION_ERROR, ⟨[4, 5], [(0, 2)]⟩, []⟩ ∧
    ([4, 5] : List Byte) ≠ [0, 0] ∧
    compute_entropy_chunk (toy 64 32) 3 { env_ok with ctx_mix := false } [65] 0 [80]
        ⟨List.replicate 64 1, []⟩ 5 =
      Exec.ret ⟨HASH_COMPUTATION_ERROR,
        ⟨List.replicate 32 163 ++ List.replicate 32 200, [(0, 64)]⟩,
        [[65, 80, 0, 0, 0, 0, 0, 0, 0, 0], List.replicate 32 190, List.replicate 32 163]⟩ ∧
    List.replicate 32 163 ++ List.replicate 32 200 ≠ (List.replicate 64 1 : List Byte) := by
  decide

/-- C6, amended: a failed digest-context creation makes the expansion stage and the
mixing stage return `HASH_COMPUTATION_ERROR`.  In the expansion stage
(`compute_start_entropy_chunk2`, and `compute_entropy_chunk` when that stage fails) the
caller's buffer is left as it was; in the mixing stage (`compute_entropy_chunk2`, and
`compute_entropy_chunk` when that stage fails) the buffer holds a copy of the input chunk
and no mixing digest has been computed. -/
theorem ctx_failure_hash_error (c : Params) (hv : c.Valid)
    (h32 : c.PACKING_HASH_SIZE = EVP_sha256_size) (fuel : Nat) (env1 env2 : Env)
    (mining_addr : List Byte) (chunk_offset : Nat) (partition_hash seed segment e : List Byte)
    (chunk out : Buf) (n : Nat)
    (h1 : env1.ctx_start = false) (h2 : env2.ctx_mix = false)
    (he : e.length = c.DATA_CHUNK_SIZE) (hout : out.bytes.length = c.DATA_CHUNK_SIZE)
    (hl : mining_addr.length + 8 + partition_hash.length ≤ INT_MAX)
    (hfuel : c.HASH_ITERATIONS_PER_BLOCK < fuel) :
    compute_start_entropy_chunk2 c fuel env1 seed chunk =
      Exec.ret ⟨HASH_COMPUTATION_ERROR, chunk, []⟩ ∧
    compute_entropy_chunk2 c fuel env2 segment e out n =
      Exec.ret ⟨HASH_COMPUTATION_ERROR, ⟨e, out.writes ++ [(0, c.DATA_CHUNK_SIZE)]⟩, []⟩ ∧
    (env1.malloc_chunk = true → env1.malloc_input = true → env1.ctx_seed = true →
      compute_entropy_chunk c fuel env1 mining_addr chunk_offset partition_hash out n =
        Exec.ret ⟨HASH_COMPUTATION_ERROR, out,
          [seed_input c mining_addr chunk_offset partition_hash]⟩) ∧
    (env2.malloc_chunk = true → env2.malloc_input = true → env2.ctx_seed = true →
      env2.ctx_start = true →
      compute_entropy_chunk c fuel env2 mining_addr chunk_offset partition_hash out n =
        Exec.ret ⟨HASH_COMPUTATION_ERROR,
          ⟨initial_chunk c mining_addr chunk_offset partition_hash,
            out.writes ++ [(0, c.DATA_CHUNK_SIZE)]⟩,
          initial_log c mining_addr chunk_offset partition_hash⟩) := by
  refine ⟨?_, ?_, ?_, ?_⟩
  · simp [compute_start_entropy_chunk2, h1]
  · rw [chunk2_unfold c fuel env2 segment e out n he hout, h2]
    simp
  · intro hmc hm hcs
    rw [entropy_normal_form hv h32 fuel env1 mining_addr chunk_offset partition_hash out n hl
      hout hfuel, hmc, hm, hcs, h1]
    simp
  · intro hmc hm hcs hct
    rw [entropy_normal_form hv h32 fuel env2 mining_addr chunk_offset partition_hash out n hl
      hout hfuel, hmc, hm, hcs, hct, h2]
    simp

/-- Instance of the amended C6 on the toy constants `64`, `32`. -/
theorem ctx_failure_hash_error_witness :
    compute_start_entropy_chunk2 (toy 64 32) 3 { env_ok with ctx_start := false } [7]
        ⟨List.replicate 64 1, []⟩ =
      Exec.ret ⟨HASH_COMPUTATION_ERROR, ⟨List.replicate 64 1, []⟩, []⟩ ∧
    compute_entropy_chunk2 (toy 64 32) 3 { env_ok with ctx_mix := false }
        (List.replicate 32 2) (List.replicate 64 2) ⟨List.replicate 64 1, []⟩ 5 =
      Exec.ret ⟨HASH_COMPUTATION_ERROR,
        ⟨List.replicate 64 2, [] ++ [(0, (toy 64 32).DATA_CHUNK_SIZE)]⟩, []⟩ ∧
    (({ env_ok with ctx_start := false } : Env).malloc_chunk = true →
      ({ env_ok with ctx_start := false } : Env).malloc_input = true →
      ({ env_ok with ctx_start := false } : Env).ctx_seed = true →
      compute_entropy_chunk (toy 64 32) 3 { env_ok with ctx_start := false } [65] 0 [80]
          ⟨List.replicate 64 1, []⟩ 5 =
        Exec.ret ⟨HASH_COMPUTATION_ERROR, ⟨List.replicate 64 1, []⟩,
          [seed_input (toy 64 32) [65] 0 [80]]⟩) ∧
    (({ env_ok with ctx_mix := false } : Env).malloc_chunk = true →
      ({ env_ok with ctx_mix := false } : Env).malloc_input = true →
      ({ env_ok with ctx_mix := false } : Env).ctx_seed = true →
      ({ env_ok with ctx_mix := false } : Env).ctx_start = true →
      compute_entropy_chunk (toy 64 32) 3 { env_ok with ctx_mix := false } [65] 0 [80]
          ⟨List.replicate 64 1, []⟩ 5 =
        Exec.ret ⟨HASH_COMPUTATION_ERROR,
          ⟨initial_chunk (toy 64 32) [65] 0 [80], [] ++ [(0, (toy 64 32).DATA_CHUNK_SIZE)]⟩,
          initial_log (toy 64 32) [65] 0 [80]⟩) :=
  ctx_failure_hash_error (toy 64 32) (toy_valid 64 32 (by decide) (by decide) (by decide)) rfl
    3 { env_ok with ctx_start := false } { env_ok with ctx_mix := false } [65] 0 [80] [7]
    (List.replicate 32 2) (List.replicate 64 2) ⟨List.replicate 64 1, []⟩
    ⟨List.replicate 64 1, []⟩ 5 rfl rfl (by decide) (by decide) (by decide) (by decide)

/-- C7: a call of `compute_entropy_chunk` that returns, returns the error kind of the
first resource that could not be obtained (`MEMORY_ALLOCATION_ERROR` for either `malloc`,
`SEED_HASH_ERROR` for the seed context, `HASH_COMPUTATION_ERROR` for the expansion or the
mixing context) and `NO_ERROR` exactly when none failed; no later stage has run: before
a seed failure no digest is computed and the caller's buffer is as it was, after an
expansion failure only the seed digest has been computed and the buffer is as it was,
after a mixing failure only the digests of the seed and of the initial fill have been
computed.  The call does return whenever a resource fails, and when none fails and the
requested count fits an `int`. -/
theorem entropy_chunk_error_kinds (c : Params) (hv : c.Valid)
    (h32 : c.PACKING_HASH_SIZE = EVP_sha256_size) (fuel : Nat) (env : Env)
    (mining_addr : List Byte) (chunk_offset : Nat) (partition_hash : List Byte)
    (entropy_chunk : Buf) (n : Nat)
    (hl : mining_addr.length + 8 + partition_hash.length ≤ INT_MAX)
    (hout : entropy_chunk.bytes.length = c.DATA_CHUNK_SIZE)
    (hfuel : c.HASH_ITERATIONS_PER_BLOCK < fuel) :
    (∀ r, compute_entropy_chunk c fuel env mining_addr chunk_offset partition_hash
        entropy_chunk n = Exec.ret r →
      r.err = expected_error env ∧
      (r.err = NO_ERROR ↔ env.succeeds) ∧
      (env.malloc_chunk = false ∨ env.malloc_input = false ∨ env.ctx_seed = false →
        r.log = [] ∧ r.chunk = entropy_chunk) ∧
      (env.malloc_chunk = true → env.malloc_input = true → env.ctx_seed = true →
        env.ctx_start = false →
        r.log = [seed_input c mining_addr chunk_offset partition_hash] ∧
          r.chunk = entropy_chunk) ∧
      (env.malloc_chunk = true → env.malloc_input = true → env.ctx_seed = true →
        env.ctx_start = true → env.ctx_mix = false →
        r.log = initial_log c mining_addr chunk_offset partition_hash)) ∧
    (¬ env.succeeds ∨ (n ≤ INT_MAX ∧ n - c.HASH_ITERATIONS_PER_BLOCK < fuel) →
      ∃ r, compute_entropy_chunk c fuel env mining_addr chunk_offset partition_hash
        entropy_chunk n = Exec.ret r) := by
  rw [entropy_normal_form hv h32 fuel env mining_addr chunk_offset partition_hash
    entropy_chunk n hl hout hfuel]
  cases hmc : env.malloc_chunk
  · simp [expected_error, Env.succeeds, hmc]
  cases hm : env.malloc_input
  · simp [expected_error, Env.succeeds, hmc, hm]
  cases hcs : env.ctx_seed
  · simp [expected_error, Env.succeeds, hmc, hm, hcs]
  cases hct : env.ctx_start
  · simp [expected_error, Env.succeeds, hmc, hm, hcs, hct]
  cases hcm : env.ctx_mix
  · simp [expected_error, Env.succeeds, hmc, hm, hcs, hct, hcm]
  simp only [Bool.true_eq_false, if_false]
  constructor
  · intro r hr
    obtain ⟨st, _, hst⟩ := Exec.bind_eq_ret hr
    injection hst with hst
    subst hst
    simp [expected_error, Env.succeeds, hmc, hm, hcs, hct, hcm]
  · intro h
    rcases h with h | ⟨hn, hf⟩
    · exact absurd ⟨hmc, hm, hcs, hct, hcm⟩ h
    · obtain ⟨st, hst, _⟩ := mix_run hv
        (last_segment c mining_addr chunk_offset partition_hash)
        (initial_chunk c mining_addr chunk_offset partition_hash) entropy_chunk
        (Nat.le_of_eq (last_segment_length hv _ _ _).symm) (initial_chunk_length hv _ _ _)
        n fuel (Or.inl hn) hf
      rw [hst]
      exact ⟨_, rfl⟩

/-- Instance of C7: the seed digest context cannot be created. -/
theorem entropy_chunk_error_kinds_witness :
    (∀ r, compute_entropy_chunk (toy 64 32) 3 { env_ok with ctx_seed := false } [65] 0 [80]
        ⟨List.replicate 64 1, []⟩ 5 = Exec.ret r →
      r.err = expected_error { env_ok with ctx_seed := false } ∧
      (r.err = NO_ERROR ↔ Env.succeeds { env_ok with ctx_seed := false }) ∧
      (({ env_ok with ctx_seed := false } : Env).malloc_chunk = false ∨
        ({ env_ok with ctx_seed := false } : Env).malloc_input = false ∨
        ({ env_ok with ctx_seed := false } : Env).ctx_seed = false →
        r.log = [] ∧ r.chunk = ⟨List.replicate 64 1, []⟩) ∧
      (({ env_ok with ctx_seed := false } : Env).malloc_chunk = true →
        ({ env_ok with ctx_seed := false } : Env).malloc_input = true →
        ({ env_ok with ctx_seed := false } : Env).ctx_seed = true →
        ({ env_ok with ctx_seed := false } : Env).ctx_start = false →
        r.log = [seed_input (toy 64 32) [65] 0 [80]] ∧
          r.chunk = ⟨List.replicate 64 1, []⟩) ∧
      (({ env_ok with ctx_seed := false } : Env).malloc_chunk = true →
        ({ env_ok with ctx_seed := false } : Env).malloc_input = true →
        ({ env_ok with ctx_seed := false } : Env).ctx_seed = true →
        ({ env_ok with ctx_seed := false } : Env).ctx_start = true →
        ({ env_ok with ctx_seed := false } : Env).ctx_mix = false →
        r.log = initial_log (toy 64 32) [65] 0 [80])) ∧
    (¬ Env.succeeds { env_ok with ctx_seed := false } ∨
        (5 ≤ INT_MAX ∧ 5 - (toy 64 32).HASH_ITERATIONS_PER_BLOCK < 3) →
      ∃ r, compute_entropy_chunk (toy 64 32) 3 { env_ok with ctx_seed := false } [65] 0 [80]
        ⟨List.replicate 64 1, []⟩ 5 = Exec.ret r) :=
  entropy_chunk_error_kinds (toy 64 32)
    (toy_valid 64 32 (by decide) (by decide) (by decide)) rfl 3
    { env_ok with ctx_seed := false } [65] 0 [80] ⟨List.replicate 64 1, []⟩ 5 (by decide)
    (by decide) (by decide)

theorem u64_bytes_zero (c : Params) : u64_bytes c 0 = [0, 0, 0, 0, 0, 0, 0, 0] := by
  unfold u64_bytes
  split_ifs <;> decide

/-- C8: for every address, offset and partition hash, `compute_start_entropy_chunk` is
`compute_start_entropy_chunk2` applied to the digest that `compute_seed_hash` returns on
the same inputs.  With the toy constants `DATA_CHUNK_SIZE = 64`, `PACKING_HASH_SIZE = 32`,
address `"A"`, offset `0` and partition hash `"P"` the chunk is
`digest s ++ digest (digest s)` for `s = digest ("A" ++ "P" ++ eight zero bytes)`, and its
segment 1 is the digest of its segment 0. -/
theorem start_chunk_is_expansion_of_seed (c : Params) (hv : c.Valid)
    (h32 : c.PACKING_HASH_SIZE = EVP_sha256_size) (fuel : Nat) (env : Env)
    (mining_addr : List Byte) (chunk_offset : Nat) (partition_hash : List Byte)
    (seed_hash chunk : Buf)
    (hm : env.malloc_input = true) (hcs : env.ctx_seed = true) (hct : env.ctx_start = true)
    (hl : mining_addr.length + 8 + partition_hash.length ≤ INT_MAX)
    (hsh : seed_hash.bytes.length = EVP_sha256_size)
    (hlen : chunk.bytes.length = c.DATA_CHUNK_SIZE)
    (hfuel : c.HASH_ITERATIONS_PER_BLOCK < fuel) :
    ∃ s r,
      compute_seed_hash c env mining_addr chunk_offset partition_hash seed_hash =
        Exec.ret s ∧
      s.err = NO_ERROR ∧
      s.chunk.bytes =
        c.PACKING_HASH_ALG (mining_addr ++ partition_hash ++ u64_bytes c chunk_offset) ∧
      compute_start_entropy_chunk2 c fuel env s.chunk.bytes chunk = Exec.ret r ∧
      r.err = NO_ERROR ∧
      compute_start_entropy_chunk c fuel env mining_addr chunk_offset partition_hash chunk =
        Exec.ret ⟨r.err, r.chunk, s.log ++ r.log⟩ ∧
      (c.DATA_CHUNK_SIZE = 64 → mining_addr = [65] → chunk_offset = 0 →
        partition_hash = [80] →
        r.chunk.bytes =
          c.PACKING_HASH_ALG (c.PACKING_HASH_ALG [65, 80, 0, 0, 0, 0, 0, 0, 0, 0]) ++
            c.PACKING_HASH_ALG
              (c.PACKING_HASH_ALG (c.PACKING_HASH_ALG [65, 80, 0, 0, 0, 0, 0, 0, 0, 0])) ∧
        segment_at c r.chunk.bytes 1 = c.PACKING_HASH_ALG (segment_at c r.chunk.bytes 0)) := by
  have hfit : (c.PACKING_HASH_ALG (seed_input c mining_addr chunk_offset
      partition_hash)).length ≤ seed_hash.bytes.length := by
    rw [hv.digest_len, h32, hsh]
  have hseed := seed_normal_form c env mining_addr chunk_offset partition_hash seed_hash hl hfit
  rw [hm, hcs] at hseed
  simp only [Bool.true_eq_false, if_false] at hseed
  have hbytes : c.PACKING_HASH_ALG (seed_input c mining_addr chunk_offset partition_hash) ++
      seed_hash.bytes.drop
        (c.PACKING_HASH_ALG (seed_input c mining_addr chunk_offset partition_hash)).length =
      c.PACKING_HASH_ALG (seed_input c mining_addr chunk_offset partition_hash) := by
    rw [hv.digest_len, h32, ← hsh]
    simp
  have h2 := start2_run hv fuel env
    (c.PACKING_HASH_ALG (seed_input c mining_addr chunk_offset partition_hash)) chunk hct hlen
    hfuel
  have h1 := start_run hv h32 fuel env mining_addr chunk_offset partition_hash chunk hm hcs hct
    hl hlen hfuel
  refine ⟨_, ⟨NO_ERROR,
    ⟨chain_chunk c (c.PACKING_HASH_ALG (seed_input c mining_addr chunk_offset partition_hash)),
      chunk.writes ++ fill_writes c⟩,
    fill_log c (c.PACKING_HASH_ALG (seed_input c mining_addr chunk_offset partition_hash))⟩,
    hseed, rfl, hbytes, ?_, rfl, ?_, ?_⟩
  · simp only [hbytes]
    exact h2
  · rw [h1]
    rfl
  · intro hD ha ho hp
    subst ha ho hp
    have hH : c.HASH_ITERATIONS_PER_BLOCK = 2 := by
      simp [Params.HASH_ITERATIONS_PER_BLOCK, hD, h32, EVP_sha256_size]
    have hin : seed_input c [65] 0 [80] = [65, 80, 0, 0, 0, 0, 0, 0, 0, 0] := by
      simp [seed_input, u64_bytes_zero]
    constructor
    · simp [chain_chunk, hH, chain, hin]
    · simp only
      rw [segment_at_chain_chunk hv _ 1 (by omega), segment_at_chain_chunk hv _ 0 (by omega)]
      rfl

/-- Instance of C8: the toy scenario of the spec with the reduced digest. -/
theorem start_chunk_is_expansion_of_seed_witness :
    ∃ s r,
      compute_seed_hash (toy 64 32) env_ok [65] 0 [80] ⟨List.replicate 32 0, []⟩ =
        Exec.ret s ∧
      s.err = NO_ERROR ∧
      s.chunk.bytes = (toy 64 32).PACKING_HASH_ALG ([65] ++ [80] ++ u64_bytes (toy 64 32) 0) ∧
      compute_start_entropy_chunk2 (toy 64 32) 3 env_ok s.chunk.bytes
        ⟨List.replicate 64 1, []⟩ = Exec.ret r ∧
      r.err = NO_ERROR ∧
      compute_start_entropy_chunk (toy 64 32) 3 env_ok [65] 0 [80] ⟨List.replicate 64 1, []⟩ =
        Exec.ret ⟨r.err, r.chunk, s.log ++ r.log⟩ ∧
      ((toy 64 32).DATA_CHUNK_SIZE = 64 → ([65] : List Byte) = [65] → 0 = 0 →
        ([80] : List Byte) = [80] →
        r.chunk.bytes =
          (toy 64 32).PACKING_HASH_ALG
              ((toy 64 32).PACKING_HASH_ALG [65, 80, 0, 0, 0, 0, 0, 0, 0, 0]) ++
            (toy 64 32).PACKING_HASH_ALG
              ((toy 64 32).PACKING_HASH_ALG
                ((toy 64 32).PACKING_HASH_ALG [65, 80, 0, 0, 0, 0, 0, 0, 0, 0])) ∧
        segment_at (toy 64 32) r.chunk.bytes 1 =
          (toy 64 32).PACKING_HASH_ALG (segment_at (toy 64 32) r.chunk.bytes 0)) :=
  start_chunk_is_expansion_of_seed (toy 64 32)
    (toy_valid 64 32 (by decide) (by decide) (by decide)) rfl 3 env_ok [65] 0 [80]
    ⟨List.replicate 32 0, []⟩ ⟨List.replicate 64 1, []⟩ rfl rfl rfl (by decide) (by decide)
    (by decide) (by decide)

/-- What every successful call leaves behind, for every address, partition hash, offset
and requested count, when the digest has `PACKING_HASH_SIZE` bytes and that size divides
`DATA_CHUNK_SIZE`: a call of `compute_entropy_chunk` or of `compute_start_entropy_chunk`
that returns `NO_ERROR` leaves a chunk of exactly `DATA_CHUNK_SIZE` bytes in which every
one of the `HASH_ITERATIONS_PER_BLOCK` segments is the digest of an input this call handed
to the digest, every store it made lies inside the chunk, and every segment lies inside one
of its stores.  Such calls exist: the call returns `NO_ERROR` when no resource fails, the
digest fills the `seed_hash` array and the sizes and the count fit an `int`. -/
theorem successful_chunk_fully_populated (c : Params) (hv : c.Valid) (fuel : Nat) (env : Env)
    (mining_addr : List Byte) (chunk_offset : Nat) (partition_hash : List Byte)
    (entropy_chunk : Buf) (n : Nat)
    (hout : entropy_chunk.bytes.length = c.DATA_CHUNK_SIZE) :
    (∀ r, compute_entropy_chunk c fuel env mining_addr chunk_offset partition_hash
        entropy_chunk n = Exec.ret r → r.err = NO_ERROR →
      r.chunk.bytes.length = c.DATA_CHUNK_SIZE ∧
        segments_digested c r.log r.chunk.bytes ∧
        ∃ ws, r.chunk.writes = entropy_chunk.writes ++ ws ∧ populates c ws) ∧
    (∀ r, compute_start_entropy_chunk c fuel env mining_addr chunk_offset partition_hash
        entropy_chunk = Exec.ret r → r.err = NO_ERROR →
      r.chunk.bytes.length = c.DATA_CHUNK_SIZE ∧
        segments_digested c r.log r.chunk.bytes ∧
        ∃ ws, r.chunk.writes = entropy_chunk.writes ++ ws ∧ populates c ws) ∧
    (env.succeeds → c.PACKING_HASH_SIZE = EVP_sha256_size →
      mining_addr.length + 8 + partition_hash.length ≤ INT_MAX →
      n ≤ INT_MAX → c.HASH_ITERATIONS_PER_BLOCK < fuel →
      n - c.HASH_ITERATIONS_PER_BLOCK < fuel →
      (∃ r, compute_entropy_chunk c fuel env mining_addr chunk_offset partition_hash
        entropy_chunk n = Exec.ret r ∧ r.err = NO_ERROR) ∧
      ∃ r, compute_start_entropy_chunk c fuel env mining_addr chunk_offset partition_hash
        entropy_chunk = Exec.ret r ∧ r.err = NO_ERROR) := by
  refine ⟨?_, ?_, ?_⟩
  · intro r h hr
    have hdig := entropy_segments_digested hv fuel env mining_addr chunk_offset
      partition_hash entropy_chunk n r hout h hr
    have h32 := entropy_ok_size hv fuel env mining_addr chunk_offset partition_hash
      entropy_chunk n r h hr
    obtain ⟨_, _, st, _, hinv, hres⟩ := entropy_ret hv h32 fuel env mining_addr chunk_offset
      partition_hash entropy_chunk n r hout h hr
    subst hres
    exact ⟨hinv.len, hdig, mix_writes_populate hv hinv⟩
  · intro r h hr
    have hdig := start_segments_digested hv fuel env mining_addr chunk_offset
      partition_hash entropy_chunk r hout h hr
    have h32 := start_ok_size hv fuel env mining_addr chunk_offset partition_hash
      entropy_chunk r h hr
    obtain ⟨_, hres⟩ := start_ret hv h32 fuel env mining_addr chunk_offset partition_hash
      entropy_chunk r hout h hr
    subst hres
    exact ⟨chain_chunk_length hv _, hdig, fill_writes c, rfl, fill_writes_populates hv⟩
  · intro henv h32 hl hn hf1 hf2
    constructor
    · obtain ⟨st, hst, _⟩ := mix_run hv
        (last_segment c mining_addr chunk_offset partition_hash)
        (initial_chunk c mining_addr chunk_offset partition_hash) entropy_chunk
        (Nat.le_of_eq (last_segment_length hv _ _ _).symm) (initial_chunk_length hv _ _ _)
        n fuel (Or.inl hn) hf2
      exact ⟨_, entropy_of_mix hv h32 fuel env mining_addr chunk_offset partition_hash
        entropy_chunk n st henv hl hout hf1 hst, rfl⟩
    · exact ⟨_, start_run_initial hv h32 fuel env mining_addr chunk_offset partition_hash
        entropy_chunk henv.2.1 henv.2.2.1 henv.2.2.2.1 hl hout hf1, rfl⟩

/-- Instance of the above: the toy constants `64`, `32` and requested count `5`. -/
theorem successful_chunk_fully_populated_witness :
    (∀ r, compute_entropy_chunk (toy 64 32) 5 env_ok [65] 0 [80] ⟨List.replicate 64 1, []⟩ 5 =
        Exec.ret r → r.err = NO_ERROR →
      r.chunk.bytes.length = (toy 64 32).DATA_CHUNK_SIZE ∧
        segments_digested (toy 64 32) r.log r.chunk.bytes ∧
        ∃ ws, r.chunk.writes = [] ++ ws ∧ populates (toy 64 32) ws) ∧
    (∀ r, compute_start_entropy_chunk (toy 64 32) 5 env_ok [65] 0 [80]
        ⟨List.replicate 64 1, []⟩ = Exec.ret r → r.err = NO_ERROR →
      r.chunk.bytes.length = (toy 64 32).DATA_CHUNK_SIZE ∧
        segments_digested (toy 64 32) r.log r.chunk.bytes ∧
        ∃ ws, r.chunk.writes = [] ++ ws ∧ populates (toy 64 32) ws) ∧
    (env_ok.succeeds → (toy 64 32).PACKING_HASH_SIZE = EVP_sha256_size →
      [65].length + 8 + [80].length ≤ INT_MAX →
      5 ≤ INT_MAX → (toy 64 32).HASH_ITERATIONS_PER_BLOCK < 5 →
      5 - (toy 64 32).HASH_ITERATIONS_PER_BLOCK < 5 →
      (∃ r, compute_entropy_chunk (toy 64 32) 5 env_ok [65] 0 [80]
        ⟨List.replicate 64 1, []⟩ 5 = Exec.ret r ∧ r.err = NO_ERROR) ∧
      ∃ r, compute_start_entropy_chunk (toy 64 32) 5 env_ok [65] 0 [80]
        ⟨List.replicate 64 1, []⟩ = Exec.ret r ∧ r.err = NO_ERROR) :=
  successful_chunk_fully_populated (toy 64 32)
    (toy_valid 64 32 (by decide) (by decide) (by decide)) 5 env_ok [65] 0 [80]
    ⟨List.replicate 64 1, []⟩ 5 (by decide)

/-- With every resource available and a requested count above `INT_MAX`, a call of
`compute_entropy_chunk` has no result: once the fuel suffices for the initial fill, the
run either is still in the mixing loop or has ended in the overflow of `++hash_count`. -/
theorem entropy_above_int_max {c : Params} (hv : c.Valid)
    (h32 : c.PACKING_HASH_SIZE = EVP_sha256_size) (fuel : Nat) (env : Env) (a : List Byte)
    (off : Nat) (p : List Byte) (out : Buf) (n : Nat) (henv : env.succeeds)
    (hl : a.length + 8 + p.length ≤ INT_MAX)
    (hout : out.bytes.length = c.DATA_CHUNK_SIZE)
    (hfuel : c.HASH_ITERATIONS_PER_BLOCK < fuel)
    (hH : c.HASH_ITERATIONS_PER_BLOCK ≤ INT_MAX) (hn : INT_MAX < n) :
    compute_entropy_chunk c fuel env a off p out n = Exec.nofuel ∨
      compute_entropy_chunk c fuel env a off p out n = Exec.ub UB.signed_overflow := by
  obtain ⟨hmc, hm, hcs, hct, hcm⟩ := henv
  rw [entropy_normal_form hv h32 fuel env a off p out n hl hout hfuel,
    if_neg (by simp [hmc]), if_neg (by simp [hm]), if_neg (by simp [hcs]),
    if_neg (by simp [hct]), if_neg (by simp [hcm])]
  have hbig := mix_overflow hv (last_segment c a off p) (initial_chunk c a off p) out
    (Nat.le_of_eq (last_segment_length hv a off p).symm) (initial_chunk_length hv a off p)
    n (fuel + INT_MAX) hH hn (by omega)
  by_cases hnf : mix_loop c (initial_chunk c a off p) n fuel
      (mix_init c (last_segment c a off p) (initial_chunk c a off p) out) = Exec.nofuel
  · left
    rw [hnf]
    rfl
  · right
    have hmono := mix_loop_mono_ne c (initial_chunk c a off p) n fuel _ hnf
      (fuel + INT_MAX) (by omega)
    rw [hbig] at hmono
    rw [← hmono]
    rfl

set_option maxRecDepth 100000 in
/-- C9 fails on the code for requested counts above `INT_MAX`.  The requested count
`4294967295` is a value of `unsigned int` and every resource is available, yet the call of
`compute_entropy_chunk` is not a successful call that leaves a populated chunk: whatever
the fuel, the run has no result, and with enough fuel it ends in the overflow of the `int`
loop counter, when `++hash_count` is executed at `hash_count = INT_MAX`.  For the requested
count `INT_MAX` itself the same call returns `NO_ERROR` and every segment of its chunk is
the digest of an input of that call. -/
theorem entropy_chunk_undefined_above_int_max :
    4294967295 < 2 ^ 32 ∧ env_ok.succeeds ∧
    (∀ fuel,
      compute_entropy_chunk (toy 64 32) fuel env_ok [65] 0 [80] ⟨List.replicate 64 1, []⟩
          4294967295 = Exec.nofuel ∨
        compute_entropy_chunk (toy 64 32) fuel env_ok [65] 0 [80] ⟨List.replicate 64 1, []⟩
          4294967295 = Exec.ub UB.signed_overflow) ∧
    compute_entropy_chunk (toy 64 32) 4294967295 env_ok [65] 0 [80]
      ⟨List.replicate 64 1, []⟩ 4294967295 = Exec.ub UB.signed_overflow ∧
    ∃ r, compute_entropy_chunk (toy 64 32) 4294967295 env_ok [65] 0 [80]
        ⟨List.replicate 64 1, []⟩ 2147483647 = Exec.ret r ∧ r.err = NO_ERROR ∧
      r.chunk.bytes.length = 64 ∧ segments_digested (toy 64 32) r.log r.chunk.bytes := by
  have hv := toy_valid 64 32 (by decide) (by decide) (by decide)
  have hall : ∀ fuel,
      compute_entropy_chunk (toy 64 32) fuel env_ok [65] 0 [80] ⟨List.replicate 64 1, []⟩
          4294967295 = Exec.nofuel ∨
        compute_entropy_chunk (toy 64 32) fuel env_ok [65] 0 [80] ⟨List.replicate 64 1, []⟩
          4294967295 = Exec.ub UB.signed_overflow := by
    intro fuel
    by_cases hf : 2 < fuel
    · exact entropy_above_int_max hv rfl fuel env_ok [65] 0 [80] ⟨List.replicate 64 1, []⟩
        4294967295 ⟨rfl, rfl, rfl, rfl, rfl⟩ (by decide) (by decide) hf (by decide) (by decide)
    · left
      have h3 : fuel = 0 ∨ fuel = 1 ∨ fuel = 2 := by omega
      rcases h3 with rfl | rfl | rfl <;> decide
  refine ⟨by norm_num, ⟨rfl, rfl, rfl, rfl, rfl⟩, hall, ?_, ?_⟩
  · rcases hall 4294967295 with h | h
    · exfalso
      have hnf := entropy_normal_form hv rfl 4294967295 env_ok [65] 0 [80]
        ⟨List.replicate 64 1, []⟩ 4294967295 (by decide) (by decide) (by decide)
      rw [if_neg (by decide), if_neg (by decide), if_neg (by decide), if_neg (by decide),
        if_neg (by decide),
        mix_overflow hv _ _ ⟨List.replicate 64 1, []⟩
          (Nat.le_of_eq (last_segment_length hv [65] 0 [80]).symm)
          (initial_chunk_length hv [65] 0 [80]) _ _ (by decide) (by decide) (by decide)]
        at hnf
      rw [hnf] at h
      cases h
    · exact h
  · obtain ⟨_, _, hex⟩ := successful_chunk_fully_populated (toy 64 32) hv 4294967295 env_ok
      [65] 0 [80] ⟨List.replicate 64 1, []⟩ 2147483647 (by decide)
    obtain ⟨⟨r, hr, hok⟩, _⟩ := hex ⟨rfl, rfl, rfl, rfl, rfl⟩ rfl (by decide) (by decide) (by decide)
      (by decide)
    obtain ⟨hlen, hdig, _⟩ := (successful_chunk_fully_populated (toy 64 32) hv 4294967295
      env_ok [65] 0 [80] ⟨List.replicate 64 1, []⟩ 2147483647 (by decide)).1 r hr hok
    exact ⟨r, hr, hok, hlen, hdig⟩

/-- C10: two successful calls of `compute_entropy_chunk` with the same requested count
whose addresses have the same length, whose partition hashes have the same length and
whose 64-bit offsets, addresses or partition hashes differ (in one bit or more) return
different chunks, indeed chunks that differ on every segment, provided the digest gives
different outputs for any two different inputs it was applied to in the two calls. -/
theorem distinct_inputs_distinct_chunks (c : Params) (hv : c.Valid)
    (fuel1 fuel2 : Nat) (env1 env2 : Env)
    (a1 a2 : List Byte) (o1 o2 : Nat) (p1 p2 : List Byte) (out1 out2 : Buf) (n : Nat)
    (r1 r2 : Result)
    (hout1 : out1.bytes.length = c.DATA_CHUNK_SIZE)
    (hout2 : out2.bytes.length = c.DATA_CHUNK_SIZE)
    (ha : a1.length = a2.length) (hp : p1.length = p2.length)
    (ho1 : o1 < 2 ^ 64) (ho2 : o2 < 2 ^ 64)
    (hne : a1 ≠ a2 ∨ o1 ≠ o2 ∨ p1 ≠ p2)
    (h1 : compute_entropy_chunk c fuel1 env1 a1 o1 p1 out1 n = Exec.ret r1)
    (hr1 : r1.err = NO_ERROR)
    (h2 : compute_entropy_chunk c fuel2 env2 a2 o2 p2 out2 n = Exec.ret r2)
    (hr2 : r2.err = NO_ERROR)
    (hnc : ∀ x ∈ r1.log, ∀ y ∈ r2.log, x ≠ y →
      c.PACKING_HASH_ALG x ≠ c.PACKING_HASH_ALG y) :
    r1.chunk.bytes ≠ r2.chunk.bytes ∧
    ∀ k, k < c.HASH_ITERATIONS_PER_BLOCK →
      segment_at c r1.chunk.bytes k ≠ segment_at c r2.chunk.bytes k := by
  have h32 := entropy_ok_size hv fuel1 env1 a1 o1 p1 out1 n r1 h1 hr1
  obtain ⟨_, _, st1, hst1, hinv1, hres1⟩ := entropy_ret hv h32 fuel1 env1 a1 o1 p1 out1 n r1
    hout1 h1 hr1
  obtain ⟨_, _, st2, hst2, hinv2, hres2⟩ := entropy_ret hv h32 fuel2 env2 a2 o2 p2 out2 n r2
    hout2 h2 hr2
  subst hres1 hres2
  simp only at hnc ⊢
  have hH := hv.iter_pos
  -- the seed inputs differ
  have hin : seed_input c a1 o1 p1 ≠ seed_input c a2 o2 p2 := by
    intro heq
    obtain ⟨e1, e2, e3⟩ := seed_input_inj c a1 a2 o1 o2 p1 p2 ha hp heq
    rcases hne with h | h | h
    · exact h e1
    · exact h (u64_bytes_inj c o1 o2 ho1 ho2 e3)
    · exact h e2
  -- so do the seed hashes and every link of the two chains
  have hchain : ∀ k, k ≤ c.HASH_ITERATIONS_PER_BLOCK →
      c.PACKING_HASH_ALG^[k] (c.PACKING_HASH_ALG (seed_input c a1 o1 p1)) ≠
        c.PACKING_HASH_ALG^[k] (c.PACKING_HASH_ALG (seed_input c a2 o2 p2)) := by
    intro k
    induction k with
    | zero =>
      intro _
      exact hnc _ (by simp [initial_log]) _ (by simp [initial_log]) hin
    | succ k ih =>
      intro hk
      rw [Function.iterate_succ_apply', Function.iterate_succ_apply']
      refine hnc _ ?_ _ ?_ (ih (by omega))
      · apply List.mem_append_left
        exact List.mem_cons_of_mem _ (iterate_mem_fill_log c _ _ k (by omega))
      · apply List.mem_append_left
        exact List.mem_cons_of_mem _ (iterate_mem_fill_log c _ _ k (by omega))
  have hseg : ∀ k, k < c.HASH_ITERATIONS_PER_BLOCK →
      segment_at c (initial_chunk c a1 o1 p1) k ≠ segment_at c (initial_chunk c a2 o2 p2) k := by
    intro k hk
    unfold initial_chunk
    rw [segment_at_chain_chunk hv _ k hk, segment_at_chain_chunk hv _ k hk]
    exact hchain (k + 1) (by omega)
  have hl1 := last_segment_length hv a1 o1 p1
  have hl2 := last_segment_length hv a2 o2 p2
  have hinit : MixDiffer c (last_segment c a1 o1 p1) (last_segment c a2 o2 p2)
      (mix_init c (last_segment c a1 o1 p1) (initial_chunk c a1 o1 p1) out1)
      (mix_init c (last_segment c a2 o2 p2) (initial_chunk c a2 o2 p2) out2) := by
    constructor
    · rfl
    · unfold chained
      simp only [mix_init, if_true]
      rw [← hl1, List.take_length, hl1, ← hl2, List.take_length]
      exact hseg _ (by omega)
    · exact hseg
  have hfin := mix_loop_differ hv hl1 hl2 (initial_chunk_length hv a1 o1 p1)
    (initial_chunk_length hv a2 o2 p2) n (max fuel1 fuel2) _ _ st1 st2
    (mix_init_inv _ _ out1 (initial_chunk_length hv a1 o1 p1))
    (mix_init_inv _ _ out2 (initial_chunk_length hv a2 o2 p2)) hinit
    (mix_loop_mono c _ n fuel1 _ st1 hst1 _ (le_max_left _ _))
    (mix_loop_mono c _ n fuel2 _ st2 hst2 _ (le_max_right _ _))
    (fun x hx y hy => hnc x (List.mem_append_right _ hx) y (List.mem_append_right _ hy))
  refine ⟨?_, hfin.segments⟩
  intro heq
  exact hfin.segments 0 hH (by rw [heq])

set_option maxRecDepth 100000 in
/-- Instance of C10: addresses `"A"` and `"@"`, which differ in one bit. -/
theorem distinct_inputs_distinct_chunks_witness :
    compute_entropy_chunk (toy 64 32) 5 env_ok [65] 0 [80] ⟨List.replicate 64 1, []⟩ 5 =
        Exec.ret toy_run_A ∧
      compute_entropy_chunk (toy 64 32) 5 env_ok [64] 0 [80] ⟨List.replicate 64 1, []⟩ 5 =
        Exec.ret toy_run_B ∧
      (∀ x ∈ toy_run_A.log, ∀ y ∈ toy_run_B.log, x ≠ y →
        (toy 64 32).PACKING_HASH_ALG x ≠ (toy 64 32).PACKING_HASH_ALG y) ∧
      toy_run_A.chunk.bytes ≠ toy_run_B.chunk.bytes ∧
      ∀ k, k < (toy 64 32).HASH_ITERATIONS_PER_BLOCK →
        segment_at (toy 64 32) toy_run_A.chunk.bytes k ≠
          segment_at (toy 64 32) toy_run_B.chunk.bytes k :=
  ⟨by decide, by decide, by decide,
    distinct_inputs_distinct_chunks (toy 64 32)
      (toy_valid 64 32 (by decide) (by decide) (by decide)) 5 5 env_ok env_ok [65] [64] 0 0
      [80] [80] ⟨List.replicate 64 1, []⟩ ⟨List.replicate 64 1, []⟩ 5 toy_run_A toy_run_B
      (by decide) (by decide) rfl rfl (by decide) (by decide) (Or.inl (by decide))
      (by decide) rfl (by decide) rfl (by decide)⟩

/-- C11: two calls of `compute_entropy_chunk` on the same address, offset, partition hash
and requested count that both return `NO_ERROR` leave byte-identical chunks (and have
computed the same digests), whatever the two output buffers held before, whatever fresh
memory contained and however much fuel each run had. -/
theorem entropy_chunk_deterministic (c : Params) (hv : c.Valid) (fuel1 fuel2 : Nat)
    (env1 env2 : Env) (mining_addr : List Byte) (chunk_offset : Nat)
    (partition_hash : List Byte) (out1 out2 : Buf) (n : Nat) (r1 r2 : Result)
    (hout1 : out1.bytes.length = c.DATA_CHUNK_SIZE)
    (hout2 : out2.bytes.length = c.DATA_CHUNK_SIZE)
    (h1 : compute_entropy_chunk c fuel1 env1 mining_addr chunk_offset partition_hash out1 n =
      Exec.ret r1)
    (hr1 : r1.err = NO_ERROR)
    (h2 : compute_entropy_chunk c fuel2 env2 mining_addr chunk_offset partition_hash out2 n =
      Exec.ret r2)
    (hr2 : r2.err = NO_ERROR) :
    r1.chunk.bytes = r2.chunk.bytes ∧ r1.log = r2.log := by
  have h32 := entropy_ok_size hv fuel1 env1 mining_addr chunk_offset partition_hash out1 n r1
    h1 hr1
  obtain ⟨_, _, st1, hst1, _, hres1⟩ := entropy_ret hv h32 fuel1 env1 mining_addr chunk_offset
    partition_hash out1 n r1 hout1 h1 hr1
  obtain ⟨_, _, st2, hst2, _, hres2⟩ := entropy_ret hv h32 fuel2 env2 mining_addr chunk_offset
    partition_hash out2 n r2 hout2 h2 hr2
  subst hres1 hres2
  have hE := initial_chunk_length hv mining_addr chunk_offset partition_hash
  have hL := last_segment_length hv mining_addr chunk_offset partition_hash
  obtain ⟨hb, hl⟩ := mix_loop_agree hv (Nat.le_of_eq hL.symm) hE n (max fuel1 fuel2) _ _ st1 st2
    (mix_init_inv _ _ out1 hE) (mix_init_inv _ _ out2 hE) rfl rfl rfl
    (mix_loop_mono c _ n fuel1 _ st1 hst1 _ (le_max_left _ _))
    (mix_loop_mono c _ n fuel2 _ st2 hst2 _ (le_max_right _ _))
  exact ⟨hb, by rw [hl]⟩

set_option maxRecDepth 100000 in
/-- Instance of C11: two runs with different buffer contents, fresh memory and fuel. -/
theorem entropy_chunk_deterministic_witness :
    compute_entropy_chunk (toy 64 32) 5 env_ok [65] 0 [80] ⟨List.replicate 64 1, []⟩ 5 =
        Exec.ret toy_run_A ∧
      compute_entropy_chunk (toy 64 32) 9
          { env_ok with heap := fun i => i % 7, stack := fun _ => 3 } [65] 0 [80]
          ⟨List.replicate 64 200, []⟩ 5 =
        Exec.ret toy_run_A ∧
      toy_run_A.chunk.bytes = toy_run_A.chunk.bytes ∧ toy_run_A.log = toy_run_A.log :=
  ⟨by decide, by decide,
    entropy_chunk_deterministic (toy 64 32)
      (toy_valid 64 32 (by decide) (by decide) (by decide)) 5 9 env_ok
      { env_ok with heap := fun i => i % 7, stack := fun _ => 3 } [65] 0 [80]
      ⟨List.replicate 64 1, []⟩ ⟨List.replicate 64 200, []⟩ 5 toy_run_A toy_run_A
      (by decide) (by decide) (by decide) rfl (by decide) rfl⟩

/-- C12: for every requested count `n ≥ HASH_ITERATIONS_PER_BLOCK`, a call of
`compute_entropy_chunk` that returns `NO_ERROR` has computed `1 + n` digests: the seed
digest, then `n` chained ones, each applied to the output of the one before it (from the
`HASH_ITERATIONS_PER_BLOCK`-th on followed by the slot of the initial chunk that the
iteration reads).  The first `HASH_ITERATIONS_PER_BLOCK` of them are those of the initial
fill, the remaining `n - HASH_ITERATIONS_PER_BLOCK` those of the mixing loop, one per
index `j` with `HASH_ITERATIONS_PER_BLOCK ≤ j < n`.  Such calls exist when no resource
fails and the sizes and the count fit an `int`. -/
theorem entropy_chunk_digest_count (c : Params) (hv : c.Valid) (fuel : Nat) (env : Env)
    (mining_addr : List Byte) (chunk_offset : Nat) (partition_hash : List Byte)
    (entropy_chunk : Buf) (n : Nat)
    (hout : entropy_chunk.bytes.length = c.DATA_CHUNK_SIZE)
    (hn : c.HASH_ITERATIONS_PER_BLOCK ≤ n) :
    (∀ r, compute_entropy_chunk c fuel env mining_addr chunk_offset partition_hash
        entropy_chunk n = Exec.ret r → r.err = NO_ERROR →
      r.log.length = 1 + n ∧
      r.log[0]? = some (mining_addr ++ partition_hash ++ u64_bytes c chunk_offset) ∧
      r.log.take (1 + c.HASH_ITERATIONS_PER_BLOCK) =
        initial_log c mining_addr chunk_offset partition_hash ∧
      (r.log.drop (1 + c.HASH_ITERATIONS_PER_BLOCK)).length =
        n - c.HASH_ITERATIONS_PER_BLOCK ∧
      ∀ j, j < n → ∃ x, r.log[j]? = some x ∧
        r.log[j + 1]? = some (c.PACKING_HASH_ALG x ++
          if j < c.HASH_ITERATIONS_PER_BLOCK then []
          else segment_at c (initial_chunk c mining_addr chunk_offset partition_hash)
            (j % c.HASH_ITERATIONS_PER_BLOCK))) ∧
    (env.succeeds → c.PACKING_HASH_SIZE = EVP_sha256_size →
      mining_addr.length + 8 + partition_hash.length ≤ INT_MAX → n ≤ INT_MAX →
      c.HASH_ITERATIONS_PER_BLOCK < fuel → n - c.HASH_ITERATIONS_PER_BLOCK < fuel →
      ∃ r, compute_entropy_chunk c fuel env mining_addr chunk_offset partition_hash
        entropy_chunk n = Exec.ret r ∧ r.err = NO_ERROR) := by
  constructor
  · intro r h hr
    have h32 := entropy_ok_size hv fuel env mining_addr chunk_offset partition_hash
      entropy_chunk n r h hr
    obtain ⟨_, _, st, hst, _, hres⟩ := entropy_ret hv h32 fuel env mining_addr chunk_offset
      partition_hash entropy_chunk n r hout h hr
    subst hres
    obtain ⟨_, hmax, _⟩ := mix_ret_bounds c _ n fuel _ st hst (by simp [mix_init]; exact hn)
    simp only [mix_init] at hmax
    have hnm : c.HASH_ITERATIONS_PER_BLOCK + (n - c.HASH_ITERATIONS_PER_BLOCK) = n := by omega
    obtain ⟨st', hst', hlen, hlink, _⟩ := mix_log_linked hv mining_addr chunk_offset
      partition_hash entropy_chunk (n - c.HASH_ITERATIONS_PER_BLOCK) (by
        by_cases h0 : n - c.HASH_ITERATIONS_PER_BLOCK = 0
        · exact Or.inl h0
        · exact Or.inr (by rw [hnm]; exact hmax (by omega)))
    rw [hnm] at hst'
    have := mix_loop_unique c _ _ _ _ _ st' st hst' hst
    subst this
    have hil := initial_log_length c mining_addr chunk_offset partition_hash
    simp only
    refine ⟨?_, ?_, ?_, ?_, ?_⟩
    · rw [List.length_append, hil, hlen]; omega
    · simp [initial_log, seed_input]
    · rw [← hil, List.take_left']
      rfl
    · rw [← hil, List.drop_left']
      · exact hlen
      · rfl
    · intro j hj
      exact hlink j (by rw [List.length_append, hil, hlen]; omega)
  · intro henv h32 hl hmax hf1 hf2
    obtain ⟨st, hst, _⟩ := mix_run hv
      (last_segment c mining_addr chunk_offset partition_hash)
      (initial_chunk c mining_addr chunk_offset partition_hash) entropy_chunk
      (Nat.le_of_eq (last_segment_length hv _ _ _).symm) (initial_chunk_length hv _ _ _)
      n fuel (Or.inl hmax) hf2
    exact ⟨_, entropy_of_mix hv h32 fuel env mining_addr chunk_offset partition_hash
      entropy_chunk n st henv hl hout hf1 hst, rfl⟩

/-- Instance of C12: the toy constants `64`, `32` and requested count `5`. -/
theorem entropy_chunk_digest_count_witness :
    (∀ r, compute_entropy_chunk (toy 64 32) 5 env_ok [65] 0 [80] ⟨List.replicate 64 1, []⟩ 5 =
        Exec.ret r → r.err = NO_ERROR →
      r.log.length = 1 + 5 ∧
      r.log[0]? = some ([65] ++ [80] ++ u64_bytes (toy 64 32) 0) ∧
      r.log.take (1 + (toy 64 32).HASH_ITERATIONS_PER_BLOCK) =
        initial_log (toy 64 32) [65] 0 [80] ∧
      (r.log.drop (1 + (toy 64 32).HASH_ITERATIONS_PER_BLOCK)).length =
        5 - (toy 64 32).HASH_ITERATIONS_PER_BLOCK ∧
      ∀ j, j < 5 → ∃ x, r.log[j]? = some x ∧
        r.log[j + 1]? = some ((toy 64 32).PACKING_HASH_ALG x ++
          if j < (toy 64 32).HASH_ITERATIONS_PER_BLOCK then []
          else segment_at (toy 64 32) (initial_chunk (toy 64 32) [65] 0 [80])
            (j % (toy 64 32).HASH_ITERATIONS_PER_BLOCK))) ∧
    (env_ok.succeeds → (toy 64 32).PACKING_HASH_SIZE = EVP_sha256_size →
      [65].length + 8 + [80].length ≤ INT_MAX → 5 ≤ INT_MAX →
      (toy 64 32).HASH_ITERATIONS_PER_BLOCK < 5 →
      5 - (toy 64 32).HASH_ITERATIONS_PER_BLOCK < 5 →
      ∃ r, compute_entropy_chunk (toy 64 32) 5 env_ok [65] 0 [80]
        ⟨List.replicate 64 1, []⟩ 5 = Exec.ret r ∧ r.err = NO_ERROR) :=
  entropy_chunk_digest_count (toy 64 32)
    (toy_valid 64 32 (by decide) (by decide) (by decide)) 5 env_ok [65] 0 [80]
    ⟨List.replicate 64 1, []⟩ 5 (by decide) (by decide)

/-- C13: when the digest has `PACKING_HASH_SIZE > 0` bytes and that size divides
`DATA_CHUNK_SIZE`, the fill loop of `compute_start_entropy_chunk2` returns after exactly
`DATA_CHUNK_SIZE / PACKING_HASH_SIZE` iterations (with that much fuel or less it has not
finished, with more it has, having computed that many digests and made that many stores)
and leaves `chunk_len = DATA_CHUNK_SIZE`; every store is a full segment at a multiple of
the segment size inside the buffer, and the last one ends at `DATA_CHUNK_SIZE`. -/
theorem fill_loop_terminates_on_boundary (c : Params)
    (hd : ∀ m, (c.PACKING_HASH_ALG m).length = c.PACKING_HASH_SIZE)
    (hP : 0 < c.PACKING_HASH_SIZE) (hdvd : c.PACKING_HASH_SIZE ∣ c.DATA_CHUNK_SIZE)
    (env : Env) (seed : List Byte) (chunk : Buf)
    (hlen : chunk.bytes.length = c.DATA_CHUNK_SIZE) :
    (∀ fuel, c.DATA_CHUNK_SIZE / c.PACKING_HASH_SIZE < fuel →
      ∃ st, fill_loop c fuel ⟨chunk, 0, SegPtr.arg seed, seed.length, []⟩ = Exec.ret st ∧
        st.chunk_len = c.DATA_CHUNK_SIZE ∧
        st.log.length = c.DATA_CHUNK_SIZE / c.PACKING_HASH_SIZE ∧
        st.chunk.bytes.length = c.DATA_CHUNK_SIZE ∧
        st.chunk.writes = chunk.writes ++
          (List.range (c.DATA_CHUNK_SIZE / c.PACKING_HASH_SIZE)).map
            (fun k => (k * c.PACKING_HASH_SIZE, c.PACKING_HASH_SIZE)) ∧
        (env.ctx_start = true →
          compute_start_entropy_chunk2 c fuel env seed chunk =
            Exec.ret ⟨NO_ERROR, st.chunk, st.log⟩)) ∧
    (∀ fuel, fuel ≤ c.DATA_CHUNK_SIZE / c.PACKING_HASH_SIZE →
      fill_loop c fuel ⟨chunk, 0, SegPtr.arg seed, seed.length, []⟩ = Exec.nofuel) ∧
    (∀ k, k < c.DATA_CHUNK_SIZE / c.PACKING_HASH_SIZE →
      k * c.PACKING_HASH_SIZE + c.PACKING_HASH_SIZE ≤ c.DATA_CHUNK_SIZE) ∧
    (0 < c.DATA_CHUNK_SIZE →
      (c.DATA_CHUNK_SIZE / c.PACKING_HASH_SIZE - 1) * c.PACKING_HASH_SIZE +
        c.PACKING_HASH_SIZE = c.DATA_CHUNK_SIZE) := by
  have hmul : c.DATA_CHUNK_SIZE / c.PACKING_HASH_SIZE * c.PACKING_HASH_SIZE =
      c.DATA_CHUNK_SIZE := Nat.div_mul_cancel hdvd
  have hderef : deref ⟨[] ++ chunk.bytes, chunk.writes⟩ (SegPtr.arg seed) seed.length =
      Exec.ret seed := by simp [deref, load]
  refine ⟨?_, ?_, ?_, ?_⟩
  · intro fuel hfuel
    obtain ⟨st, hrun, hb, hw, hl, hcl⟩ := fill_loop_run c hd hP
      (c.DATA_CHUNK_SIZE / c.PACKING_HASH_SIZE) [] chunk.bytes chunk.writes (SegPtr.arg seed)
      seed.length [] seed fuel (by rw [hlen, hmul]) (by simp [hmul]) hderef hfuel
    simp only [List.nil_append, List.length_nil, Nat.zero_add] at hrun hb hw hl
    refine ⟨st, hrun, hcl, ?_, ?_, hw, ?_⟩
    · rw [hl, fill_log_length]
    · rw [hb, chain_flatten_length c hd, hmul]
    · intro hctx
      unfold compute_start_entropy_chunk2
      rw [hctx]
      simp only [Bool.not_true, Bool.false_eq_true, if_false, hrun, Exec.ret_bind]
  · intro fuel hfuel
    exact fill_loop_short c hd hP (c.DATA_CHUNK_SIZE / c.PACKING_HASH_SIZE) [] chunk.bytes
      chunk.writes (SegPtr.arg seed) seed.length [] seed fuel (by rw [hlen, hmul])
      (by simp [hmul]) hderef hfuel
  · intro k hk
    have := Nat.mul_le_mul_right c.PACKING_HASH_SIZE (Nat.succ_le_of_lt hk)
    rw [hmul, Nat.succ_mul] at this
    exact this
  · intro hD
    have hq : 0 < c.DATA_CHUNK_SIZE / c.PACKING_HASH_SIZE := by
      rcases Nat.eq_zero_or_pos (c.DATA_CHUNK_SIZE / c.PACKING_HASH_SIZE) with h0 | h0
      · rw [h0] at hmul; omega
      · exact h0
    have h1 : (c.DATA_CHUNK_SIZE / c.PACKING_HASH_SIZE - 1 + 1) * c.PACKING_HASH_SIZE =
        c.DATA_CHUNK_SIZE := by
      rw [Nat.sub_add_cancel hq]; exact hmul
    rw [Nat.succ_mul] at h1
    exact h1

/-- Instance of C13: a six-byte chunk and a two-byte digest, three iterations. -/
theorem fill_loop_terminates_on_boundary_witness :
    (∀ fuel, (toy 6 2).DATA_CHUNK_SIZE / (toy 6 2).PACKING_HASH_SIZE < fuel →
      ∃ st, fill_loop (toy 6 2) fuel
          ⟨⟨[9, 9, 9, 9, 9, 9], []⟩, 0, SegPtr.arg [7], [7].length, []⟩ = Exec.ret st ∧
        st.chunk_len = (toy 6 2).DATA_CHUNK_SIZE ∧
        st.log.length = (toy 6 2).DATA_CHUNK_SIZE / (toy 6 2).PACKING_HASH_SIZE ∧
        st.chunk.bytes.length = (toy 6 2).DATA_CHUNK_SIZE ∧
        st.chunk.writes = [] ++
          (List.range ((toy 6 2).DATA_CHUNK_SIZE / (toy 6 2).PACKING_HASH_SIZE)).map
            (fun k => (k * (toy 6 2).PACKING_HASH_SIZE, (toy 6 2).PACKING_HASH_SIZE)) ∧
        (env_ok.ctx_start = true →
          compute_start_entropy_chunk2 (toy 6 2) fuel env_ok [7] ⟨[9, 9, 9, 9, 9, 9], []⟩ =
            Exec.ret ⟨NO_ERROR, st.chunk, st.log⟩)) ∧
    (∀ fuel, fuel ≤ (toy 6 2).DATA_CHUNK_SIZE / (toy 6 2).PACKING_HASH_SIZE →
      fill_loop (toy 6 2) fuel
        ⟨⟨[9, 9, 9, 9, 9, 9], []⟩, 0, SegPtr.arg [7], [7].length, []⟩ = Exec.nofuel) ∧
    (∀ k, k < (toy 6 2).DATA_CHUNK_SIZE / (toy 6 2).PACKING_HASH_SIZE →
      k * (toy 6 2).PACKING_HASH_SIZE + (toy 6 2).PACKING_HASH_SIZE ≤
        (toy 6 2).DATA_CHUNK_SIZE) ∧
    (0 < (toy 6 2).DATA_CHUNK_SIZE →
      ((toy 6 2).DATA_CHUNK_SIZE / (toy 6 2).PACKING_HASH_SIZE - 1) *
          (toy 6 2).PACKING_HASH_SIZE + (toy 6 2).PACKING_HASH_SIZE =
        (toy 6 2).DATA_CHUNK_SIZE) :=
  fill_loop_terminates_on_boundary (toy 6 2) (fun m => by simp [toy, test_digest])
    (by decide) (by decide) env_ok [7] ⟨[9, 9, 9, 9, 9, 9], []⟩ rfl

/-- C14: for every count `n ≥ HASH_ITERATIONS_PER_BLOCK` and all identity inputs, the
chunk returned by `compute_entropy_chunk` for the requested count `n + 1` agrees with the
one returned for `n` on every segment except slot `n % HASH_ITERATIONS_PER_BLOCK`, and
that slot is the digest of slot `(n - 1) % HASH_ITERATIONS_PER_BLOCK` of the chunk for `n`
followed by slot `n % HASH_ITERATIONS_PER_BLOCK` of the chunk returned by
`compute_start_entropy_chunk`.  The three calls are any calls that return `NO_ERROR`. -/
theorem entropy_chunk_incremental_step (c : Params) (hv : c.Valid)
    (fuel0 fuel1 fuel2 : Nat) (env0 env1 env2 : Env) (mining_addr : List Byte)
    (chunk_offset : Nat) (partition_hash : List Byte) (chunk out1 out2 : Buf) (n : Nat)
    (s r1 r2 : Result)
    (hchunk : chunk.bytes.length = c.DATA_CHUNK_SIZE)
    (hout1 : out1.bytes.length = c.DATA_CHUNK_SIZE)
    (hout2 : out2.bytes.length = c.DATA_CHUNK_SIZE)
    (hn : c.HASH_ITERATIONS_PER_BLOCK ≤ n)
    (h0 : compute_start_entropy_chunk c fuel0 env0 mining_addr chunk_offset partition_hash
      chunk = Exec.ret s)
    (hs : s.err = NO_ERROR)
    (h1 : compute_entropy_chunk c fuel1 env1 mining_addr chunk_offset partition_hash out1 n =
      Exec.ret r1)
    (hr1 : r1.err = NO_ERROR)
    (h2 : compute_entropy_chunk c fuel2 env2 mining_addr chunk_offset partition_hash out2
      (n + 1) = Exec.ret r2)
    (hr2 : r2.err = NO_ERROR) :
    (∀ k, k ≠ n % c.HASH_ITERATIONS_PER_BLOCK →
      segment_at c r2.chunk.bytes k = segment_at c r1.chunk.bytes k) ∧
    segment_at c r2.chunk.bytes (n % c.HASH_ITERATIONS_PER_BLOCK) =
      c.PACKING_HASH_ALG
        (segment_at c r1.chunk.bytes ((n - 1) % c.HASH_ITERATIONS_PER_BLOCK) ++
          segment_at c s.chunk.bytes (n % c.HASH_ITERATIONS_PER_BLOCK)) := by
  have h32 := start_ok_size hv fuel0 env0 mining_addr chunk_offset partition_hash chunk s h0 hs
  obtain ⟨_, hsr⟩ := start_ret hv h32 fuel0 env0 mining_addr chunk_offset partition_hash chunk
    s hchunk h0 hs
  obtain ⟨_, _, st1, hst1, _, hres1⟩ := entropy_ret hv h32 fuel1 env1 mining_addr chunk_offset
    partition_hash out1 n r1 hout1 h1 hr1
  obtain ⟨_, _, st2, hst2, _, hres2⟩ := entropy_ret hv h32 fuel2 env2 mining_addr chunk_offset
    partition_hash out2 (n + 1) r2 hout2 h2 hr2
  subst hsr hres1 hres2
  have hE := initial_chunk_length hv mining_addr chunk_offset partition_hash
  have hL := last_segment_length hv mining_addr chunk_offset partition_hash
  obtain ⟨_, hmax, hf2⟩ := mix_ret_bounds c _ (n + 1) fuel2 _ st2 hst2
    (by simp [mix_init]; omega)
  have hmax' : n + 1 ≤ INT_MAX := hmax (by simp [mix_init]; omega)
  simp only [mix_init] at hf2
  obtain ⟨sa, sb, hsa, hsb, hia, _, hca, _, hbytes, _, _⟩ := mix_step hv
    (last_segment c mining_addr chunk_offset partition_hash)
    (initial_chunk c mining_addr chunk_offset partition_hash) out2 (Nat.le_of_eq hL.symm) hE
    n fuel2 hn (by omega) hf2
  have hsb2 := mix_loop_unique c _ _ _ _ _ sb st2 hsb hst2
  subst hsb2
  obtain ⟨hab, _⟩ := mix_loop_agree hv (Nat.le_of_eq hL.symm) hE n (max fuel2 fuel1) _ _ sa st1
    (mix_init_inv _ _ out2 hE) (mix_init_inv _ _ out1 hE) rfl rfl rfl
    (mix_loop_mono c _ n fuel2 _ sa hsa _ (le_max_left _ _))
    (mix_loop_mono c _ n fuel1 _ st1 hst1 _ (le_max_right _ _))
  have hch := chained_eq_prev_slot hv mining_addr chunk_offset partition_hash hia
  rw [hca] at hch
  rw [hch] at hbytes
  have hfit : n % c.HASH_ITERATIONS_PER_BLOCK * c.PACKING_HASH_SIZE + c.PACKING_HASH_SIZE ≤
      sa.new_entropy_chunk.bytes.length := by rw [hia.len]; exact hv.slot_fits n
  simp only
  rw [← hab]
  constructor
  · intro k hk
    rw [hbytes]
    have h := segment_at_patch_other c sa.new_entropy_chunk.bytes
      (c.PACKING_HASH_ALG
        (segment_at c sa.new_entropy_chunk.bytes ((n - 1) % c.HASH_ITERATIONS_PER_BLOCK) ++
          segment_at c (initial_chunk c mining_addr chunk_offset partition_hash)
            (n % c.HASH_ITERATIONS_PER_BLOCK)))
      (n % c.HASH_ITERATIONS_PER_BLOCK) k (hv.digest_len _) hfit hk
    rw [hv.digest_len] at h
    exact h
  · rw [hbytes]
    have h := segment_at_patch_same c sa.new_entropy_chunk.bytes
      (c.PACKING_HASH_ALG
        (segment_at c sa.new_entropy_chunk.bytes ((n - 1) % c.HASH_ITERATIONS_PER_BLOCK) ++
          segment_at c (initial_chunk c mining_addr chunk_offset partition_hash)
            (n % c.HASH_ITERATIONS_PER_BLOCK)))
      (n % c.HASH_ITERATIONS_PER_BLOCK) (hv.digest_len _) hfit
    rw [hv.digest_len] at h
    exact h

set_option maxRecDepth 100000 in
/-- Instance of C14: the toy constants `64`, `32`, counts `4` and `5` (second wrap cycle). -/
theorem entropy_chunk_incremental_step_witness :
    compute_start_entropy_chunk (toy 64 32) 3 env_ok [65] 0 [80] ⟨List.replicate 64 0, []⟩ =
        Exec.ret toy_run_start ∧
      compute_entropy_chunk (toy 64 32) 5 env_ok [65] 0 [80] ⟨List.replicate 64 1, []⟩ 4 =
        Exec.ret toy_run_A4 ∧
      compute_entropy_chunk (toy 64 32) 5 env_ok [65] 0 [80] ⟨List.replicate 64 1, []⟩ (4 + 1) =
        Exec.ret toy_run_A ∧
      (∀ k, k ≠ 4 % (toy 64 32).HASH_ITERATIONS_PER_BLOCK →
        segment_at (toy 64 32) toy_run_A.chunk.bytes k =
          segment_at (toy 64 32) toy_run_A4.chunk.bytes k) ∧
      segment_at (toy 64 32) toy_run_A.chunk.bytes (4 % (toy 64 32).HASH_ITERATIONS_PER_BLOCK) =
        (toy 64 32).PACKING_HASH_ALG
          (segment_at (toy 64 32) toy_run_A4.chunk.bytes
              ((4 - 1) % (toy 64 32).HASH_ITERATIONS_PER_BLOCK) ++
            segment_at (toy 64 32) toy_run_start.chunk.bytes
              (4 % (toy 64 32).HASH_ITERATIONS_PER_BLOCK)) :=
  ⟨by decide, by decide, by decide,
    entropy_chunk_incremental_step (toy 64 32)
      (toy_valid 64 32 (by decide) (by decide) (by decide)) 3 5 5 env_ok env_ok env_ok [65] 0
      [80] ⟨List.replicate 64 0, []⟩ ⟨List.replicate 64 1, []⟩ ⟨List.replicate 64 1, []⟩ 4
      toy_run_start toy_run_A4 toy_run_A (by decide) (by decide) (by decide) (by decide)
      (by decide) rfl (by decide) rfl (by decide) rfl⟩

/-- C15: the seed hash, the initial chunk and the entropy chunk depend on the address and
the partition hash only through their concatenation: when `a ++ p = a' ++ p'`, the three
functions behave identically on `(a, p)` and on `(a', p')` for the same offset, requested
count, buffers and resources. -/
theorem outputs_depend_on_concatenation (c : Params) (fuel : Nat) (env : Env)
    (a a' : List Byte) (chunk_offset : Nat) (p p' : List Byte) (seed_hash chunk : Buf)
    (n : Nat) (h : a ++ p = a' ++ p') :
    compute_seed_hash c env a chunk_offset p seed_hash =
      compute_seed_hash c env a' chunk_offset p' seed_hash ∧
    compute_start_entropy_chunk c fuel env a chunk_offset p chunk =
      compute_start_entropy_chunk c fuel env a' chunk_offset p' chunk ∧
    compute_entropy_chunk c fuel env a chunk_offset p chunk n =
      compute_entropy_chunk c fuel env a' chunk_offset p' chunk n := by
  have hstart : ∀ ch : Buf, compute_start_entropy_chunk c fuel env a chunk_offset p ch =
      compute_start_entropy_chunk c fuel env a' chunk_offset p' ch := by
    intro ch
    unfold compute_start_entropy_chunk
    simp only [seed_hash_concat c env a a' chunk_offset p p' _ h]
  refine ⟨seed_hash_concat c env a a' chunk_offset p p' seed_hash h, hstart chunk, ?_⟩
  unfold compute_entropy_chunk
  simp only [hstart]

set_option maxRecDepth 100000 in
/-- Instance of C15: `"AP"` with an empty partition hash against `"A"` with `"P"`. -/
theorem outputs_depend_on_concatenation_witness :
    ([65, 80] : List Byte) ++ [] = [65] ++ [80] ∧
    compute_entropy_chunk (toy 64 32) 5 env_ok [65] 0 [80] ⟨List.replicate 64 1, []⟩ 5 =
      Exec.ret toy_run_A ∧
    compute_seed_hash (toy 64 32) env_ok [65, 80] 0 [] ⟨List.replicate 32 0, []⟩ =
      compute_seed_hash (toy 64 32) env_ok [65] 0 [80] ⟨List.replicate 32 0, []⟩ ∧
    compute_start_entropy_chunk (toy 64 32) 5 env_ok [65, 80] 0 []
        ⟨List.replicate 64 1, []⟩ =
      compute_start_entropy_chunk (toy 64 32) 5 env_ok [65] 0 [80]
        ⟨List.replicate 64 1, []⟩ ∧
    compute_entropy_chunk (toy 64 32) 5 env_ok [65, 80] 0 [] ⟨List.replicate 64 1, []⟩ 5 =
      compute_entropy_chunk (toy 64 32) 5 env_ok [65] 0 [80] ⟨List.replicate 64 1, []⟩ 5 :=
  ⟨rfl, by decide,
    outputs_depend_on_concatenation (toy 64 32) 5 env_ok [65, 80] [65] 0 [] [80]
      ⟨List.replicate 32 0, []⟩ ⟨List.replicate 64 1, []⟩ 5 rfl⟩

/-- C16 fails on the code: the loop counter of `compute_entropy_chunk2` is an `int`, and
for the requested count `2147483648`, a value of `unsigned int`, the loop reaches
`hash_count = INT_MAX` with the loop condition still true and `++hash_count` overflows.
The same happens in `compute_entropy_chunk`. -/
theorem mix_counter_overflows :
    2147483648 < 2 ^ 32 ∧
    compute_entropy_chunk2 (toy 2 1) 2147483648 env_ok [5] [4, 5] ⟨[0, 0], []⟩ 2147483648 =
      Exec.ub UB.signed_overflow ∧
    compute_entropy_chunk (toy 64 32) 2147483648 env_ok [65] 0 [80]
      ⟨List.replicate 64 1, []⟩ 2147483648 = Exec.ub UB.signed_overflow := by
  have hv1 := toy_valid 2 1 (by decide) (by decide) (by decide)
  have hv2 := toy_valid 64 32 (by decide) (by decide) (by decide)
  refine ⟨by norm_num, ?_, ?_⟩
  · rw [chunk2_unfold (toy 2 1) _ env_ok [5] [4, 5] ⟨[0, 0], []⟩ _ rfl rfl,
      if_neg (by decide),
      mix_overflow hv1 [5] [4, 5] ⟨[0, 0], []⟩ (by decide) rfl _ _ (by decide) (by decide)
        (by decide)]
    rfl
  · rw [entropy_normal_form hv2 rfl _ env_ok [65] 0 [80] ⟨List.replicate 64 1, []⟩ _
        (by decide) (by decide) (by decide),
      if_neg (by decide), if_neg (by decide), if_neg (by decide), if_neg (by decide),
      if_neg (by decide),
      mix_overflow hv2 _ _ ⟨List.replicate 64 1, []⟩
        (Nat.le_of_eq (last_segment_length hv2 [65] 0 [80]).symm)
        (initial_chunk_length hv2 [65] 0 [80]) _ _ (by decide) (by decide) (by decide)]
    rfl

end CapacitySingle
